import Mathlib

/-!
A verification development for ckmame, a program that checks rom sets against a
catalog, and for the early libzip it ships with. It is a shallow embedding of

* `src/src/file.cc`: `File::compare_size_crc` and its helpers;
* `src/src/tree.cc`: the tree of games (`tree_new`, `tree_add`, `tree_add_node`,
  `tree_recheck`, `tree_traverse`, `tree_process`);
* `src/libzip/zip_close.c`, `src/libzip/zip_open.c`: committing and opening an
  archive, with `fwrite` as `src/regress/fwrite.c` overrides it.

The definitions come first; the theorems about them follow, file by file.
-/

namespace Ckmame

/-! ## file.cc -/

/-- Modelled from the spec: the hash types of `Hashes` (hashes.h is not among the
sources): `Hashes::TYPE_CRC`, `Hashes::TYPE_MD5`, `Hashes::TYPE_SHA1`. -/
inductive HashType where
  | TYPE_CRC
  | TYPE_MD5
  | TYPE_SHA1
  deriving DecidableEq, Repr

/-- Modelled from the spec: class `Hashes` (hashes.h is not among the sources). A
file carries zero or more content hashes; `has_crc`, `has_md5`, `has_sha1` are
the bits of the member `types`, the other fields are the stored values. -/
structure Hashes where
  has_crc : Bool
  has_md5 : Bool
  has_sha1 : Bool
  crc : Nat
  md5 : List Nat
  sha1 : List Nat
  deriving DecidableEq, Repr

/-- Modelled from the spec: `Hashes::has_type` (hashes.h): the bit of the type is
set in `types`. -/
def Hashes.has_type (h : Hashes) : HashType → Bool
  | .TYPE_CRC => h.has_crc
  | .TYPE_MD5 => h.has_md5
  | .TYPE_SHA1 => h.has_sha1

/-- Modelled from the spec: `Hashes::empty` (hashes.h): no type is set. -/
def Hashes.empty (h : Hashes) : Bool :=
  !h.has_crc && !h.has_md5 && !h.has_sha1

/-- Modelled from the spec: `SIZE_UNKNOWN` (file.h), the value of a size that is
not known (`UINT64_MAX`). -/
def SIZE_UNKNOWN : Nat := 2 ^ 64 - 1

/-- Modelled from the spec: the data members of class `File` that the comparison
reads (file.h is not among the sources): size and hashes of the file, and size
and hashes of the file after a header detector was applied. -/
structure File where
  name : String
  merge : String
  size : Nat
  hashes : Hashes
  size_detector : Nat
  hashes_detector : Hashes
  deriving DecidableEq, Repr

/-- Modelled from the spec: `File::get_size(detector)` (file.h). -/
def File.get_size (f : File) (detector : Bool) : Nat :=
  if detector then f.size_detector else f.size

/-- Modelled from the spec: `File::get_hashes(detector)` (file.h). -/
def File.get_hashes (f : File) (detector : Bool) : Hashes :=
  if detector then f.hashes_detector else f.hashes

/-- Modelled from the spec: `File::is_size_known(detector)` (file.h); the argument
defaults to false. -/
def File.is_size_known (f : File) (detector : Bool) : Bool :=
  f.get_size detector != SIZE_UNKNOWN

/-- `File::size_hashes_are_set` (file.cc). -/
def File.size_hashes_are_set (f : File) (detector : Bool) : Bool :=
  f.is_size_known detector && !(f.get_hashes detector).empty

/-- `File::compare_size_crc_one` (file.cc), statement for statement. -/
def File.compare_size_crc_one (self other : File) (detector : Bool) : Bool :=
  if detector && !other.size_hashes_are_set detector then
    false
  else if self.is_size_known false && other.is_size_known detector
      && self.size != other.get_size detector then
    false
  else if self.hashes.empty then
    true
  else if self.hashes.has_type .TYPE_CRC && (other.get_hashes detector).has_type .TYPE_CRC
      && self.hashes.crc == (other.get_hashes detector).crc then
    true
  else
    false

/-- `File::compare_size_crc` (file.cc). -/
def File.compare_size_crc (self other : File) : Bool :=
  self.compare_size_crc_one other false || self.compare_size_crc_one other true

/-- The sizes of two files agree, or at least one of them is unknown. -/
def sizes_agree (a b : File) : Prop :=
  a.size = b.size ∨ a.size = SIZE_UNKNOWN ∨ b.size = SIZE_UNKNOWN

/-- No hash type is carried by both files. -/
def disjoint_types (a b : File) : Prop :=
  ∀ t : HashType, ¬ (a.hashes.has_type t = true ∧ b.hashes.has_type t = true)

/-- Hashes without any type. -/
def no_hashes : Hashes := ⟨false, false, false, 0, [], []⟩

/-- Hashes with a CRC only. -/
def crc_only (c : Nat) : Hashes := ⟨true, false, false, c, [], []⟩

/-- Hashes with an MD5 only. -/
def md5_only (m : List Nat) : Hashes := ⟨false, true, false, 0, m, []⟩

/-- Hashes with a SHA1 only. -/
def sha1_only (s : List Nat) : Hashes := ⟨false, false, true, 0, [], s⟩

/-- Hashes with a CRC and a SHA1. -/
def crc_sha1 (c : Nat) (s : List Nat) : Hashes := ⟨true, false, true, c, [], s⟩

/-- A file without detector data: `size_detector` is unknown and
`hashes_detector` is empty. -/
def plain_file (name : String) (size : Nat) (h : Hashes) : File :=
  ⟨name, "", size, h, SIZE_UNKNOWN, no_hashes⟩


/-! ## tree.cc: building the tree -/

/-- Modelled from the spec: `tree_t` (tree.h is not among the sources), with the
members tree.cc uses: a node of the tree of games. `null` is the NULL pointer,
`child` points to the first child and `next` to the next sibling; the root is the
only node whose `name` is NULL. -/
inductive tree_t where
  | null : tree_t
  | node (name : Option String) (check checked : Bool) (child next : tree_t) : tree_t
  deriving DecidableEq, Repr

/-- Modelled from the spec: the members of a game that `tree_add` reads (game.h
is not among the sources): `cloneof0` is `cloneof[0]`, the name of the parent,
and `cloneof1` is `cloneof[1]`, the name of the grandparent; the empty string
stands for an absent ancestor. -/
structure Game where
  name : String
  cloneof0 : String
  cloneof1 : String
  deriving DecidableEq, Repr

/-- The catalog as seen through `romdb_read_game(db, name)`: the game of that
name, or nothing for an unknown name. -/
abbrev romdb := String → Option Game

/-- `strcmp`: negative, zero or positive as `a` sorts before, equal to or after
`b` (the order of the bytes is the order of the characters). -/
def strcmp (a b : String) : Int :=
  if a.toList < b.toList then -1 else if a = b then 0 else 1

/-- `tree_new` (tree.cc). -/
def tree_new : tree_t := .node none false false .null .null

/-- `tree_new_full` (tree.cc). -/
def tree_new_full (name : String) (check : Bool) : tree_t :=
  .node (some name) check false .null .null

/-- The `for` loop of `tree_add_node` (tree.cc): `tree` walks along the siblings,
looking at `tree->next`. The node the C function returns is handed to `k`, which
stands for what the caller does through the returned pointer; the result is the
updated list from `tree` on. `none` is a NULL pointer dereference. -/
def tree_add_node_loop (name : String) (check : Bool) (k : tree_t → Option tree_t) :
    tree_t → Option tree_t
  | .null => none
  | .node nm ck cd ch nx =>
    match nx with
    | .null =>
      (k (tree_new_full name check)).map (fun t => .node nm ck cd ch t)
    | .node nnm nck ncd nch nnx =>
      match nnm with
      | none => none
      | some n =>
        if strcmp n name == 0 then
          (k (.node nnm (if check then true else nck) ncd nch nnx)).map
            (fun t => .node nm ck cd ch t)
        else if strcmp n name > 0 then
          (k (.node (some name) check false .null (.node nnm nck ncd nch nnx))).map
            (fun t => .node nm ck cd ch t)
        else
          (tree_add_node_loop name check k (.node nnm nck ncd nch nnx)).map
            (fun r => .node nm ck cd ch r)

/-- `tree_add_node` (tree.cc): finds or creates the child `name` of `tree`, keeping
the children ordered by name. The node the C function returns is handed to `k`,
which stands for what the caller does through the returned pointer; the result
is the updated `tree`. `none` is a NULL pointer dereference. -/
def tree_add_node (tree : tree_t) (name : String) (check : Bool)
    (k : tree_t → Option tree_t) : Option tree_t :=
  match tree with
  | .null => none
  | .node nm ck cd ch nx =>
    match ch with
    | .null =>
      (k (tree_new_full name check)).map (fun t => .node nm ck cd t nx)
    | .node cnm cck ccd cch cnx =>
      match cnm with
      | none => none
      | some n =>
        if strcmp n name == 0 then
          (k (.node cnm (if check then true else cck) ccd cch cnx)).map
            (fun t => .node nm ck cd t nx)
        else if strcmp n name > 0 then
          (k (.node (some name) check false .null (.node cnm cck ccd cch cnx))).map
            (fun t => .node nm ck cd t nx)
        else
          (tree_add_node_loop name check k (.node cnm cck ccd cch cnx)).map
            (fun c => .node nm ck cd c nx)

/-- `tree_add` (tree.cc): the updated tree and the value returned. The three
calls of `tree_add_node` are chained through the pointer each returns. -/
def tree_add (db : romdb) (tree : tree_t) (name : String) : Option (tree_t × Int) :=
  match db name with
  | none => some (tree, -1)
  | some game =>
    let add_name : tree_t → Option tree_t := fun t => tree_add_node t name true some
    let add_parent : tree_t → Option tree_t := fun t =>
      if game.cloneof0 ≠ "" then tree_add_node t game.cloneof0 false add_name else add_name t
    let r := if game.cloneof1 ≠ "" then tree_add_node tree game.cloneof1 false add_parent
      else add_parent tree
    r.map (fun t => (t, 0))

/-- The calls `tree_add(tree, name)` for the names of a list, in turn, as the
main program does; the values returned are dropped. -/
def tree_add_list (db : romdb) : List String → tree_t → Option tree_t
  | [], tree => some tree
  | name :: rest, tree =>
    match tree_add db tree name with
    | none => none
    | some (t, _) => tree_add_list db rest t

/-! ### Reading a tree -/

/-- Name of a node. -/
def tree_t.name : tree_t → Option String
  | .null => none
  | .node nm _ _ _ _ => nm

/-- The flag `check` of a node. -/
def tree_t.check : tree_t → Bool
  | .null => false
  | .node _ ck _ _ _ => ck

/-- The flag `checked` of a node. -/
def tree_t.checked : tree_t → Bool
  | .null => false
  | .node _ _ cd _ _ => cd

/-- First child of a node. -/
def tree_t.child : tree_t → tree_t
  | .null => .null
  | .node _ _ _ ch _ => ch

/-- Next sibling of a node. -/
def tree_t.next : tree_t → tree_t
  | .null => .null
  | .node _ _ _ _ nx => nx

/-- The names along a list of siblings, in order. -/
def chain_names : tree_t → List (Option String)
  | .null => []
  | .node nm _ _ _ nx => nm :: chain_names nx

/-- The first node called `name` in a list of siblings, on its own: with its
children and without its siblings. -/
def chain_find (name : String) : tree_t → Option tree_t
  | .null => none
  | .node nm ck cd ch nx =>
    if nm = some name then some (.node nm ck cd ch .null) else chain_find name nx

/-- The node reached from `t` along a path of names: each step goes to the first
child of that name. -/
def tree_find : tree_t → List String → Option tree_t
  | t, [] => some t
  | t, n :: rest =>
    match chain_find n t.child with
    | none => none
    | some c => tree_find c rest

/-- Every node of a list of siblings, and every node below them, has a name. -/
def named : tree_t → Prop
  | .null => True
  | .node nm _ _ ch nx => nm.isSome = true ∧ named ch ∧ named nx

/-- `lt_head n c`: the list of siblings `c` is empty or starts with a name after
`n`. -/
def lt_head (n : String) : tree_t → Prop
  | .null => True
  | .node nm _ _ _ _ => ∃ m, nm = some m ∧ n < m

/-- Every list of siblings, here and below, is strictly increasing by name. -/
def sorted : tree_t → Prop
  | .null => True
  | .node nm _ _ ch nx => (∃ n, nm = some n ∧ lt_head n nx) ∧ sorted ch ∧ sorted nx

/-- The path `tree_add` inserts for a game: grandparent, parent and the game,
each with the value of `check` it is added with; an absent ancestor is left out. -/
def game_path (game : Game) (name : String) : List (String × Bool) :=
  (if game.cloneof1 ≠ "" then [(game.cloneof1, false)] else [])
    ++ (if game.cloneof0 ≠ "" then [(game.cloneof0, false)] else [])
    ++ [(name, true)]

/-- Insertion of the node `n` in a sorted list of siblings, with `k` applied to
the children of that node; the walk of `tree_add_node` seen on the list of
siblings alone. -/
def chain_insert (n : String) (f : Bool) (k : tree_t → tree_t) : tree_t → tree_t
  | .null => .node (some n) f false (k .null) .null
  | .node nm ck cd ch nx =>
    match nm with
    | none => .node nm ck cd ch nx
    | some m =>
      if strcmp m n == 0 then .node nm (if f then true else ck) cd (k ch) nx
      else if strcmp m n > 0 then .node (some n) f false (k .null) (.node nm ck cd ch nx)
      else .node nm ck cd ch (chain_insert n f k nx)

/-- Insertion of a path of nodes below a list of siblings. -/
def path_insert : List (String × Bool) → tree_t → tree_t
  | [] => id
  | (n, f) :: rest => chain_insert n f (path_insert rest)

/-- What `tree_add(tree, name)` does to the children of `tree`. -/
def add_path (db : romdb) (name : String) : tree_t → tree_t :=
  match db name with
  | none => id
  | some game => path_insert (game_path game name)

/-- `path_flag f p q`: the value of `check` that inserting the path `p` below a
node brings to the node reached along the names `q`, where `f` is the value for
the node itself: the value the path has for `q` when it runs along `q`, and
false otherwise. -/
def path_flag : Bool → List (String × Bool) → List String → Bool
  | f, _, [] => f
  | _, [], _ :: _ => false
  | _, (n, f) :: rest, m :: q => if m = n then path_flag f rest q else false

/-- A small catalog: `pacman`, its clone `mspacman` and a clone of the clone,
`mspacmab`; `puckman` stands alone. -/
def sample_db : romdb := fun n =>
  if n = "pacman" then some ⟨"pacman", "", ""⟩
  else if n = "mspacman" then some ⟨"mspacman", "pacman", ""⟩
  else if n = "mspacmab" then some ⟨"mspacmab", "mspacman", "pacman"⟩
  else if n = "puckman" then some ⟨"puckman", "", ""⟩
  else none

/-- The names along the path `tree_add` inserts for a game: grandparent, parent
and the game, an absent ancestor left out. -/
def game_names (game : Game) (name : String) : List String :=
  (game_path game name).map Prod.fst

/-- The node a step to the child `n` starts from: the first node of that name in
the list of siblings, or a new node of that name when there is none. -/
def old_or_new (n : String) (c : tree_t) : tree_t :=
  (chain_find n c).getD (.node (some n) false false .null .null)

/-- The flag `check` of the node found along a path, false without such a node. -/
def check_at (t : tree_t) (q : List String) : Bool :=
  match tree_find t q with
  | some B => B.check
  | none => false

/-! ## tree.cc: traversal -/

/-- What the traversal calls and tree.cc does not define, over a state of the
world `ω` (files, pools, options), archives `α` and images `ι`:
`findfile(name, TYPE_ROM, "")`, `make_file_name(TYPE_ROM, name, "")`,
`Archive::open(full_name, TYPE_ROM, FILE_ROMSET, flags)` where `flags` depends on
`tree->check`, `std::make_shared<Images>()`, `Images::from_directory`, and
`tree_process`, which is given the address of the node, its name and the two
arrays, and may change the flags `checked` of the tree (its own node, and other
nodes through `tree_recheck`) and the world. -/
structure tree_env (ω α ι : Type) where
  findfile : ω → String → String
  make_file_name : String → String
  Archive_open : ω → String → Bool → Option α
  new_images : ι
  Images_from_directory : ω → String → ι
  tree_process : List Nat → String → List (Option α) → List ι →
    (List Nat → Bool) × ω → (List Nat → Bool) × ω

/-- One call of `tree_traverse_internal`, as recorded: the address of the node
(the positions of its ancestors and of itself among their siblings, from the
root), its name and `check`, its `checked` when `tree_check(tree) &&
!tree_checked(tree)` is evaluated, the local array `archives` after the opening,
the array `tree_process` was handed, if it was called, and the state of the
world when the call starts. -/
structure visit (ω α : Type) where
  addr : List Nat
  name : Option String
  check : Bool
  checked : Bool
  archives : List (Option α)
  processed : Option (List (Option α))
  world : ω

/-- State during the traversal: the flags `checked` of the nodes by address, the
world, and the calls recorded so far. -/
structure tree_state (ω α : Type) where
  checked : List Nat → Bool
  world : ω
  log : List (visit ω α)

/-- The local array `archives` of `tree_traverse_internal` (tree.cc) after the
opening, for a node with name `nm` and flag `check`: slots 1 and 2 are slots 0
and 1 of the array of the caller; slot 0 is NULL, or for a node with a name the
result of `Archive::open` on the file found (or, if none is found and the node
is to be checked, on the file to be made). -/
def node_archives {ω α ι : Type} (env : tree_env ω α ι) (nm : Option String) (ck : Bool)
    (ancestor_archives : List (Option α)) (w : ω) : List (Option α) :=
  let archives0 : List (Option α) :=
    [none, ancestor_archives.getD 0 none, ancestor_archives.getD 1 none]
  match nm with
  | some name =>
    let full_name0 := env.findfile w name
    let full_name := if full_name0 = "" ∧ ck = true then env.make_file_name name else full_name0
    if full_name ≠ "" then archives0.set 0 (env.Archive_open w full_name ck) else archives0
  | none => archives0

/-- The local array `images` of `tree_traverse_internal` (tree.cc). -/
def node_images {ω α ι : Type} (env : tree_env ω α ι) (nm : Option String)
    (ancestor_images : List ι) (w : ω) : List ι :=
  let images0 : List ι :=
    [env.new_images, ancestor_images.getD 0 env.new_images,
      ancestor_images.getD 1 env.new_images]
  match nm with
  | some name => images0.set 0 (env.Images_from_directory w name)
  | none => images0

/-- The body of `tree_traverse_internal` (tree.cc) before its loop, for the node
at `addr` with name `nm` and flag `check`: the local arrays `archives` and
`images`, and the state after the call of `tree_process`, if it is called. -/
def visit_node {ω α ι : Type} (env : tree_env ω α ι) (nm : Option String) (ck : Bool)
    (addr : List Nat) (ancestor_archives : List (Option α)) (ancestor_images : List ι)
    (s : tree_state ω α) : (List (Option α) × List ι) × tree_state ω α :=
  let archives := node_archives env nm ck ancestor_archives s.world
  let images := node_images env nm ancestor_images s.world
  match nm with
  | some name =>
    if ck && !s.checked addr then
      let r := env.tree_process addr name archives images (s.checked, s.world)
      ((archives, images),
        { checked := r.1, world := r.2,
          log := s.log ++ [⟨addr, nm, ck, s.checked addr, archives, some archives, s.world⟩] })
    else
      ((archives, images),
        { s with log := s.log ++ [⟨addr, nm, ck, s.checked addr, archives, none, s.world⟩] })
  | none =>
    ((archives, images),
      { s with log := s.log ++ [⟨addr, nm, ck, s.checked addr, archives, none, s.world⟩] })

/-- The loop `for (t = tree->child; t; t = t->next) tree_traverse_internal(t,
archives, images)` from the node `t` on, which is child number `i` of the node
at `parent`; the call for `t` is its body and its own loop. -/
def traverse_children {ω α ι : Type} (env : tree_env ω α ι) :
    tree_t → List Nat → Nat → List (Option α) → List ι → tree_state ω α → tree_state ω α
  | .null, _, _, _, _, s => s
  | .node nm ck _ ch nx, parent, i, archives, images, s =>
    let r := visit_node env nm ck (parent ++ [i]) archives images s
    let s1 := traverse_children env ch (parent ++ [i]) 0 r.1.1 r.1.2 r.2
    traverse_children env nx parent (i + 1) archives images s1

/-- `tree_traverse_internal` (tree.cc) for the node at `addr`; `none` for a NULL
pointer. -/
def tree_traverse_internal {ω α ι : Type} (env : tree_env ω α ι) (tree : tree_t)
    (addr : List Nat) (ancestor_archives : List (Option α)) (ancestor_images : List ι)
    (s : tree_state ω α) : Option (tree_state ω α) :=
  match tree with
  | .null => none
  | .node nm ck _ ch _ =>
    let r := visit_node env nm ck addr ancestor_archives ancestor_images s
    some (traverse_children env ch addr 0 r.1.1 r.1.2 r.2)

/-- The `j`-th node along a list of siblings. -/
def chain_nth : tree_t → Nat → tree_t
  | .null, _ => .null
  | .node nm ck cd ch nx, 0 => .node nm ck cd ch nx
  | .node _ _ _ _ nx, j + 1 => chain_nth nx j

/-- The node at an address: from `t`, each step goes to the child of the given
number; `null` when there is no such node. -/
def node_at : tree_t → List Nat → tree_t
  | t, [] => t
  | t, i :: rest => node_at (chain_nth t.child i) rest

/-- `tree_traverse` (tree.cc), from a state of the world: the flags `checked`
start as they are in the tree. -/
def tree_traverse {ω α ι : Type} (env : tree_env ω α ι) (tree : tree_t) (w : ω) :
    Option (tree_state ω α) :=
  tree_traverse_internal env tree [] [none, none, none]
    [env.new_images, env.new_images, env.new_images]
    { checked := fun a => (node_at tree a).checked, world := w, log := [] }

/-- The order of a depth-first walk in pre-order on addresses: `a` comes before
`b` when the node at `a` is a proper ancestor of the node at `b`, or when, below
their last common ancestor, `a` lies under an earlier child than `b`. -/
def addr_lt (a b : List Nat) : Prop :=
  (∃ x r, b = a ++ x :: r)
    ∨ ∃ p i j r r', a = p ++ i :: r ∧ b = p ++ j :: r' ∧ i < j

/-- What holds for the calls `M` recorded by the loop over the children `c` of
the node at `p`, from child number `i` on, with `arch` the array `archives` of
that node: they come in pre-order; they are the nodes of `c` and below; each
carries the name and `check` of its node, and `tree_process` was called for it,
with its array, exactly when it has a name, is to be checked and was not checked
yet; slot 0 of
its array is NULL when it has no name, and slots 1 and 2 are slots 0 and 1 of
the array of its parent. -/
structure seg_ok {ω α : Type} (c : tree_t) (p : List Nat) (i : Nat) (arch : List (Option α))
    (M : List (visit ω α)) : Prop where
  order : (M.map (fun v => v.addr)).Pairwise addr_lt
  mem : ∀ a, a ∈ M.map (fun v => v.addr) ↔
    ∃ j r, a = p ++ (i + j) :: r ∧ node_at (chain_nth c j) r ≠ .null
  node : ∀ v ∈ M, ∃ j r, v.addr = p ++ (i + j) :: r
    ∧ v.name = (node_at (chain_nth c j) r).name
    ∧ v.check = (node_at (chain_nth c j) r).check
  flags : ∀ v ∈ M,
    v.processed = (if (v.name.isSome && v.check && !v.checked) = true then some v.archives else none)
    ∧ (v.name = none → v.archives.headD none = none)
  top : ∀ v ∈ M, ∀ j, v.addr = p ++ [j] →
    ∃ x, v.archives = [x, arch.getD 0 none, arch.getD 1 none]
  step : ∀ u ∈ M, ∀ v ∈ M, ∀ j, v.addr = u.addr ++ [j] →
    ∃ x, v.archives = [x, u.archives.getD 0 none, u.archives.getD 1 none]
  up : ∀ v ∈ M, (∃ j, v.addr = p ++ [j]) ∨ ∃ u ∈ M, ∃ j, v.addr = u.addr ++ [j]

/-- A sample environment: only `pacman` has a file in the rom set; a file that is
opened stands for its archive; `tree_process` marks its node as checked. -/
def sample_env : tree_env Unit String Unit where
  findfile := fun _ n => if n = "pacman" then "roms/pacman.zip" else ""
  make_file_name := fun n => "roms/" ++ n ++ ".zip"
  Archive_open := fun _ f _ => some f
  new_images := ()
  Images_from_directory := fun _ _ => ()
  tree_process := fun a _ _ _ s => (fun b => if b = a then true else s.1 b, s.2)

/-- The loop `for (t = tree->child; t; t = t->next)` of `tree_recheck` (tree.cc)
from the node `t` on: the list of siblings afterwards and the value returned (the
value of `tree_check(t)` at the node found, true after a call for the children of
a node that returned true, false at the end of the list). `none` is the
`strcmp` with the NULL name of a node. -/
def tree_recheck_loop (name : String) : tree_t → Option (tree_t × Bool)
  | .null => some (.null, false)
  | .node nm ck cd ch nx =>
    match nm with
    | none => none
    | some n =>
      if strcmp n name == 0 then some (.node nm ck false ch nx, ck)
      else
        match tree_recheck_loop name ch with
        | none => none
        | some (ch', r) =>
          if r then some (.node nm ck cd ch' nx, true)
          else
            match tree_recheck_loop name nx with
            | none => none
            | some (nx', r') => some (.node nm ck cd ch' nx', r')

/-- `tree_recheck` (tree.cc): the tree afterwards and the value returned; `none`
for a NULL pointer that is dereferenced. -/
def tree_recheck (tree : tree_t) (name : String) : Option (tree_t × Bool) :=
  match tree with
  | .null => none
  | .node nm ck cd ch nx =>
    (tree_recheck_loop name ch).map (fun r => (.node nm ck cd r.1 nx, r.2))

/-- Some node of a list of siblings, or below them, has a name and flags for
which `p` holds. -/
def nodes_any (p : Option String → Bool → Bool → Bool) : tree_t → Bool
  | .null => false
  | .node nm ck cd ch nx => p nm ck cd || nodes_any p ch || nodes_any p nx

/-- The node is called `name`. -/
def called (name : String) : Option String → Bool → Bool → Bool :=
  fun nm _ _ => decide (nm = some name)

/-- The node is called `name` and its `checked` is false. -/
def called_unchecked (name : String) : Option String → Bool → Bool → Bool :=
  fun nm _ cd => decide (nm = some name) && !cd

/-- The node is called `name` and its `check` is set. -/
def called_check (name : String) : Option String → Bool → Bool → Bool :=
  fun nm ck _ => decide (nm = some name) && ck

/-- `recheck_frame name c c'`: the lists of siblings `c` and `c'` have the same
nodes in the same places, here and below, each with the same name and the same
`check`; a node keeps its `checked` unless it is called `name`, and a `checked`
that differs was cleared. -/
def recheck_frame (name : String) : tree_t → tree_t → Prop
  | .null, .null => True
  | .node nm ck cd ch nx, .node nm' ck' cd' ch' nx' =>
    nm' = nm ∧ ck' = ck ∧ (nm ≠ some name → cd' = cd) ∧ (cd' = cd ∨ cd' = false)
      ∧ recheck_frame name ch ch' ∧ recheck_frame name nx nx'
  | .null, .node _ _ _ _ _ => False
  | .node _ _ _ _ _, .null => False

/-! ## tree.cc: `tree_process` -/

/-- What `tree_process` calls and tree.cc does not define, over a state of the
world `ω`, archives `α`, images `ι` and results `ρ`: the catalog `db`; `myerror`;
`checks`, which stands for the construction of `res`, `check_old`, `check_files`,
`check_archive`, `check_disks`, `check_images` and `diagnostics`; the bit
`fix_options & FIX_DO`; `fix_game`, which returns a number and may change the
flags `checked` of the tree (through `tree_recheck`), the result and the world;
`fixdat`; and `write_fixdat_entry`. -/
structure process_env (ω α ι ρ : Type) where
  db : romdb
  myerror : String → ω → ω
  checks : Game → List (Option α) → List ι → ω → ρ × ω
  FIX_DO : Bool
  fix_game : Game → Option α → Option ι → ρ → (List Nat → Bool) × ω →
    Int × ρ × ((List Nat → Bool) × ω)
  fixdat : Bool
  write_fixdat_entry : Game → ρ → ω → ω

/-- `tree_process` (tree.cc) for the node at `addr`, called `name`: the value
returned, the flags `checked` by address and the world. -/
def tree_process {ω α ι ρ : Type} (penv : process_env ω α ι ρ) (addr : List Nat)
    (name : String) (archives : List (Option α)) (images : List ι)
    (s : (List Nat → Bool) × ω) : Int × ((List Nat → Bool) × ω) :=
  match penv.db name with
  | none => (-1, (s.1, penv.myerror ("db error: " ++ name ++ " not found") s.2))
  | some game =>
    let res := penv.checks game archives images s.2
    let fx : Int × ρ × ((List Nat → Bool) × ω) :=
      if penv.FIX_DO then penv.fix_game game (archives.headD none) images.head? res.1 (s.1, res.2)
      else (0, res.1, (s.1, res.2))
    let ret := fx.1
    let w := if penv.fixdat then penv.write_fixdat_entry game fx.2.1 fx.2.2.2 else fx.2.2.2
    let checked : List Nat → Bool :=
      if ret ≠ 1 then fun a => if a = addr then true else fx.2.2.1 a else fx.2.2.1
    (0, (checked, w))

/-! ## tree.cc: a traversal after another -/

/-- A list of siblings with the flags `checked` of a store written into its
nodes: the siblings from number `i` on below the node at `p`. -/
def store_chain (f : List Nat → Bool) : tree_t → List Nat → Nat → tree_t
  | .null, _, _ => .null
  | .node nm ck _ ch nx, p, i =>
    .node nm ck (f (p ++ [i])) (store_chain f ch (p ++ [i]) 0) (store_chain f nx p (i + 1))

/-- The tree with the flags `checked` of a store written into its nodes: the tree
as it is in memory during a traversal. -/
def with_checked (f : List Nat → Bool) : tree_t → tree_t
  | .null => .null
  | .node nm ck _ ch nx => .node nm ck (f []) (store_chain f ch [] 0) nx

/-- A call `tree_recheck(tree, name)` during a traversal, seen on the store of
the flags `checked`. -/
def recheck_store (tree : tree_t) (name : String) (f : List Nat → Bool) : List Nat → Bool :=
  match tree_recheck (with_checked f tree) name with
  | some r => fun a => (node_at r.1 a).checked
  | none => f

/-- `tree_traverse` (tree.cc) on a tree whose flags `checked` are those of the
store `checked`, as an earlier traversal left them. -/
def tree_traverse_again {ω α ι : Type} (env : tree_env ω α ι) (tree : tree_t)
    (checked : List Nat → Bool) (w : ω) : Option (tree_state ω α) :=
  tree_traverse_internal env tree [] [none, none, none]
    [env.new_images, env.new_images, env.new_images]
    { checked := checked, world := w, log := [] }

/-- The tree built for `pacman` and `puckman`, both to be checked. -/
def sample_pair : tree_t :=
  .node none false false
    (.node (some "pacman") true false .null
      (.node (some "puckman") true false .null .null))
    .null

/-- A sample of what `tree_process` calls: the catalog `sample_db`, fixing
enabled; `fix_game` returns `ret` and, for `puckman`, calls
`tree_recheck(tree, "pacman")` on the tree `sample_pair` (a fix that supplied a
file `pacman` needed). -/
def sample_penv (ret : Int) : process_env Unit String Unit Unit where
  db := sample_db
  myerror := fun _ w => w
  checks := fun _ _ _ w => ((), w)
  FIX_DO := true
  fix_game := fun g _ _ r s =>
    (ret, r, (if g.name = "puckman" then recheck_store sample_pair "pacman" s.1 else s.1, s.2))
  fixdat := false
  write_fixdat_entry := fun _ _ w => w

/-- The sample environment `sample_env` with `tree_process` of tree.cc over
`sample_penv 0`. -/
def sample_env_recheck : tree_env Unit String Unit :=
  { sample_env with
    tree_process := fun a n ar im s => (tree_process (sample_penv 0) a n ar im s).2 }

/-! ## tree.cc: lists of children without duplicates -/

/-- No list of siblings, here and below, has two nodes of the same name. -/
def distinct_names : tree_t → Prop
  | .null => True
  | .node nm _ _ ch nx => nm ∉ chain_names nx ∧ distinct_names ch ∧ distinct_names nx

/-! ## tree.cc: the archive opened for a node -/

/-- Modelled from the spec: `BUFSIZE` of zipint.h, which is not among the
sources; the size of the buffer for the end of the file and for copying. -/
def BUFSIZE : Nat := 8192

/-- Modelled from the spec: `EOCDLEN` of zipint.h, the size of the end record
without its comment in the ZIP format. -/
def EOCDLEN : Nat := 22

/-- Modelled from the spec: `CDENTRYSIZE` of zipint.h, the size of a directory
record without its strings in the ZIP format. -/
def CDENTRYSIZE : Nat := 46

/-- Modelled from the spec: `LENTRYSIZE` of zipint.h, the size of a local header
without its strings in the ZIP format. -/
def LENTRYSIZE : Nat := 30

/-- Modelled from the spec: `LOCAL_MAGIC` of zipint.h, `"PK\3\4"`. -/
def LOCAL_MAGIC : List Nat := [80, 75, 3, 4]

/-- Modelled from the spec: `CENTRAL_MAGIC` of zipint.h, `"PK\1\2"`. -/
def CENTRAL_MAGIC : List Nat := [80, 75, 1, 2]

/-- Modelled from the spec: `EOCD_MAGIC` of zipint.h, `"PK\5\6"`. -/
def EOCD_MAGIC : List Nat := [80, 75, 5, 6]

/-- The values of `zip_err` set in zip_close.c and zip_open.c. -/
inductive zip_error where
  | ZERR_RENAME
  | ZERR_SEEK
  | ZERR_READ
  | ZERR_WRITE
  | ZERR_MULTIDISK
  | ZERR_FILENEXISTS
  | ZERR_FILEEXISTS
  | ZERR_OPEN
  deriving DecidableEq, Repr

/-- The member `state` of an entry. -/
inductive zip_state where
  | Z_UNCHANGED
  | Z_DELETED
  | Z_REPLACED
  | Z_ADDED
  | Z_RENAMED
  deriving DecidableEq, Repr

/-- Modelled from the spec: the members of `struct zf_entry` (zipint.h) that hold
a header: the fields of a directory record, in the order zip_close.c and
zip_open.c write and read them. A string is a list of bytes (without the
terminating NUL), or nothing for a NULL pointer. -/
structure zf_header where
  version_made : Nat
  version_need : Nat
  bitflags : Nat
  comp_meth : Nat
  lmtime : Nat
  lmdate : Nat
  crc : Nat
  comp_size : Nat
  uncomp_size : Nat
  fnlen : Nat
  eflen : Nat
  fcomlen : Nat
  disknrstart : Nat
  intatt : Nat
  extatt : Nat
  local_offset : Nat
  fn : Option (List Nat)
  ef : Option (List Nat)
  fcom : Option (List Nat)
  deriving DecidableEq, Repr

/-- Modelled from the spec: what `_zip_entry_copy` reads of the archive it copies
from: the bytes of its open file `zp` and the headers of its entries. -/
structure zf_source where
  zp : List Nat
  entry : List zf_header
  deriving DecidableEq, Repr

/-- Modelled from the spec: `struct zf_entry` (zipint.h): the header, the state,
and where the data of an added or replaced entry come from: another archive
(`ch_data_zf`, entry number `ch_data_zf_fileno`), a buffer (`ch_data_buf`) or a
file (`ch_data_fp`). -/
structure zf_entry extends zf_header where
  state : zip_state
  ch_data_zf : Option zf_source
  ch_data_zf_fileno : Nat
  ch_data_buf : Option (List Nat)
  ch_data_fp : Option (List Nat)
  ch_data_offset : Nat
  ch_data_len : Nat
  deriving DecidableEq, Repr

/-- Modelled from the spec: `struct zf` (zipint.h): the name of the file, the
bytes of the open file `zp` (nothing for an archive that is yet to be created),
the entries (`nentry` is their number), the comment, position and size of the
directory as read, and the flag `changes`. -/
structure zf where
  zn : String
  zp : Option (List Nat)
  entry : List zf_entry
  com : List Nat
  comlen : Nat
  cd_size : Nat
  cd_offset : Nat
  changes : Bool
  deriving DecidableEq, Repr

/-! ## libzip: files -/

/-- A stream that is written from its start: the bytes so far, the error
indicator, and `room`, the number of bytes after which the stream reports an
error to the call that writes, nothing for a stream that reports none. A stream
with a buffer, as `fdopen` returns it, reports an error of the device where the
buffer is flushed, which for a file below the size of the buffer is in
`fclose`: such a run has no `room` and an `fclose` that fails. -/
structure wfile where
  data : List Nat
  err : Bool
  room : Option Nat
  deriving DecidableEq, Repr

/-- `putc`: the byte is appended, or the error indicator is set when the stream
reports an error at this byte (see `room` of `wfile`). -/
def putc (c : Nat) (f : wfile) : wfile :=
  match f.room with
  | none => { f with data := f.data ++ [c] }
  | some r => if f.data.length < r then { f with data := f.data ++ [c] } else { f with err := true }

/-- `fprintf` of a string without conversions, byte by byte. -/
def fprintf (s : List Nat) (f : wfile) : wfile :=
  s.foldl (fun g c => putc c g) f

/-- The `fwrite` of the C library for items of size 1: the items there is room
for are written, their number is returned, and the error indicator is set when
not all are. -/
def real_fwrite (ptr : List Nat) (nmemb : Nat) (f : wfile) : Nat × wfile :=
  let want := ptr.take nmemb
  match f.room with
  | none => (want.length, { f with data := f.data ++ want })
  | some r =>
    let fit := want.take (r - f.data.length)
    (fit.length, { f with data := f.data ++ fit, err := f.err || decide (fit.length < want.length) })

/-- `(size_t)-1`. -/
def SIZE_MAX : Nat := 2 ^ 64 - 1

/-- `fwrite` as regress/fwrite.c overrides it, for items of size 1: with
`max_write` (the environment's `FWRITE_MAX_WRITE`) set, a call that would take
the bytes written through `fwrite` beyond `max_write` writes nothing and returns
-1; `count` is the static counter of that file. The result is the value
returned, the stream and the counter. -/
def fwrite (max_write : Nat) (ptr : List Nat) (nmemb : Nat) (f : wfile) (count : Nat) :
    Nat × wfile × Nat :=
  if max_write > 0 ∧ count + 1 * nmemb > max_write then
    (SIZE_MAX, f, count)
  else
    let r := real_fwrite ptr nmemb f
    (r.1, r.2, count + r.1 * 1)

/-- `fread` of `n` items of size 1 at position `pos`: the bytes read and the new
position. -/
def fread (data : List Nat) (pos : Nat) (n : Nat) : List Nat × Nat :=
  let got := (data.drop pos).take n
  (got, pos + got.length)

/-! ## libzip: zip_close.c -/

/-- What can go wrong from outside during `zip_close`: `max_write` is
`FWRITE_MAX_WRITE` of regress/fwrite.c (0 for no limit), `room` is the `room` of
the stream of the temporary file (nothing for no limit), and `fdopen`, `fclose` and
`rename` succeed or fail as the flags say (`RENAME_ALWAYS_FAILS` in
regress/fwrite.c). `zf_free_result` is the value `zf_free` returns. -/
structure faults where
  max_write : Nat
  room : Option Nat
  fdopen_fails : Bool
  fclose_fails : Bool
  rename_fails : Bool
  zf_free_result : Int
  deriving DecidableEq, Repr

/-- No fault. -/
def no_faults : faults := ⟨0, none, false, false, false, 0⟩

/-- The world around `zip_close`: the files by name, the counter of
regress/fwrite.c, the messages given to `myerror`, and `zip_err`. -/
structure zip_world where
  fs : String → Option (List Nat)
  count : Nat
  errors : List String
  zip_err : Option zip_error

/-- `write2` (zip_close.c). -/
def write2 (i : Nat) (f : wfile) : wfile :=
  putc ((i >>> 8) &&& 0xff) (putc (i &&& 0xff) f)

/-- `write4` (zip_close.c). -/
def write4 (i : Nat) (f : wfile) : wfile :=
  putc ((i >>> 24) &&& 0xff) (putc ((i >>> 16) &&& 0xff)
    (putc ((i >>> 8) &&& 0xff) (putc (i &&& 0xff) f)))

/-- `writestr` (zip_close.c, without `WIZ`): `fwrite` of `len` bytes of the
string, its result dropped. A NULL string stands for no bytes; where the string
is shorter than `len` the C code reads past its end, and the bytes it finds there
are left out. -/
def writestr (max_write : Nat) (str : Option (List Nat)) (len : Nat) (f : wfile) (count : Nat) :
    wfile × Nat :=
  (fwrite max_write (str.getD []) len f count).2

/-- `writecdentry` (zip_close.c): the value returned, the stream and the counter
of `fwrite`. -/
def writecdentry (max_write : Nat) (f : wfile) (count : Nat) (zfe : zf_header) (localp : Bool) :
    Int × wfile × Nat :=
  let f := fprintf (if localp then LOCAL_MAGIC else CENTRAL_MAGIC) f
  let f := if !localp then write2 zfe.version_made f else f
  let f := write2 zfe.version_need f
  let f := write2 zfe.bitflags f
  let f := write2 zfe.comp_meth f
  let f := write2 zfe.lmtime f
  let f := write2 zfe.lmdate f
  let f := write4 zfe.crc f
  let f := write4 zfe.comp_size f
  let f := write4 zfe.uncomp_size f
  let f := write2 zfe.fnlen f
  let f := write2 zfe.eflen f
  let f := if !localp then
      write4 zfe.local_offset (write4 zfe.extatt (write2 zfe.intatt
        (write2 zfe.disknrstart (write2 zfe.fcomlen f))))
    else f
  let r1 := if zfe.fnlen ≠ 0 then writestr max_write zfe.fn zfe.fnlen f count else (f, count)
  let r2 := if zfe.eflen ≠ 0 then writestr max_write zfe.ef zfe.eflen r1.1 r1.2 else r1
  let r3 := if zfe.fcomlen ≠ 0 then writestr max_write zfe.fcom zfe.fcomlen r2.1 r2.2 else r2
  if r3.1.err then (-1, r3.1, r3.2) else (0, r3.1, r3.2)

/-! ## libzip: reading headers (zip_open.c) -/

/-- A file open for reading: its bytes and the position. -/
structure rfile where
  data : List Nat
  pos : Nat
  deriving DecidableEq, Repr

/-- `read2` (zip_open.c) at index `a` of a buffer. -/
def read2 (buf : List Nat) (a : Nat) : Nat :=
  buf.getD a 0 + (buf.getD (a + 1) 0 <<< 8)

/-- `read4` (zip_open.c) at index `a` of a buffer. -/
def read4 (buf : List Nat) (a : Nat) : Nat :=
  ((((((buf.getD (a + 3) 0 <<< 8) + buf.getD (a + 2) 0) <<< 8) + buf.getD (a + 1) 0) <<< 8)
    + buf.getD a 0)

/-- `readstr` (zip_open.c): `len` bytes at index `a` of a buffer. -/
def readstr (buf : List Nat) (a : Nat) (len : Nat) : List Nat :=
  (buf.drop a).take len

/-- `readfpstr` (zip_open.c): `len` bytes from the file, or NULL when the file has
fewer. -/
def readfpstr (fp : rfile) (len : Nat) : Option (List Nat) × rfile :=
  let r := fread fp.data fp.pos len
  if r.1.length < len then (none, { fp with pos := r.2 }) else (some r.1, { fp with pos := r.2 })

/-- `_zip_readcdentry` (zip_open.c): the entry read and the new `*cdpp`, or
nothing for -1; and the file. `buf` with the index `cdp` is `*cdpp`. -/
def _zip_readcdentry (fp : rfile) (buf : List Nat) (cdp : Nat) (left : Int)
    (readp localp : Bool) : Option (zf_header × Nat) × rfile :=
  let size := if localp then LENTRYSIZE else CDENTRYSIZE
  let rd := fread fp.data fp.pos size
  if readp && decide (rd.1.length < size) then (none, { fp with pos := rd.2 })
  else if !readp && decide (left < (size : Int)) then (none, fp)
  else
    let fp : rfile := if readp then { fp with pos := rd.2 } else fp
    let src : List Nat := if readp then rd.1 else buf
    let cur : Nat := if readp then 0 else cdp
    let left : Int := if readp then (size : Int) else left
    if (src.drop cur).take 4 ≠ (if localp then LOCAL_MAGIC else CENTRAL_MAGIC) then (none, fp)
    else
      let cur := cur + 4
      let version_made := if !localp then read2 src cur else 0
      let cur := if !localp then cur + 2 else cur
      let version_need := read2 src cur
      let bitflags := read2 src (cur + 2)
      let comp_meth := read2 src (cur + 4)
      let lmtime := read2 src (cur + 6)
      let lmdate := read2 src (cur + 8)
      let crc := read4 src (cur + 10)
      let comp_size := read4 src (cur + 14)
      let uncomp_size := read4 src (cur + 18)
      let fnlen := read2 src (cur + 22)
      let eflen := read2 src (cur + 24)
      let cur := cur + 26
      let fcomlen := if !localp then read2 src cur else 0
      let disknrstart := if !localp then read2 src (cur + 2) else 0
      let intatt := if !localp then read2 src (cur + 4) else 0
      let extatt := if !localp then read4 src (cur + 6) else 0
      let local_offset := if !localp then read4 src (cur + 10) else 0
      let cur := if !localp then cur + 14 else cur
      if left < ((CDENTRYSIZE + fnlen + eflen + fcomlen : Nat) : Int) then
        if readp then
          let r1 := if fnlen ≠ 0 then readfpstr fp fnlen else (some [], fp)
          let r2 := if eflen ≠ 0 then readfpstr r1.2 eflen else (none, r1.2)
          let r3 := if fcomlen ≠ 0 then readfpstr r2.2 fcomlen else (none, r2.2)
          (some (⟨version_made, version_need, bitflags, comp_meth, lmtime, lmdate, crc,
            comp_size, uncomp_size, fnlen, eflen, fcomlen, disknrstart, intatt, extatt,
            local_offset, r1.1, r2.1, r3.1⟩, cdp), r3.2)
        else (none, fp)
      else
        let fn := if fnlen ≠ 0 then some (readstr src cur fnlen) else none
        let cur := if fnlen ≠ 0 then cur + fnlen else cur
        let ef := if eflen ≠ 0 then some (readstr src cur eflen) else none
        let cur := if eflen ≠ 0 then cur + eflen else cur
        let fcom := if fcomlen ≠ 0 then some (readstr src cur fcomlen) else none
        let cur := if fcomlen ≠ 0 then cur + fcomlen else cur
        (some (⟨version_made, version_need, bitflags, comp_meth, lmtime, lmdate, crc,
          comp_size, uncomp_size, fnlen, eflen, fcomlen, disknrstart, intatt, extatt,
          local_offset, fn, ef, fcom⟩, if !readp then cur else cdp), fp)

/-! ## libzip: zip_close.c, continued -/

/-- The archive `zip_close` builds: the temporary file and the entries created
so far. -/
structure zf_dest where
  zp : wfile
  entry : List zf_header
  deriving DecidableEq, Repr

/-- `xstrdup` of a string of C: the bytes before the first NUL. -/
def xstrdup (s : List Nat) : List Nat :=
  s.takeWhile (fun c => c != 0)

/-- `_zip_create_entry` (zip_close.c) for an entry `src_entry` to copy the values
from, as every call that is compiled passes one: the new entry is appended to
those of `dest`. -/
def _zip_create_entry (dest : zf_dest) (src_entry : zf_header) (name : Option (List Nat)) :
    zf_dest :=
  let fn : List Nat :=
    match name with
    | some n => xstrdup n
    | none =>
      match src_entry.fn with
      | some s => xstrdup s
      | none => [45]
  let fnlen : Nat :=
    match name with
    | some n => (xstrdup n).length
    | none =>
      match src_entry.fn with
      | some _ => src_entry.fnlen
      | none => 1
  { dest with entry := dest.entry ++ [{ src_entry with
      ef := src_entry.ef.map (fun e => e.take src_entry.eflen)
      fcom := src_entry.fcom.map (fun e => e.take src_entry.fcomlen)
      local_offset := dest.zp.data.length
      fn := some fn
      fnlen := fnlen }] }

/-- The loop of `_zip_entry_copy` (zip_close.c) that copies the data, `fuel`
rounds of it at most: the error, if any, the stream and the counter of `fwrite`. -/
def copy_data (max_write : Nat) : Nat → Nat → Nat → rfile → wfile → Nat →
    Option zip_error × wfile × Nat
  | 0, _, _, _, f, count => (none, f, count)
  | fuel + 1, remainder, len, fp, f, count =>
    if remainder = 0 then (none, f, count)
    else
      let len := if len > remainder then remainder else len
      let rd := fread fp.data fp.pos len
      if rd.1.length ≠ len then (some .ZERR_READ, f, count)
      else
        let wr := fwrite max_write rd.1 len f count
        if wr.1 ≠ len then (some .ZERR_WRITE, wr.2.1, wr.2.2)
        else copy_data max_write fuel (remainder - len) len { fp with pos := rd.2 } wr.2.1 wr.2.2

/-- `_zip_entry_copy` (zip_close.c): the value returned, `zip_err` if it is set,
`dest` and the counter of `fwrite`. `fseek` to the local header succeeds. An
`entry_no` beyond the entries of `src` is not an input of the C function; it is
answered with -1 here. -/
def _zip_entry_copy (max_write : Nat) (dest : zf_dest) (src : zf_source) (entry_no : Nat)
    (name : Option (List Nat)) (count : Nat) : Int × Option zip_error × zf_dest × Nat :=
  match src.entry.get? entry_no with
  | none => (-1, none, dest, count)
  | some src_entry =>
    let dest := _zip_create_entry dest src_entry name
    match _zip_readcdentry ⟨src.zp, src_entry.local_offset⟩ [] 0 0 true true with
    | (none, _) => (-1, some .ZERR_READ, dest, count)
    | (some (tempzfe, _), fp) =>
      let last := dest.entry.getLast?.getD src_entry
      let tempzfe := { tempzfe with fn := some (xstrdup (last.fn.getD [])), fnlen := last.fnlen }
      let w := writecdentry max_write dest.zp count tempzfe true
      if w.1 ≠ 0 then (-1, some .ZERR_WRITE, { dest with zp := w.2.1 }, w.2.2)
      else
        match copy_data max_write src_entry.comp_size src_entry.comp_size BUFSIZE fp w.2.1 w.2.2 with
        | (some e, f, c) => (-1, some e, { dest with zp := f }, c)
        | (none, f, c) => (0, none, { dest with zp := f }, c)

/-- The loop of `writecdir` over the entries: -1 at the first record whose
writing fails. -/
def writecdir_entries (max_write : Nat) : List zf_header → wfile → Nat → Int × wfile × Nat
  | [], f, count => (0, f, count)
  | e :: rest, f, count =>
    let w := writecdentry max_write f count e false
    if w.1 ≠ 0 then (-1, w.2.1, w.2.2) else writecdir_entries max_write rest w.2.1 w.2.2

/-- `writecdir` (zip_close.c): the value returned, `zip_err` if it is set, the
stream and the counter of `fwrite`. -/
def writecdir (max_write : Nat) (zfp : zf_dest) (com : List Nat) (comlen : Nat) (count : Nat) :
    Int × Option zip_error × wfile × Nat :=
  let cd_offset := zfp.zp.data.length
  let w := writecdir_entries max_write zfp.entry zfp.zp count
  if w.1 ≠ 0 then (-1, some .ZERR_WRITE, w.2.1, w.2.2)
  else
    let cd_size := w.2.1.data.length - cd_offset
    let f := { w.2.1 with err := false }
    let f := fprintf EOCD_MAGIC f
    let f := fprintf [0, 0, 0, 0] f
    let f := write2 zfp.entry.length f
    let f := write2 zfp.entry.length f
    let f := write4 cd_size f
    let f := write4 cd_offset f
    let f := write2 comlen f
    let r := writestr max_write (some com) comlen f w.2.2
    (0, none, r.1, r.2)

/-- The archive `zf` as the source of a copy: its open file and the headers of
its entries. -/
def zf.source (z : zf) : zf_source :=
  ⟨z.zp.getD [], z.entry.map (fun e => e.tozf_header)⟩

/-- What the loop of `zip_close` over the entries carries along: the archive
being built, the counter of `fwrite`, the messages given to `myerror`, and
`zip_err`. -/
structure close_state where
  tzf : zf_dest
  count : Nat
  errors : List String
  zip_err : Option zip_error
  deriving DecidableEq, Repr

/-- A call `zip_entry_copy(tzf, src, entry_no, name)` in the loop of `zip_close`,
with `myerror(ERRFILE, "zip_entry_copy failed")` when it does not return 0. -/
def close_copy (max_write : Nat) (src : zf_source) (entry_no : Nat) (name : Option (List Nat))
    (s : close_state) : close_state :=
  let r := _zip_entry_copy max_write s.tzf src entry_no name s.count
  { tzf := r.2.2.1
    count := r.2.2.2
    errors := if r.1 ≠ 0 then s.errors ++ ["zip_entry_copy failed"] else s.errors
    zip_err := if r.2.1.isSome then r.2.1 else s.zip_err }

/-- The body of the loop of `zip_close` (zip_close.c) for entry `i` of `zf`: the
`switch` on its state. The calls of `zip_entry_add` are compiled out (`#if 0`),
so nothing is done for data from a buffer or from a file. -/
def close_entry (max_write : Nat) (z : zf) (i : Nat) (e : zf_entry) (s : close_state) :
    close_state :=
  match e.state with
  | .Z_UNCHANGED => close_copy max_write z.source i none s
  | .Z_DELETED => s
  | .Z_REPLACED | .Z_ADDED =>
    match e.ch_data_zf with
    | some other => close_copy max_write other e.ch_data_zf_fileno e.fn s
    | none =>
      if e.ch_data_buf.isSome then s
      else if e.ch_data_fp.isSome then s
      else { s with errors := s.errors ++ ["Z_ADDED: no data"] }
  | .Z_RENAMED => close_copy max_write z.source i none s

/-- The loop of `zip_close` over the entries from number `i` on. -/
def close_loop (max_write : Nat) (z : zf) : List zf_entry → Nat → close_state → close_state
  | [], _, s => s
  | e :: rest, i, s => close_loop max_write z rest (i + 1) (close_entry max_write z i e s)

/-- The name of the temporary file, `"%s.XXXXXX"` as `mkstemp` fills it in. -/
def temp_name (zn : String) : String := zn ++ ".XXXXXX"

/-- A file system with the file `name` set to `content` (or removed). -/
def fs_set (fs : String → Option (List Nat)) (name : String) (content : Option (List Nat)) :
    String → Option (List Nat) :=
  fun n => if n = name then content else fs n

/-- `zip_close` (zip_close.c): the value returned and the world afterwards. What
is written to the temporary file is in the file at once. -/
def zip_close (flt : faults) (z : zf) (w : zip_world) : Int × zip_world :=
  if z.changes = false then (flt.zf_free_result, w)
  else if z.entry.all (fun e => e.state = .Z_UNCHANGED) then (flt.zf_free_result, w)
  else
    let temp := temp_name z.zn
    if flt.fdopen_fails then (-1, { w with fs := fs_set w.fs temp (some []) })
    else
      let tzf : zf_dest := ⟨⟨[], false, flt.room⟩, []⟩
      let s := close_loop flt.max_write z z.entry 0 ⟨tzf, w.count, w.errors, w.zip_err⟩
      let d := writecdir flt.max_write s.tzf (z.com.take z.comlen) z.comlen s.count
      let zip_err := if d.2.1.isSome then d.2.1 else s.zip_err
      let fs := fs_set w.fs temp (some d.2.2.1.data)
      if !flt.fclose_fails then
        if flt.rename_fails then
          (-1, { fs := fs, count := d.2.2.2, errors := s.errors, zip_err := some .ZERR_RENAME })
        else
          (0, { fs := fs_set (fs_set fs z.zn (some d.2.2.1.data)) temp none,
                count := d.2.2.2, errors := s.errors, zip_err := zip_err })
      else
        (0, { fs := fs, count := d.2.2.2, errors := s.errors, zip_err := zip_err })

/-! ## libzip: zip_open.c -/

/-- `memmem(buf + start, len, needle, 4)`: the index in `buf` of the first place
from `start` on where `needle` stands within the `len` bytes searched, `fuel`
places tried at most. -/
def memmem_from (buf needle : List Nat) (limit : Nat) : Nat → Nat → Option Nat
  | 0, _ => none
  | fuel + 1, j =>
    if j + needle.length > limit then none
    else if (buf.drop j).take needle.length = needle then some j
    else memmem_from buf needle limit fuel (j + 1)

/-- `memmem` on a buffer: nothing is found in a negative number of bytes (the C
call would convert it to a huge size). -/
def memmem (buf : List Nat) (start : Nat) (len : Int) (needle : List Nat) : Option Nat :=
  if len < 0 then none
  else memmem_from buf needle (start + len.toNat) (len.toNat + 1) start

/-- Modelled from the spec: an entry as `readcdir` leaves it after
`zip_entry_init`, which is not among the sources: unchanged, without data to
add. -/
def read_entry (h : zf_header) : zf_entry :=
  { h with state := .Z_UNCHANGED, ch_data_zf := none, ch_data_zf_fileno := 0,
           ch_data_buf := none, ch_data_fp := none, ch_data_offset := 0, ch_data_len := 0 }

/-- The loop of `readcdir` that reads `n` directory records: the entries, or
nothing when `_zip_readcdentry` fails for one; and the file. -/
def readcdir_entries (buf : List Nat) (eocd : Nat) (readp : Bool) :
    Nat → rfile → Nat → Option (List zf_entry) × rfile
  | 0, fp, _ => (some [], fp)
  | n + 1, fp, cdp =>
    match _zip_readcdentry fp buf cdp ((eocd : Int) - (cdp : Int)) readp false with
    | (none, fp) => (none, fp)
    | (some (h, cdp), fp) =>
      match readcdir_entries buf eocd readp n fp cdp with
      | (none, fp) => (none, fp)
      | (some es, fp) => (some (read_entry h :: es), fp)

/-- `readcdir` (zip_open.c) for the end record at index `eocd` of the buffer,
which holds the last `buflen` bytes of the file: the archive (without name), or
nothing for NULL; and the file. A seek to before the start of the file fails
and leaves the position. -/
def readcdir (fp : rfile) (buf : List Nat) (eocd : Nat) (buflen : Nat) : Option zf × rfile :=
  let comlen : Int := (buflen : Int) - (eocd : Int) - (EOCDLEN : Int)
  if comlen < 0 then (none, fp)
  else if (buf.drop eocd).take 4 ≠ EOCD_MAGIC then (none, fp)
  else if (buf.drop (eocd + 4)).take 4 ≠ [0, 0, 0, 0] then (none, fp)
  else
    let i := read2 buf (eocd + 8)
    let nentry := read2 buf (eocd + 10)
    let cd_size := read4 buf (eocd + 12)
    let cd_offset := read4 buf (eocd + 16)
    let zcomlen := read2 buf (eocd + 20)
    if (zcomlen : Int) ≠ comlen ∨ nentry ≠ i then (none, fp)
    else
      let com := (buf.drop (eocd + EOCDLEN)).take zcomlen
      if cd_size < eocd then
        match readcdir_entries buf eocd false nentry fp (eocd - cd_size) with
        | (none, fp) => (none, fp)
        | (some es, fp) => (some ⟨"", some fp.data, es, com, zcomlen, cd_size, cd_offset, false⟩, fp)
      else
        let back := cd_size + zcomlen + EOCDLEN
        let fp : rfile := if back ≤ fp.data.length then { fp with pos := fp.data.length - back }
          else fp
        if fp.pos ≠ cd_offset then (none, fp)
        else
          match readcdir_entries buf eocd true nentry fp eocd with
          | (none, fp) => (none, fp)
          | (some es, fp) =>
            (some ⟨"", some fp.data, es, com, zcomlen, cd_size, cd_offset, false⟩, fp)

/-- `headercomp` (zip_open.c): 0 for headers that agree, -1 otherwise. -/
def headercomp (h1 : zf_header) (local1p : Bool) (h2 : zf_header) (local2p : Bool) : Int :=
  if h1.version_need ≠ h2.version_need ∨ h1.bitflags ≠ h2.bitflags
      ∨ h1.comp_meth ≠ h2.comp_meth ∨ h1.lmtime ≠ h2.lmtime ∨ h1.lmdate ≠ h2.lmdate
      ∨ h1.fnlen ≠ h2.fnlen ∨ h1.crc ≠ h2.crc ∨ h1.comp_size ≠ h2.comp_size
      ∨ h1.uncomp_size ≠ h2.uncomp_size
      ∨ (h1.fnlen ≠ 0 ∧ (h1.fn.getD []).take h1.fnlen ≠ (h2.fn.getD []).take h1.fnlen) then -1
  else if local1p ≠ local2p then 0
  else if h1.version_made ≠ h2.version_made ∨ h1.disknrstart ≠ h2.disknrstart
      ∨ h1.intatt ≠ h2.intatt ∨ h1.extatt ≠ h2.extatt ∨ h1.local_offset ≠ h2.local_offset
      ∨ h1.eflen ≠ h2.eflen
      ∨ (h1.eflen ≠ 0 ∧ (h1.fn.getD []).take h1.fnlen ≠ (h2.fn.getD []).take h1.fnlen)
      ∨ h1.fcomlen ≠ h2.fcomlen
      ∨ (h1.fcomlen ≠ 0 ∧ (h1.fcom.getD []).take h1.fcomlen ≠ (h2.fcom.getD []).take h1.fcomlen)
      then -1
  else 0

/-- The loop of `checkcons` (zip_open.c) over the entries, with the values of
`min` and `max` so far and the structure `temp` as the rounds before left it,
nothing as long as no local header was read (it is not initialised): the value
returned, or nothing where the C code compares with a `temp` that was never
set; and the file. The value `_zip_readcdentry` returns is dropped: when no
local header can be read, `temp` stays as it was and the record is compared with
it. (A read that succeeds sets every member of `temp` that `headercomp` looks at
for a record and a local header.) -/
def checkcons_loop (cd_offset : Nat) :
    List zf_entry → rfile → Nat → Nat → Option zf_header → Option Int × rfile
  | [], fp, min, max, _ => (some ((max : Int) - (min : Int)), fp)
  | e :: rest, fp, min, max, temp =>
    let min := if e.local_offset < min then e.local_offset else min
    let j := e.local_offset + e.comp_size + e.fnlen + e.eflen + e.fcomlen + LENTRYSIZE
    let max := if j > max then j else max
    if max > cd_offset then (some (-1), fp)
    else
      match _zip_readcdentry { fp with pos := e.local_offset } [] 0 0 true true with
      | (none, fp) =>
        match temp with
        | none => (none, fp)
        | some old =>
          if headercomp e.tozf_header false old true ≠ 0 then (some (-1), fp)
          else checkcons_loop cd_offset rest fp min max (some old)
      | (some (temp, _), fp) =>
        if headercomp e.tozf_header false temp true ≠ 0 then (some (-1), fp)
        else checkcons_loop cd_offset rest fp min max (some temp)

/-- `checkcons` (zip_open.c): the value returned, or nothing where the C code
reads a variable that was not set (`min` and `max` of an archive without
entries, or `temp` when no local header is read for the first entry); and the
file. -/
def checkcons (fp : rfile) (z : zf) : Option Int × rfile :=
  match z.entry with
  | [] => (none, fp)
  | e :: rest => checkcons_loop z.cd_offset (e :: rest) fp e.local_offset e.local_offset none

/-- The flags of `zip_open`. -/
structure zip_flags where
  ZIP_CREATE : Bool
  ZIP_EXCL : Bool
  ZIP_CHECKCONS : Bool
  deriving DecidableEq, Repr

/-- The loop of `zip_open` (zip_open.c) over the places where the magic of the end
record stands, from index `start` of the buffer on, `fuel` rounds at most: the
values of `best` and `cdir` at its end; nothing where `checkcons` has no value. -/
def open_loop (flags : zip_flags) (buf : List Nat) (buflen : Nat) :
    Nat → Nat → rfile → Int → Option zf → Option (Int × Option zf)
  | 0, _, _, best, cdir => some (best, cdir)
  | fuel + 1, start, fp, best, cdir =>
    match memmem buf start ((buflen : Int) - (start : Int) - 18) EOCD_MAGIC with
    | none => some (best, cdir)
    | some j =>
      match readcdir fp buf j buflen with
      | (none, fp) => open_loop flags buf buflen fuel (j + 1) fp best cdir
      | (some cdirnew, fp) =>
        match cdir with
        | some old =>
          let c1 := if best ≤ 0 then checkcons fp old else (some best, fp)
          let c2 := checkcons c1.2 cdirnew
          match c1.1, c2.1 with
          | some best, some a =>
            if best < a then open_loop flags buf buflen fuel (j + 1) c2.2 a (some cdirnew)
            else open_loop flags buf buflen fuel (j + 1) c2.2 best (some old)
          | _, _ => none
        | none =>
          if flags.ZIP_CHECKCONS then
            match checkcons fp cdirnew with
            | (some best, fp) => open_loop flags buf buflen fuel (j + 1) fp best (some cdirnew)
            | (none, _) => none
          else open_loop flags buf buflen fuel (j + 1) fp 0 (some cdirnew)

/-- `zip_open` (zip_open.c) on a file system: the archive, or nothing for NULL;
the outer nothing stands for a run in which `checkcons` has no value. Opening
and reading a file that exists succeed. -/
def zip_open (fs : String → Option (List Nat)) (fn : Option String) (flags : zip_flags) :
    Option (Option zf) :=
  match fn with
  | none => some none
  | some fn =>
    match fs fn with
    | none =>
      if flags.ZIP_CREATE then some (some ⟨fn, none, [], [], 0, 0, 0, false⟩) else some none
    | some data =>
      if flags.ZIP_EXCL then some none
      else
        let len := data.length
        let start := len - (if len < BUFSIZE then len else BUFSIZE)
        let rd := fread data start BUFSIZE
        let buf := rd.1
        let buflen := buf.length
        match open_loop flags buf buflen (buflen + 1) 0 ⟨data, rd.2⟩ (-1) none with
        | none => none
        | some (best, cdir) =>
          if best < 0 then some none
          else
            match cdir with
            | none => some none
            | some c => some (some { c with zn := fn })

/-! ## libzip: sample data -/

/-- The header of a stored file `a` of three bytes, at the start of its archive. -/
def sample_header : zf_header :=
  { version_made := 20, version_need := 20, bitflags := 0, comp_meth := 0, lmtime := 0,
    lmdate := 33, crc := 1438416925, comp_size := 3, uncomp_size := 3, fnlen := 1, eflen := 0,
    fcomlen := 0, disknrstart := 0, intatt := 0, extatt := 0, local_offset := 0,
    fn := some [97], ef := none, fcom := none }

/-- The header of a second stored file, `b`, of two bytes, which follows the file
`a` in its archive. -/
def sample_header_b : zf_header :=
  { sample_header with crc := 1440686964, comp_size := 2, uncomp_size := 2, local_offset := 34,
                       fn := some [98] }

/-- The bytes of the file `a` in an archive: local header, name and data. -/
def sample_local : List Nat :=
  [80, 75, 3, 4, 20, 0, 0, 0, 0, 0, 0, 0, 33, 0, 29, 128, 188, 85, 3, 0, 0, 0, 3, 0, 0, 0,
    1, 0, 0, 0, 97, 1, 2, 3]

/-- The bytes of the file `b` in an archive: local header, name and data. -/
def sample_local_b : List Nat :=
  [80, 75, 3, 4, 20, 0, 0, 0, 0, 0, 0, 0, 33, 0, 116, 35, 223, 85, 2, 0, 0, 0, 2, 0, 0, 0,
    1, 0, 0, 0, 98, 4, 5]

/-- The bytes of the directory record of the file `a`. -/
def sample_central : List Nat :=
  [80, 75, 1, 2, 20, 0, 20, 0, 0, 0, 0, 0, 0, 0, 33, 0, 29, 128, 188, 85, 3, 0, 0, 0,
    3, 0, 0, 0, 1, 0, 0, 0, 0, 0, 0, 0, 0, 0, 0, 0, 0, 0, 0, 0, 0, 0, 97]

/-- The bytes of the directory record of the file `b`. -/
def sample_central_b : List Nat :=
  [80, 75, 1, 2, 20, 0, 20, 0, 0, 0, 0, 0, 0, 0, 33, 0, 116, 35, 223, 85, 2, 0, 0, 0,
    2, 0, 0, 0, 1, 0, 0, 0, 0, 0, 0, 0, 0, 0, 0, 0, 0, 0, 34, 0, 0, 0, 98]

/-- An end record without comment: `n` records on this disk, `m` records in all,
a directory of `size` bytes at `offset` (all below 256). -/
def sample_eocd (n m size offset : Nat) : List Nat :=
  [80, 75, 5, 6, 0, 0, 0, 0, n, 0, m, 0, size, 0, 0, 0, offset, 0, 0, 0, 0, 0]

/-- An archive with the files `a` and `b`, as a file on disk. -/
def sample_archive : List Nat :=
  sample_local ++ sample_local_b ++ sample_central ++ sample_central_b ++ sample_eocd 2 2 94 67

/-- The archive `sample_archive`, open as `old.zip`, with its entry `b` deleted. -/
def sample_zf : zf :=
  { zn := "old.zip", zp := some sample_archive,
    entry := [read_entry sample_header, { read_entry sample_header_b with state := .Z_DELETED }],
    com := [], comlen := 0, cd_size := 94, cd_offset := 67, changes := true }

/-- A new archive `new.zip` to which one file is added, with its data in a
buffer. -/
def sample_zf_buf : zf :=
  { zn := "new.zip", zp := none,
    entry := [{ read_entry { sample_header with fn := some [99] } with
      state := .Z_ADDED, ch_data_buf := some [1, 2, 3], ch_data_len := 3 }],
    com := [], comlen := 0, cd_size := 0, cd_offset := 0, changes := true }

/-- A new archive `new.zip` to which the file `a` of `sample_archive` is added
under the name `c`. -/
def sample_zf_zip : zf :=
  { zn := "new.zip", zp := none,
    entry := [{ read_entry { sample_header with fn := some [99] } with
      state := .Z_ADDED, ch_data_zf := some ⟨sample_archive, [sample_header, sample_header_b]⟩,
      ch_data_zf_fileno := 0 }],
    com := [], comlen := 0, cd_size := 0, cd_offset := 0, changes := true }

/-- A world in which `old.zip` is the file `sample_archive`. -/
def sample_world : zip_world :=
  { fs := fun n => if n = "old.zip" then some sample_archive else none,
    count := 0, errors := [], zip_err := none }

/-- Names, uncompressed sizes and CRCs of the entries of an archive. -/
def entry_list (es : List zf_entry) : List (Option (List Nat) × Nat × Nat) :=
  es.map (fun e => (e.fn, e.uncomp_size, e.crc))

/-! ## libzip: integers in the file -/

/-- `read2` (zip_open.c) with its effect on the cursor `*a`: the value returned
and the cursor afterwards. -/
def read2_cursor (buf : List Nat) (a : Nat) : Nat × Nat :=
  (read2 buf a, a + 2)

/-- `read4` (zip_open.c) with its effect on the cursor `*a`: the value returned
and the cursor afterwards. -/
def read4_cursor (buf : List Nat) (a : Nat) : Nat × Nat :=
  (read4 buf a, a + 4)

/-- The value of type `int` (32 bits, two's complement) that has the bits of `n`:
what `read4`, which computes in `int`, returns for the pattern `n`. -/
def to_int32 (n : Nat) : Int :=
  if n % 2 ^ 32 < 2 ^ 31 then ((n % 2 ^ 32 : Nat) : Int) else ((n % 2 ^ 32 : Nat) : Int) - 2 ^ 32

/-- An archive with the files `a` and `b` in which nothing is staged. -/
def sample_zf_clean : zf :=
  { zn := "old.zip", zp := some sample_archive,
    entry := [read_entry sample_header, read_entry sample_header_b],
    com := [], comlen := 0, cd_size := 94, cd_offset := 67, changes := true }

/-! ## libzip: the records of the file -/

/-- The two bytes of a 16-bit value in the file, low byte first. -/
def le2 (v : Nat) : List Nat := [v % 256, v / 256 % 256]

/-- The four bytes of a 32-bit value in the file, low byte first. -/
def le4 (v : Nat) : List Nat := [v % 256, v / 256 % 256, v / 65536 % 256, v / 16777216 % 256]

/-- The 30 bytes of a local header of the ZIP format with the fields of `h`:
the magic, the version needed, the flags, the method, time and date, the CRC,
the two sizes, and the lengths of the name and of the extra field. -/
def local_record (h : zf_header) : List Nat :=
  LOCAL_MAGIC ++ le2 h.version_need ++ le2 h.bitflags ++ le2 h.comp_meth ++ le2 h.lmtime
    ++ le2 h.lmdate ++ le4 h.crc ++ le4 h.comp_size ++ le4 h.uncomp_size ++ le2 h.fnlen
    ++ le2 h.eflen

/-- The 46 bytes of a directory record of the ZIP format with the fields of
`h`. -/
def central_record (h : zf_header) : List Nat :=
  CENTRAL_MAGIC ++ le2 h.version_made ++ le2 h.version_need ++ le2 h.bitflags
    ++ le2 h.comp_meth ++ le2 h.lmtime ++ le2 h.lmdate ++ le4 h.crc ++ le4 h.comp_size
    ++ le4 h.uncomp_size ++ le2 h.fnlen ++ le2 h.eflen ++ le2 h.fcomlen ++ le2 h.disknrstart
    ++ le2 h.intatt ++ le4 h.extatt ++ le4 h.local_offset

/-- The strings that follow a record: the name, the extra field and the comment,
each as long as its length field says. -/
def record_strings (h : zf_header) : List Nat :=
  (h.fn.getD []).take h.fnlen ++ (h.ef.getD []).take h.eflen ++ (h.fcom.getD []).take h.fcomlen

/-- The end record of the ZIP format for a directory of `n` records and
`cd_size` bytes at `cd_offset`, on one disk, with a comment. -/
def end_record (n cd_size cd_offset comlen : Nat) (com : List Nat) : List Nat :=
  EOCD_MAGIC ++ [0, 0, 0, 0] ++ le2 n ++ le2 n ++ le4 cd_size ++ le4 cd_offset ++ le2 comlen
    ++ com.take comlen

/-- The fields of a local header fit their places in the file: 16 bits, and 32
bits for the CRC and the sizes. -/
def local_fits (h : zf_header) : Prop :=
  h.version_need < 2 ^ 16 ∧ h.bitflags < 2 ^ 16 ∧ h.comp_meth < 2 ^ 16 ∧ h.lmtime < 2 ^ 16
    ∧ h.lmdate < 2 ^ 16 ∧ h.crc < 2 ^ 32 ∧ h.comp_size < 2 ^ 32 ∧ h.uncomp_size < 2 ^ 32
    ∧ h.fnlen < 2 ^ 16 ∧ h.eflen < 2 ^ 16

/-- The name `_zip_create_entry` gives the entry it creates from the entry
`src_entry` and the argument `name`: `name` if it is not NULL, else the name of
`src_entry` if that is not NULL, else `-`. -/
def created_fn (src_entry : zf_header) (name : Option (List Nat)) : List Nat :=
  match name with
  | some n => xstrdup n
  | none =>
    match src_entry.fn with
    | some s => xstrdup s
    | none => [45]

/-- The length of name `_zip_create_entry` gives the entry it creates: the
length of `name`, else the length field of `src_entry`, else 1. -/
def created_fnlen (src_entry : zf_header) (name : Option (List Nat)) : Nat :=
  match name with
  | some n => (xstrdup n).length
  | none =>
    match src_entry.fn with
    | some _ => src_entry.fnlen
    | none => 1

/-! ## libzip: what is staged -/

/-- The entry whose header and data an entry of an archive stands for when the
archive is closed: for an entry added from another archive, the entry
`ch_data_zf_fileno` of that archive; else the entry itself. -/
def source_header (e : zf_entry) : zf_header :=
  match e.state, e.ch_data_zf with
  | .Z_ADDED, some other => (other.entry.get? e.ch_data_zf_fileno).getD e.tozf_header
  | _, _ => e.tozf_header

/-- An entry as the claims on `zip_close` take it: unchanged, renamed, deleted,
or added from an entry of another archive; with a name that is a C string
(not NULL, without NUL) and, unless it is added, as long as its length field
says. -/
def staged_ok (e : zf_entry) : Prop :=
  (e.state = .Z_UNCHANGED ∨ e.state = .Z_RENAMED ∨ e.state = .Z_DELETED
      ∨ (e.state = .Z_ADDED ∧ ∃ other, e.ch_data_zf = some other
          ∧ e.ch_data_zf_fileno < other.entry.length))
    ∧ ∃ nm, e.fn = some nm ∧ 0 ∉ nm ∧ (e.state ≠ .Z_ADDED → e.fnlen = nm.length)

/-- The bytes of a directory record with its strings. -/
def central_bytes (h : zf_header) : List Nat :=
  central_record h ++ record_strings h

/-- What the directory of the new file says of an entry of the archive that is
closed: its name, in full, and the sizes, the CRC and the method of the entry it
stands for. -/
def listed_as (h : zf_header) (e : zf_entry) : Prop :=
  h.fn = e.fn ∧ h.fnlen = (e.fn.getD []).length
    ∧ h.comp_size = (source_header e).comp_size
    ∧ h.uncomp_size = (source_header e).uncomp_size
    ∧ h.crc = (source_header e).crc
    ∧ h.comp_meth = (source_header e).comp_meth

/-! ## libzip: an entry without a name -/

/-- The header of a stored file of three bytes without a name (length of name 0,
name NULL), at the start of its archive. -/
def sample_header_nameless : zf_header :=
  { sample_header with fnlen := 0, fn := none }

/-- The bytes of the file without a name in an archive: local header and data. -/
def sample_local_nameless : List Nat :=
  [80, 75, 3, 4, 20, 0, 0, 0, 0, 0, 0, 0, 33, 0, 29, 128, 188, 85, 3, 0, 0, 0, 3, 0, 0, 0,
    0, 0, 0, 0, 1, 2, 3]

/-- The bytes of the directory record of the file without a name. -/
def sample_central_nameless : List Nat :=
  [80, 75, 1, 2, 20, 0, 20, 0, 0, 0, 0, 0, 0, 0, 33, 0, 29, 128, 188, 85, 3, 0, 0, 0,
    3, 0, 0, 0, 0, 0, 0, 0, 0, 0, 0, 0, 0, 0, 0, 0, 0, 0, 0, 0, 0, 0]

/-- An archive with the file without a name and the file `b`, as a file on
disk. -/
def sample_archive_nameless : List Nat :=
  sample_local_nameless ++ sample_local_b ++ sample_central_nameless
    ++ sample_central_b.set 42 33 ++ sample_eocd 2 2 93 66

/-- The archive `sample_archive_nameless`, open as `old.zip`, with its entry `b`
deleted. -/
def sample_zf_nameless : zf :=
  { zn := "old.zip", zp := some sample_archive_nameless,
    entry := [read_entry sample_header_nameless,
      { read_entry { sample_header_b with local_offset := 33 } with state := .Z_DELETED }],
    com := [], comlen := 0, cd_size := 93, cd_offset := 66, changes := true }

/-- A world in which `old.zip` is the file `sample_archive_nameless`. -/
def sample_world_nameless : zip_world :=
  { fs := fun n => if n = "old.zip" then some sample_archive_nameless else none,
    count := 0, errors := [], zip_err := none }

/-! ## file.cc: `File::is_mergable` -/

/-- Modelled from the spec: `File::merged_name()` (file.h is not among the
sources): the name of the file in the parent, `merge`, or the name of the file
itself when `merge` is empty. -/
def File.merged_name (f : File) : String :=
  if f.merge = "" then f.name else f.merge

/-- `File::is_mergable` (file.cc), statement for statement. -/
def File.is_mergable (self other : File) : Bool :=
  if self.merged_name ≠ other.name then
    false
  else if self.hashes.empty && other.hashes.empty then
    true
  else if !self.hashes.empty && !other.hashes.empty && self.compare_size_crc other then
    true
  else
    false

/-! ## libzip: sample data for `headercomp` and `checkcons` -/

/-- The header of the file `a` with a comment of five bytes in the directory. -/
def sample_header_fcom : zf_header :=
  { sample_header with fcomlen := 5, fcom := some [104, 101, 108, 108, 111] }

/-- The bytes of the directory record of the file `a` with its comment. -/
def sample_central_fcom : List Nat :=
  sample_central.take 32 ++ [5, 0] ++ (sample_central.drop 34).take 13
    ++ [104, 101, 108, 108, 111]

/-- An archive with the file `a` alone, whose directory record carries a comment:
the data of `a` end at offset 34, where the directory starts. -/
def sample_archive_fcom : List Nat :=
  sample_local ++ sample_central_fcom ++ sample_eocd 1 1 52 34

/-- The header `checkcons` compares the record of the entry `e` with: the local
header read at the offset of the entry in the file `data` or, where none can be
read there, the local header read last before, for an earlier entry (`temp`,
nothing when none was read yet). -/
def compared_header (data : List Nat) (e : zf_entry) (temp : Option zf_header) :
    Option zf_header :=
  match (_zip_readcdentry ⟨data, e.local_offset⟩ [] 0 0 true true).1 with
  | some r => some r.1
  | none => temp

/-- `records_agree data es temp`: the record of every entry of `es` agrees, by
`headercomp`, with the header `checkcons` compares it with. -/
def records_agree (data : List Nat) : List zf_entry → Option zf_header → Prop
  | [], _ => True
  | e :: rest, temp =>
    (∃ h, compared_header data e temp = some h ∧ headercomp e.tozf_header false h true = 0)
      ∧ records_agree data rest (compared_header data e temp)

/-- An archive whose directory has two records for a file `a` of three bytes, at
the offsets 0 and 34: the local header, the name and the data of the first are
there, and 34 bytes of zeroes stand where the second is said to be. -/
def sample_archive_stale : List Nat :=
  sample_local ++ List.replicate 34 0 ++ sample_central ++ sample_central.set 42 34
    ++ sample_eocd 2 2 94 68

/-! ## libzip: an entry whose name holds a NUL byte -/

/-- The header of a stored file of three bytes whose name is the three bytes `a`,
NUL, `b`, at the start of its archive. -/
def sample_header_nul : zf_header :=
  { sample_header with fnlen := 3, fn := some [97, 0, 98] }

/-- The bytes of that file in an archive: local header, name and data. -/
def sample_local_nul : List Nat :=
  sample_local.take 26 ++ [3, 0, 0, 0, 97, 0, 98, 1, 2, 3]

/-- The bytes of the directory record of that file. -/
def sample_central_nul : List Nat :=
  sample_central.take 28 ++ [3, 0] ++ (sample_central.drop 30).take 16 ++ [97, 0, 98]

/-- An archive with that file and the file `b`, as a file on disk. -/
def sample_archive_nul : List Nat :=
  sample_local_nul ++ sample_local_b ++ sample_central_nul ++ sample_central_b.set 42 36
    ++ sample_eocd 2 2 96 69

/-- The archive `sample_archive_nul`, open as `old.zip`, with its entry `b`
deleted. -/
def sample_zf_nul : zf :=
  { zn := "old.zip", zp := some sample_archive_nul,
    entry := [read_entry sample_header_nul,
      { read_entry { sample_header_b with local_offset := 36 } with state := .Z_DELETED }],
    com := [], comlen := 0, cd_size := 96, cd_offset := 69, changes := true }

/-- A world in which `old.zip` is the file `sample_archive_nul`. -/
def sample_world_nul : zip_world :=
  { fs := fun n => if n = "old.zip" then some sample_archive_nul else none,
    count := 0, errors := [], zip_err := none }

/-- A file with a size and hashes, and a size and hashes after a header detector
was applied. -/
def detector_file (name : String) (size : Nat) (h : Hashes) (dsize : Nat) (dh : Hashes) : File :=
  ⟨name, "", size, h, dsize, dh⟩

/-! ## fix_util.c: `copy_file`, `rename_or_move`, `link_or_copy` -/

/-- What can go wrong from outside during `copy_file`, `rename_or_move` and
`link_or_copy`: `fopen` of the new file for writing fails for the names
`fopen_fails` says, the call of `fwrite` number `k` fails when `fwrite_fails k`,
and `fclose` of the new file, `ferror` of the old file, `rename` and `link` are
as the flags say. -/
structure copy_faults where
  fopen_fails : String → Bool
  fwrite_fails : Nat → Bool
  fclose_fails : Bool
  ferror_fin : Bool
  rename_fails : Bool
  link_fails : Bool

/-- Nothing goes wrong, except that `rename` and `link` are as given. -/
def no_copy_faults (rename_fails link_fails : Bool) : copy_faults :=
  ⟨fun _ => false, fun _ => false, false, false, rename_fails, link_fails⟩

/-- `fread(b, size, 1, f)` at position `pos` of a file: the bytes stored in `b`,
the value returned, which is the number of complete items read (1 or 0), and the
new position. -/
def fread_item (data : List Nat) (pos size : Nat) : List Nat × Nat × Nat :=
  let got := (data.drop pos).take size
  (got, (if got.length = size then 1 else 0), pos + got.length)

/-- The inner loop of `copy_file` (fix_util.c),
`while (nw<nr) { n = fwrite(b+nw, nr-nw, 1, fout); ... nw += n; }`, with the
bytes written so far and the number of calls of `fwrite` so far; a call that
succeeds writes one item of `nr-nw` bytes and returns 1. Nothing is returned
when a call fails. The first argument bounds the number of rounds and is `nr`
at the call. -/
def copy_file_write (flt : copy_faults) (b : List Nat) (nr : Nat) :
    Nat → Nat → List Nat × Nat → Option (List Nat × Nat)
  | 0, _, s => some s
  | fuel + 1, nw, s =>
    if nw < nr then
      if flt.fwrite_fails s.2 then none
      else copy_file_write flt b nr fuel (nw + 1) (s.1 ++ (b.drop nw).take (nr - nw), s.2 + 1)
    else some s

/-- The outer loop of `copy_file` (fix_util.c),
`while ((nr=fread(b, sizeof(b), 1, fin)) > 0)`, from position `pos` of the old
file: `some none` when a call of `fwrite` failed, the bytes written and the
number of calls otherwise; `none` when the bound on the number of rounds is
reached. -/
def copy_file_loop (flt : copy_faults) (data : List Nat) :
    Nat → Nat → List Nat × Nat → Option (Option (List Nat × Nat))
  | 0, _, _ => none
  | fuel + 1, pos, s =>
    let r := fread_item data pos 8192
    let nr := r.2.1
    if nr > 0 then
      match copy_file_write flt r.1 nr nr 0 s with
      | none => some none
      | some s1 => copy_file_loop flt data fuel r.2.2 s1
    else some (some s)

/-- `copy_file` (fix_util.c): the value returned and the files afterwards. The
new file is created empty by `fopen(new, "wb")`, which also empties the old file
when both names are the same. `none` only when the bound on the rounds of the
loop is reached (it never is: `copy_file_returns`). -/
def copy_file (flt : copy_faults) (old new : String) (fs : String → Option (List Nat)) :
    Option (Int × (String → Option (List Nat))) :=
  match fs old with
  | none => some (-1, fs)
  | some d =>
    if flt.fopen_fails new then some (-1, fs)
    else
      let fs1 := fs_set fs new (some [])
      let data := if old = new then [] else d
      match copy_file_loop flt data (data.length / 8192 + 1) 0 ([], 0) with
      | none => none
      | some none => some (-1, fs_set fs1 new none)
      | some (some s) =>
        if flt.fclose_fails ∨ flt.ferror_fin then some (-1, fs_set fs1 new none)
        else some (0, fs_set fs1 new (some s.1))

/-- `rename_or_move` (fix_util.c): the value returned and the files afterwards;
the messages of `myerror` are left out. -/
def rename_or_move (flt : copy_faults) (old new : String) (fs : String → Option (List Nat)) :
    Option (Int × (String → Option (List Nat))) :=
  if flt.rename_fails ∨ fs old = none then
    match copy_file flt old new fs with
    | none => none
    | some (r, fs1) => if r < 0 then some (-1, fs1) else some (0, fs_set fs1 old none)
  else some (0, fs_set (fs_set fs new (fs old)) old none)

/-- `link_or_copy` (fix_util.c): the value returned and the files afterwards; the
messages of `myerror` are left out. `link` fails when the flag says so, when the
old file does not exist and when the new one does. -/
def link_or_copy (flt : copy_faults) (old new : String) (fs : String → Option (List Nat)) :
    Option (Int × (String → Option (List Nat))) :=
  if flt.link_fails ∨ fs old = none ∨ fs new ≠ none then
    match copy_file flt old new fs with
    | none => none
    | some (r, fs1) => if r < 0 then some (-1, fs1) else some (0, fs1)
  else some (0, fs_set fs new (fs old))

/-- A file system with the file `old` alone, of five bytes. -/
def sample_files : String → Option (List Nat) :=
  fun n => if n = "old" then some [1, 2, 3, 4, 5] else none

/-! ## fix_util.c: `make_garbage_name`, `make_unique_name` -/

/-- `MAXPATHLEN` (fix_util.c). -/
def MAXPATHLEN : Nat := 1024

/-- Modelled from the spec: `mybasename` (util.c is not among the sources): the
part of a file name after its last `/`, the whole name when it has none. -/
def mybasename (fname : List Char) : List Char :=
  (fname.reverse.takeWhile (fun c => c != '/')).reverse

/-- The text `printf` writes for `%03d` and a number below 1000. -/
def fmt_03d (i : Nat) : List Char :=
  [Nat.digitChar (i / 100 % 10), Nat.digitChar (i / 10 % 10), Nat.digitChar (i % 10)]

/-- The loop of `make_unique_name` (fix_util.c) from the number `i` on, for at
most `n` numbers: `ret` holds the formatted name, of length `len`, and
`absent p` says that `stat(p)` fails with `ENOENT`. Nothing is `NULL`. -/
def make_unique_name_loop (absent : List Char → Bool) (ext ret : List Char) :
    Nat → Nat → Option (List Char)
  | 0, _ => none
  | n + 1, i =>
    let name := ret ++ ['-'] ++ fmt_03d i ++ (if ext ≠ [] then ['.'] else []) ++ ext
    if absent name then some name
    else make_unique_name_loop absent ext ret n (i + 1)

/-- `make_unique_name` (fix_util.c) for the name `s` that `vsnprintf` formats
from `fmt` and the arguments after it; `vsnprintf` returns the length of `s`,
and a name that does not fit is refused before `ret` is read. Nothing is
`NULL`. -/
def make_unique_name (absent : List Char → Bool) (ext s : List Char) : Option (List Char) :=
  let len := s.length
  if len + 5 + ext.length + 1 > MAXPATHLEN then none
  else make_unique_name_loop absent ext s 1000 0

/-- `make_garbage_name` (fix_util.c) with the global `unknown_dir`: `strchr(t, '.')`
finds the first `.` of the whole of `t`, which is cut there; `ext` is what comes
after it. Nothing is `NULL`. -/
def make_garbage_name (unknown_dir : List Char) (absent : List Char → Bool)
    (name : List Char) (unique : Bool) : Option (List Char) :=
  let s := mybasename name
  let t := unknown_dir ++ ['/'] ++ s
  if unique && !absent t then
    let ext := (t.dropWhile (fun c => c != '.')).drop 1
    let t := t.takeWhile (fun c => c != '.')
    make_unique_name absent ext t
  else some t

/-- A file system in which the file `p` exists and no other. -/
def only_file (p : String) : List Char → Bool :=
  fun q => q != p.toList

/-! ## fix_util.c: `save_needed` -/

/-- The calls `save_needed` makes on its archives, with the values returned. -/
inductive needed_call where
  | archive_file_copy (ret : Int)
  | archive_commit (ret : Int)
  | archive_rollback
  | archive_free
  | archive_file_delete (ret : Int)
  deriving DecidableEq, Repr

/-- What `save_needed` calls and fix_util.c does not define, over a state of the
world `ω` (the files, and the archive `da` with what is staged in it) and
archives `α`: `make_needed_name` for the file `sidx` of `sa` (nothing for
`NULL`), `myerror`, `archive_new` with the flag `do_save` (nothing for `NULL`),
`archive_file_copy` from the file `sidx` of `sa` into `da`, `archive_commit`,
`archive_rollback` and `archive_free` of `da`, and `archive_file_delete` of the
file `sidx` of `sa`, the one call that stages a change in `sa`: it returns a
number and the changes staged in `sa` afterwards. -/
structure needed_env (ω α : Type) where
  make_needed_name : Nat → ω → Option String
  myerror : String → ω → ω
  archive_new : String → Bool → ω → Option α × ω
  archive_file_copy : Nat → α → ω → Int × ω
  archive_commit : α → ω → Int × ω
  archive_rollback : α → ω → ω
  archive_free : α → ω → ω
  archive_file_delete : Nat → List Nat → ω → Int × List Nat × ω

/-- The state `save_needed` works on: the world, and the changes staged in the
source archive `sa` (the numbers of the files marked as deleted). -/
structure needed_state (ω : Type) where
  world : ω
  sa_staged : List Nat

/-- `save_needed` (fix_util.c): the value returned, the state afterwards and the
calls made on the archives, in order. -/
def save_needed {ω α : Type} (env : needed_env ω α) (sidx : Nat) (do_save : Bool)
    (s : needed_state ω) : Int × needed_state ω × List needed_call :=
  match env.make_needed_name sidx s.world with
  | none => (-1, { s with world := env.myerror "cannot create needed file name" s.world }, [])
  | some tmp =>
    match env.archive_new tmp do_save s.world with
    | (none, w1) => (-1, { s with world := w1 }, [])
    | (some da, w1) =>
      let c := env.archive_file_copy sidx da w1
      if c.1 < 0 then
        (-1, { s with world := env.archive_free da (env.archive_rollback da c.2) },
          [.archive_file_copy c.1, .archive_rollback, .archive_free])
      else
        let m := env.archive_commit da c.2
        if m.1 < 0 then
          (-1, { s with world := env.archive_free da (env.archive_rollback da m.2) },
            [.archive_file_copy c.1, .archive_commit m.1, .archive_rollback, .archive_free])
        else
          let d := env.archive_file_delete sidx s.sa_staged m.2
          (d.1, { world := d.2.2, sa_staged := d.2.1 },
            [.archive_file_copy c.1, .archive_commit m.1, .archive_file_delete d.1])

/-- The ways `save_needed` can fail before it deletes: the needed name cannot be
made, the needed archive cannot be created, the copy fails or the commit
fails. -/
def save_fails {ω α : Type} (env : needed_env ω α) (sidx : Nat) (do_save : Bool)
    (s : needed_state ω) : Prop :=
  match env.make_needed_name sidx s.world with
  | none => True
  | some tmp =>
    match env.archive_new tmp do_save s.world with
    | (none, _) => True
    | (some da, w1) =>
      (env.archive_file_copy sidx da w1).1 < 0
        ∨ (env.archive_commit da (env.archive_file_copy sidx da w1).2).1 < 0

/-- A sample of what `save_needed` calls: the world is the list of the archives
written, the needed name is `needed/0001-000.zip`, the copy returns `copy`, the
commit returns `commit` and writes the archive when it succeeds, and
`archive_file_delete` marks the file and returns 0. -/
def sample_needed_env (copy commit : Int) : needed_env (List String) String where
  make_needed_name := fun _ _ => some "needed/0001-000.zip"
  myerror := fun _ w => w
  archive_new := fun n _ w => (some n, w)
  archive_file_copy := fun _ _ w => (copy, w)
  archive_commit := fun da w => (commit, if commit < 0 then w else da :: w)
  archive_rollback := fun _ w => w
  archive_free := fun _ w => w
  archive_file_delete := fun i st w => (0, i :: st, w)

/-! ## util2.c: `my_zip_rename` -/

/-- Modelled from the spec: the errors of libzip that `my_zip_rename` tells
apart (zip.h is not among the sources): `ZIP_ER_EXISTS` and every other one. -/
inductive zip_rename_error where
  | ZIP_ER_EXISTS
  | ZIP_ER_OTHER
  deriving DecidableEq, Repr

/-- Modelled from the spec: `zip_name_locate(za, name, 0)` on an archive given by
the names of its entries: the index of the first entry called `name`, nothing
for -1. -/
def zip_name_locate : List String → String → Option Nat
  | [], _ => none
  | n :: rest, name => if n = name then some 0 else (zip_name_locate rest name).map (· + 1)

/-- Modelled from the spec: `zip_rename(za, idx, name)` of libzip on an archive
given by the names of its entries: the error set, or nothing when 0 is
returned, and the archive afterwards. The call fails with `ZIP_ER_EXISTS` when
another entry is called `name`, does nothing when the entry is called `name`
already, fails with another error for an index out of range and where `refuses`
says so (no memory, an archive that cannot be changed), and sets the name
otherwise. -/
def zip_rename (refuses : Nat → String → Bool) (za : List String) (idx : Nat) (name : String) :
    Option zip_rename_error × List String :=
  if za.length ≤ idx then (some .ZIP_ER_OTHER, za)
  else
    match zip_name_locate za name with
    | some i => if i ≠ idx then (some .ZIP_ER_EXISTS, za) else (none, za)
    | none => if refuses idx name then (some .ZIP_ER_OTHER, za) else (none, za.set idx name)

/-- `RENAME_STRING` (util2.c), `"%s_renamed_by_ckmame_%d"`, as `sprintf` fills it
in for a number below 10. -/
def RENAME_STRING (name : String) (try_ : Nat) : String :=
  name ++ "_renamed_by_ckmame_" ++ String.singleton (Nat.digitChar try_)

/-- The loop `for (try=0; try<10; try++)` of `my_zip_rename` (util2.c) from
`try_` on, for `n` more rounds: the value returned and the archive. -/
def my_zip_rename_loop (refuses : Nat → String → Bool) (idx idx2 : Nat) (name : String) :
    Nat → Nat → List String → Int × List String
  | 0, _, za => (-1, za)
  | n + 1, try_, za =>
    let name2 := RENAME_STRING name try_
    match zip_rename refuses za idx2 name2 with
    | (none, za1) =>
      match zip_rename refuses za1 idx name with
      | (none, za2) => (0, za2)
      | (some _, za2) => (-1, za2)
    | (some zerr, za1) =>
      if zerr ≠ .ZIP_ER_EXISTS then (-1, za1)
      else my_zip_rename_loop refuses idx idx2 name n (try_ + 1) za1

/-- `my_zip_rename` (util2.c): the value returned and the archive afterwards. -/
def my_zip_rename (refuses : Nat → String → Bool) (za : List String) (idx : Nat)
    (name : String) : Int × List String :=
  match zip_rename refuses za idx name with
  | (none, za1) => (0, za1)
  | (some zerr, za1) =>
    if zerr ≠ .ZIP_ER_EXISTS then (-1, za1)
    else
      match zip_name_locate za1 name with
      | none => (-1, za1)
      | some idx2 => my_zip_rename_loop refuses idx idx2 name 10 0 za1

/-! ## tree.cc: `tree_recheck_games_needing` -/

/-- `MAX_HEADERLEN` (chd.cc). -/
def MAX_HEADERLEN : Nat := 124

/-- `TAG` (chd.cc), the bytes of `MComprHD`. -/
def TAG : List Nat := [77, 67, 111, 109, 112, 114, 72, 68]

/-- `TAG_LEN` (chd.cc). -/
def TAG_LEN : Nat := 8

/-- `TAG_AND_LEN` (chd.cc). -/
def TAG_AND_LEN : Nat := 12

/-- `HEADER_LEN_V5` (chd.cc). -/
def HEADER_LEN_V5 : Nat := 124

/-- `MAKE_TAG` (chd.cc). -/
def MAKE_TAG (a b c d : Nat) : Nat := a * 2 ^ 24 + b * 2 ^ 16 + c * 2 ^ 8 + d

/-- `CHD_CODEC_ZLIB` (chd.cc), `MAKE_TAG('z', 'l', 'i', 'b')`. -/
def CHD_CODEC_ZLIB : Nat := MAKE_TAG 122 108 105 98

/-- `CHD_CODEC_AVHUFF` (chd.cc), `MAKE_TAG('a', 'v', 'h', 'u')`. -/
def CHD_CODEC_AVHUFF : Nat := MAKE_TAG 97 118 104 117

/-- `v4_compressors` (chd.cc), a table of four entries. -/
def v4_compressors : List Nat := [0, CHD_CODEC_ZLIB, CHD_CODEC_ZLIB, CHD_CODEC_AVHUFF]

/-- `GET_UINT32` (chd.cc) with the pointer at offset `p` of the buffer `b`: the
big-endian number of the four bytes there; the pointer is at `p + 4`
afterwards. -/
def GET_UINT32 (b : List Nat) (p : Nat) : Nat :=
  b.getD p 0 * 2 ^ 24 + b.getD (p + 1) 0 * 2 ^ 16 + b.getD (p + 2) 0 * 2 ^ 8 + b.getD (p + 3) 0

/-- `GET_UINT64` (chd.cc) with the pointer at offset `p` of the buffer `b`; the
pointer is at `p + 8` afterwards. -/
def GET_UINT64 (b : List Nat) (p : Nat) : Nat :=
  GET_UINT32 b p * 2 ^ 32 + GET_UINT32 b (p + 4)

/-- The bytes `n` bytes long at offset `p` of the buffer `b`, as `Hashes::set`
copies them. -/
def hash_at (b : List Nat) (p n : Nat) : List Nat := (b.drop p).take n

/-- Modelled from the spec: the data members of class `Chd` that `read_header`
sets (chd.h is not among the sources): `hunk_len`, `total_hunks`, `version`
and `flags` of 32 bits, the lengths and offsets of 64 bits; hashes that are not
set are empty. -/
structure chd_header where
  hdr_length : Nat
  version : Nat
  flags : Nat
  compressors : List Nat
  hunk_len : Nat
  total_hunks : Nat
  total_len : Nat
  meta_offset : Nat
  map_offset : Nat
  md5 : List Nat
  parent_md5 : List Nat
  sha1 : List Nat
  parent_sha1 : List Nat
  raw_sha1 : List Nat
  deriving DecidableEq, Repr

/-- How a call of `read_header` ends: with an exception, with an index `i`
outside the table `v4_compressors`, with a division by zero, or with the header
read. -/
inductive chd_result where
  | exception (message : String)
  | index_out_of_range (i : Nat)
  | division_by_zero
  | returns (h : chd_header)
  deriving DecidableEq, Repr

/-- Modelled from the spec: `CHD_FLAG_HAS_PARENT` (chd.h). -/
def CHD_FLAG_HAS_PARENT : Nat := 1

/-- `Chd::read_header_v5` (chd.cc) on the buffer `header`, with the member
`hdr_length` as `read_header` set it. The third argument `true` of
`parent_hashes.set` is modelled from the spec: a hash of zeroes is not set. -/
def read_header_v5 (header : List Nat) (hdr_length : Nat) : chd_result :=
  let p := TAG_AND_LEN + 4
  if hdr_length < HEADER_LEN_V5 then .exception "unexpected EOF"
  else
    let compressors := (List.range 4).map (fun i => GET_UINT32 header (p + 4 * i))
    let total_len := GET_UINT64 header (p + 16)
    let map_offset := GET_UINT64 header (p + 24)
    let meta_offset := GET_UINT64 header (p + 32)
    let hunk_len := GET_UINT32 header (p + 40)
    if hunk_len = 0 then .division_by_zero
    else
      let total_hunks := ((total_len + hunk_len + 2 ^ 64 - 1) % 2 ^ 64) / hunk_len
      let raw_sha1 := hash_at header (p + 48) 20
      let sha1 := hash_at header (p + 68) 20
      let parent := hash_at header (p + 88) 20
      let parent_sha1 := if parent.all (fun x => x == 0) then [] else parent
      .returns
        { hdr_length := hdr_length, version := 5,
          flags := if parent_sha1 ≠ [] then CHD_FLAG_HAS_PARENT else 0,
          compressors := compressors, hunk_len := hunk_len,
          total_hunks := total_hunks % 2 ^ 32,
          total_len := total_len, meta_offset := meta_offset, map_offset := map_offset,
          md5 := [], parent_md5 := [], sha1 := sha1, parent_sha1 := parent_sha1,
          raw_sha1 := raw_sha1 }

/-- The part of `Chd::read_header` (chd.cc) for the versions below 5, after the
version was read, on the buffer `b`. -/
def read_header_v4 (b : List Nat) (hdr_length version : Nat) : chd_result :=
  let flags := GET_UINT32 b 16
  let i := GET_UINT32 b 20
  match v4_compressors[i]? with
  | none => .index_out_of_range i
  | some c =>
    if version < 3 then
      let hunk_len := GET_UINT32 b 24
      let total_hunks := GET_UINT32 b 28
      let md5 := hash_at b 44 16
      let parent_md5 := hash_at b 60 16
      let hunk_len := if version = 1 then hunk_len * 512 % 2 ^ 32
        else hunk_len * GET_UINT32 b 76 % 2 ^ 32
      .returns
        { hdr_length := hdr_length, version := version, flags := flags, compressors := [c],
          hunk_len := hunk_len, total_hunks := total_hunks,
          total_len := hunk_len * total_hunks % 2 ^ 32, meta_offset := 0,
          map_offset := hdr_length, md5 := md5, parent_md5 := parent_md5, sha1 := [],
          parent_sha1 := [], raw_sha1 := [] }
    else
      let total_hunks := GET_UINT32 b 24
      let total_len := GET_UINT64 b 28
      let meta_offset := GET_UINT64 b 36
      let p := if version = 3 then 76 else 44
      let md5 := if version = 3 then hash_at b 44 16 else []
      let parent_md5 := if version = 3 then hash_at b 60 16 else []
      let hunk_len := GET_UINT32 b p
      let sha1 := hash_at b (p + 4) 20
      let parent_sha1 := hash_at b (p + 24) 20
      let raw_sha1 := if version = 3 then sha1 else hash_at b (p + 44) 20
      .returns
        { hdr_length := hdr_length, version := version, flags := flags, compressors := [c],
          hunk_len := hunk_len, total_hunks := total_hunks, total_len := total_len,
          meta_offset := meta_offset, map_offset := hdr_length, md5 := md5,
          parent_md5 := parent_md5, sha1 := sha1, parent_sha1 := parent_sha1,
          raw_sha1 := raw_sha1 }

/-- `Chd::read_header` (chd.cc) on a file with the bytes `file`; `stack` is what
the buffer `b`, which is not initialised, holds before the call. `fread` of one
item returns 1 when the whole item was read; for an item of size 0 it returns
0. -/
def read_header (stack file : List Nat) : chd_result :=
  if file.length < TAG_AND_LEN then .exception "not a CHD file"
  else
    let b := file.take TAG_AND_LEN ++ (stack.drop TAG_AND_LEN).take (MAX_HEADERLEN - TAG_AND_LEN)
    if b.take TAG_LEN ≠ TAG then .exception "not a CHD file"
    else
      let len := GET_UINT32 b TAG_LEN
      if len < TAG_AND_LEN ∨ len > MAX_HEADERLEN then .exception "not a CHD file"
      else if len - TAG_AND_LEN = 0 ∨ file.length < len then .exception "unexpected EOF"
      else
        let b := file.take len ++ (stack.drop len).take (MAX_HEADERLEN - len)
        let hdr_length := len
        let version := GET_UINT32 b TAG_AND_LEN
        if version > 5 then .exception ("unsupported CHD version " ++ toString version)
        else if version ≥ 5 then read_header_v5 b hdr_length
        else read_header_v4 b hdr_length version

/-- A file of 108 bytes: the tag, the length 108, the version 4, the flags 0,
the number 4 for the compression, and zeroes. -/
def sample_chd_v4 : List Nat :=
  TAG ++ [0, 0, 0, 108] ++ [0, 0, 0, 4] ++ [0, 0, 0, 0] ++ [0, 0, 0, 4] ++ List.replicate 84 0

/-- A file of 124 bytes: the tag, the length 124, the version 5, and zeroes, so
that the number of bytes per hunk is 0. -/
def sample_chd_v5 : List Nat :=
  TAG ++ [0, 0, 0, 124] ++ [0, 0, 0, 5] ++ List.replicate 108 0

/-- A file of 124 bytes: the tag, the length 124, the version 5, 4096 bytes per
hunk, and zeroes otherwise. -/
def sample_chd_v5_good : List Nat :=
  TAG ++ [0, 0, 0, 124] ++ [0, 0, 0, 5] ++ List.replicate 40 0 ++ [0, 0, 16, 0]
    ++ List.replicate 64 0

/-! ## libzip: the extent of an entry -/

/-- The end of an entry as `checkcons` computes it: the length of the comment is
counted with the local header, the name, the extra field and the data. -/
def entry_end (e : zf_entry) : Nat :=
  e.local_offset + e.comp_size + e.fnlen + e.eflen + e.fcomlen + LENTRYSIZE

/-- The highest end of an entry as `checkcons` computes it, from `max` on. -/
def ends_max (es : List zf_entry) (max : Nat) : Nat :=
  es.foldl (fun m e => if entry_end e > m then entry_end e else m) max

/-- The lowest local offset of an entry, from `min` on. -/
def offsets_min (es : List zf_entry) (min : Nat) : Nat :=
  es.foldl (fun m e => if e.local_offset < m then e.local_offset else m) min

/-! ## Theorems: file.cc -/

/-- The test `==` on numbers does not depend on the order of its arguments. -/
theorem beq_comm_nat (m n : Nat) : (m == n) = (n == m) := by
  by_cases h : m = n
  · subst h; rfl
  · have h2 : ¬ n = m := fun e => h e.symm
    simp [h, h2]

/-- The test `!=` on numbers does not depend on the order of its arguments. -/
theorem bne_comm_nat (m n : Nat) : (m != n) = (n != m) := by
  simp only [bne, beq_comm_nat m n]

/-- Without detector data on the other side the detector pass fails. -/
theorem compare_size_crc_one_detector_unset (a b : File)
    (hb : b.size_hashes_are_set true = false) :
    a.compare_size_crc_one b true = false := by
  simp [File.compare_size_crc_one, hb]

/-- Value of the pass without detector. -/
theorem compare_size_crc_one_plain (a b : File) :
    a.compare_size_crc_one b false =
      (!(a.is_size_known false && b.is_size_known false && a.size != b.size)
        && (a.hashes.empty
            || (a.hashes.has_crc && b.hashes.has_crc && a.hashes.crc == b.hashes.crc))) := by
  simp only [File.compare_size_crc_one, File.get_size, File.get_hashes, Hashes.has_type,
    Bool.false_and, Bool.false_eq_true, if_false]
  generalize a.is_size_known false = p1
  generalize b.is_size_known false = p2
  generalize (a.size != b.size) = p3
  generalize a.hashes.empty = p4
  generalize (a.hashes.has_crc && b.hashes.has_crc && a.hashes.crc == b.hashes.crc) = p5
  cases p1 <;> cases p2 <;> cases p3 <;> cases p4 <;> cases p5 <;> rfl

/-- C3, counterexample: `compare_size_crc` is not symmetric. A file without
hashes matches a file with a CRC, but not the other way round; and a file
matches another through the other's detector hashes, but not the other way
round. -/
theorem C3_compare_size_crc_not_symmetric :
    ((plain_file "a" 4096 no_hashes).compare_size_crc (plain_file "b" 4096 (crc_only 1)) = true
      ∧ (plain_file "b" 4096 (crc_only 1)).compare_size_crc (plain_file "a" 4096 no_hashes)
          = false)
    ∧ ((plain_file "a" 4096 (crc_only 1)).compare_size_crc
          ⟨"b", "", 4096, crc_only 2, 4096, crc_only 1⟩ = true
      ∧ (File.mk "b" "" 4096 (crc_only 2) 4096 (crc_only 1)).compare_size_crc
          (plain_file "a" 4096 (crc_only 1)) = false) := by
  decide

/-- C3, amended: for two files that either both carry no hash or both carry some
hash, and neither of which has detector size and hashes set,
`a.compare_size_crc(b)` equals `b.compare_size_crc(a)`. -/
theorem C3_compare_size_crc_symmetric_amended (a b : File)
    (hempty : a.hashes.empty = b.hashes.empty)
    (ha : a.size_hashes_are_set true = false)
    (hb : b.size_hashes_are_set true = false) :
    a.compare_size_crc b = b.compare_size_crc a := by
  unfold File.compare_size_crc
  rw [compare_size_crc_one_detector_unset a b hb, compare_size_crc_one_detector_unset b a ha,
    compare_size_crc_one_plain, compare_size_crc_one_plain, hempty]
  have hs : (a.is_size_known false && b.is_size_known false && a.size != b.size)
      = (b.is_size_known false && a.is_size_known false && b.size != a.size) := by
    rw [Bool.and_comm (a.is_size_known false), bne_comm_nat]
  have hc : (a.hashes.has_crc && b.hashes.has_crc && a.hashes.crc == b.hashes.crc)
      = (b.hashes.has_crc && a.hashes.has_crc && b.hashes.crc == a.hashes.crc) := by
    rw [Bool.and_comm a.hashes.has_crc, beq_comm_nat]
  rw [hs, hc]

/-- C3, amended, at a file with a CRC and a file with the same CRC and a SHA1:
they match, in both directions. -/
theorem C3_compare_size_crc_symmetric_amended_witness :
    (plain_file "a" 4096 (crc_only 1)).compare_size_crc (plain_file "b" 4096 (crc_sha1 1 [7]))
      = (plain_file "b" 4096 (crc_sha1 1 [7])).compare_size_crc (plain_file "a" 4096 (crc_only 1))
    ∧ (plain_file "a" 4096 (crc_only 1)).compare_size_crc (plain_file "b" 4096 (crc_sha1 1 [7]))
      = true :=
  ⟨C3_compare_size_crc_symmetric_amended _ _ (by decide) (by decide) (by decide), by decide⟩

/-- C4, counterexample: two files of the same size, one with an MD5 only and the
other with a SHA1 only, have disjoint hash types and yet do not match. -/
theorem C4_disjoint_types_mismatch :
    sizes_agree (plain_file "a" 4096 (md5_only [1])) (plain_file "b" 4096 (sha1_only [2]))
    ∧ disjoint_types (plain_file "a" 4096 (md5_only [1])) (plain_file "b" 4096 (sha1_only [2]))
    ∧ (plain_file "a" 4096 (md5_only [1])).compare_size_crc (plain_file "b" 4096 (sha1_only [2]))
        = false := by
  refine ⟨Or.inl rfl, ?_, by decide⟩
  intro t
  cases t <;> decide

/-- C4, amended: for two files whose sizes agree (or of which at least one size
is unknown) and whose sets of hash types are disjoint, `a.compare_size_crc(b)`
returns true exactly when `a` carries no hash at all or the pass over the
detector data of `b` matches (`b` has detector size and hashes set, the size of
`a` is unknown or equal to the detector size of `b`, and `a` has the CRC of the
detector hashes of `b`). -/
theorem C4_disjoint_types_amended (a b : File) (hsize : sizes_agree a b)
    (hdisj : disjoint_types a b) :
    a.compare_size_crc b = true ↔
      (a.hashes.empty = true
        ∨ (b.size_hashes_are_set true = true
            ∧ (a.size = SIZE_UNKNOWN ∨ a.size = b.size_detector)
            ∧ a.hashes.has_crc = true ∧ b.hashes_detector.has_crc = true
            ∧ a.hashes.crc = b.hashes_detector.crc)) := by
  have hcrc : ¬ (a.hashes.has_crc = true ∧ b.hashes.has_crc = true) := hdisj .TYPE_CRC
  have hplain : a.compare_size_crc_one b false = a.hashes.empty := by
    rw [compare_size_crc_one_plain]
    have h1 : (a.is_size_known false && b.is_size_known false && a.size != b.size) = false := by
      rcases hsize with h | h | h <;> simp [File.is_size_known, File.get_size, h]
    have h2 : (a.hashes.has_crc && b.hashes.has_crc && a.hashes.crc == b.hashes.crc) = false := by
      cases ha : a.hashes.has_crc <;> cases hb : b.hashes.has_crc <;> simp_all
    rw [h1, h2]; simp
  unfold File.compare_size_crc
  rw [hplain]
  cases he : a.hashes.empty
  · simp only [Bool.false_or, false_or, Bool.false_eq_true]
    unfold File.compare_size_crc_one
    cases hset : b.size_hashes_are_set true
    · simp
    · have hk : b.is_size_known true = true := by
        simp [File.size_hashes_are_set] at hset; exact hset.1
      have hk2 : b.size_detector ≠ SIZE_UNKNOWN := by
        simpa [File.is_size_known, File.get_size] using hk
      by_cases hu : a.size = SIZE_UNKNOWN
      · simp [he, File.is_size_known, File.get_size, File.get_hashes, Hashes.has_type, hu,
          and_assoc]
      · by_cases hsz : a.size = b.size_detector
        · have hk3 : a.size ≠ SIZE_UNKNOWN := hu
          simp [he, File.is_size_known, File.get_size, File.get_hashes, Hashes.has_type,
            hsz, hk2, and_assoc]
        · simp [he, File.is_size_known, File.get_size, File.get_hashes, Hashes.has_type,
            hu, hsz, hk2, and_assoc]
  · simp

/-- C4, amended, at a file without hashes against a file with a SHA1 only. -/
theorem C4_disjoint_types_amended_witness :
    (plain_file "a" 4096 no_hashes).compare_size_crc (plain_file "b" 4096 (sha1_only [2]))
      = true :=
  (C4_disjoint_types_amended (plain_file "a" 4096 no_hashes) (plain_file "b" 4096 (sha1_only [2]))
    (Or.inl rfl) (by intro t; cases t <;> decide)).mpr (Or.inl (by decide))

/-- C5, counterexample: two files with equal sizes and equal CRCs whose SHA1
values differ do match; and two files whose CRCs differ match when the detector
hashes of the second carry the CRC of the first. -/
theorem C5_disagreeing_type_match :
    ((plain_file "a" 4096 (crc_sha1 1 [2])).hashes.has_type .TYPE_SHA1 = true
      ∧ (plain_file "b" 4096 (crc_sha1 1 [3])).hashes.has_type .TYPE_SHA1 = true
      ∧ (plain_file "a" 4096 (crc_sha1 1 [2])).hashes.sha1
          ≠ (plain_file "b" 4096 (crc_sha1 1 [3])).hashes.sha1
      ∧ (plain_file "a" 4096 (crc_sha1 1 [2])).compare_size_crc
          (plain_file "b" 4096 (crc_sha1 1 [3])) = true)
    ∧ ((plain_file "a" 4096 (crc_only 1)).hashes.has_type .TYPE_CRC = true
      ∧ (File.mk "b" "" 4096 (crc_only 2) 4096 (crc_only 1)).hashes.has_type .TYPE_CRC = true
      ∧ (plain_file "a" 4096 (crc_only 1)).hashes.crc
          ≠ (File.mk "b" "" 4096 (crc_only 2) 4096 (crc_only 1)).hashes.crc
      ∧ (plain_file "a" 4096 (crc_only 1)).compare_size_crc
          ⟨"b", "", 4096, crc_only 2, 4096, crc_only 1⟩ = true) := by
  decide

/-- C5, amended: for two files `a` and `b` that both carry a CRC, with different
values, and where `b` has no detector size and hashes set, `a.compare_size_crc(b)`
returns false, whatever their sizes and other hashes are. -/
theorem C5_disagreeing_crc_amended (a b : File)
    (ha : a.hashes.has_type .TYPE_CRC = true) (_hb : b.hashes.has_type .TYPE_CRC = true)
    (hne : a.hashes.crc ≠ b.hashes.crc)
    (hdet : b.size_hashes_are_set true = false) :
    a.compare_size_crc b = false := by
  unfold File.compare_size_crc
  rw [compare_size_crc_one_detector_unset a b hdet, compare_size_crc_one_plain]
  have he : a.hashes.empty = false := by
    simp only [Hashes.has_type] at ha
    simp [Hashes.empty, ha]
  simp [he, hne]

/-- C5, amended, at two files of equal size and SHA1 whose CRCs differ. -/
theorem C5_disagreeing_crc_amended_witness :
    (plain_file "a" 4096 (crc_sha1 1 [7])).compare_size_crc (plain_file "b" 4096 (crc_sha1 2 [7]))
      = false :=
  C5_disagreeing_crc_amended _ _ (by decide) (by decide) (by decide) (by decide)

/-! ## Theorems: tree.cc -/

/-- `strcmp` is zero exactly for equal names. -/
theorem strcmp_eq_zero (a b : String) : (strcmp a b == 0) = true ↔ a = b := by
  unfold strcmp
  split_ifs with h1 h2
  · constructor
    · intro h; exact absurd h (by decide)
    · intro e; subst e; exact absurd h1 (lt_irrefl _)
  · constructor
    · intro _; exact h2
    · intro _; rfl
  · constructor
    · intro h; exact absurd h (by decide)
    · intro e; exact absurd e h2

/-- `strcmp` is positive exactly when the second name sorts first. -/
theorem strcmp_pos (a b : String) : strcmp a b > 0 ↔ b < a := by
  unfold strcmp
  rw [String.lt_iff_toList_lt]
  split_ifs with h1 h2
  · constructor
    · intro h; exact absurd h (by decide)
    · intro h; exact absurd h (lt_asymm h1)
  · subst h2
    constructor
    · intro h; exact absurd h (by decide)
    · intro h; exact absurd h (lt_irrefl _)
  · constructor
    · intro _
      rcases lt_trichotomy a.toList b.toList with h | h | h
      · exact absurd h h1
      · exact absurd (String.ext h) h2
      · exact h
    · intro _; decide

/-- Insertion in an empty list of siblings. -/
theorem chain_insert_null (n : String) (f : Bool) (k : tree_t → tree_t) :
    chain_insert n f k .null = .node (some n) f false (k .null) .null := rfl

/-- Insertion at a node without a name. -/
theorem chain_insert_none (n : String) (f : Bool) (k : tree_t → tree_t) (ck cd : Bool)
    (ch nx : tree_t) :
    chain_insert n f k (.node none ck cd ch nx) = .node none ck cd ch nx := rfl

/-- Insertion at a node of the same name. -/
theorem chain_insert_eq (n : String) (f : Bool) (k : tree_t → tree_t) (ck cd : Bool)
    (ch nx : tree_t) :
    chain_insert n f k (.node (some n) ck cd ch nx)
      = .node (some n) (f || ck) cd (k ch) nx := by
  have h : (strcmp n n == 0) = true := (strcmp_eq_zero n n).mpr rfl
  cases f <;> simp [chain_insert, h]

/-- Insertion before a node with a later name. -/
theorem chain_insert_lt (n m : String) (h : n < m) (f : Bool) (k : tree_t → tree_t)
    (ck cd : Bool) (ch nx : tree_t) :
    chain_insert n f k (.node (some m) ck cd ch nx)
      = .node (some n) f false (k .null) (.node (some m) ck cd ch nx) := by
  have h1 : ¬ (strcmp m n == 0) = true := by
    rw [strcmp_eq_zero]; intro e; subst e; exact lt_irrefl _ h
  have h2 : strcmp m n > 0 := (strcmp_pos m n).mpr h
  simp only [chain_insert]
  rw [if_neg h1, if_pos h2]

/-- Insertion after a node with an earlier name. -/
theorem chain_insert_gt (n m : String) (h : m < n) (f : Bool) (k : tree_t → tree_t)
    (ck cd : Bool) (ch nx : tree_t) :
    chain_insert n f k (.node (some m) ck cd ch nx)
      = .node (some m) ck cd ch (chain_insert n f k nx) := by
  have h1 : ¬ (strcmp m n == 0) = true := by
    rw [strcmp_eq_zero]; intro e; subst e; exact lt_irrefl _ h
  have h2 : ¬ strcmp m n > 0 := by
    rw [strcmp_pos]; exact lt_asymm h
  simp only [chain_insert]
  rw [if_neg h1, if_neg h2]

/-- Two insertions in a list of siblings can be swapped when what they do to
the children can be swapped. -/
theorem chain_insert_comm (n1 n2 : String) (f1 f2 : Bool) (k1 k2 : tree_t → tree_t)
    (hk : ∀ x, k1 (k2 x) = k2 (k1 x)) (c : tree_t) :
    chain_insert n1 f1 k1 (chain_insert n2 f2 k2 c)
      = chain_insert n2 f2 k2 (chain_insert n1 f1 k1 c) := by
  induction c with
  | null =>
    rcases lt_trichotomy n1 n2 with h | h | h
    · simp [chain_insert_null, chain_insert_lt _ _ h, chain_insert_gt _ _ h]
    · subst h
      simp [chain_insert_null, chain_insert_eq, hk, Bool.or_comm]
    · simp [chain_insert_null, chain_insert_lt _ _ h, chain_insert_gt _ _ h]
  | node nm ck cd ch nx _ ihn =>
    cases nm with
    | none => simp [chain_insert_none]
    | some m =>
      rcases lt_trichotomy n1 m with h1 | h1 | h1 <;>
        rcases lt_trichotomy n2 m with h2 | h2 | h2 <;>
        rcases lt_trichotomy n1 n2 with h | h | h
      all_goals try subst_vars
      all_goals first
        | (simp [chain_insert_lt, chain_insert_gt, chain_insert_eq, hk, Bool.or_comm,
            Bool.or_left_comm, *]; done)
        | exact absurd h (lt_asymm h1)
        | exact absurd h (lt_asymm h2)
        | exact absurd (lt_trans (lt_trans h1 h2) h) (lt_irrefl _)
        | exact absurd (lt_trans (lt_trans h2 h1) h) (lt_irrefl _)

/-- Two insertions of paths can be swapped. -/
theorem path_insert_comm (p q : List (String × Bool)) (c : tree_t) :
    path_insert p (path_insert q c) = path_insert q (path_insert p c) := by
  induction p generalizing q c with
  | nil => rfl
  | cons a r ih =>
    obtain ⟨n1, f1⟩ := a
    cases q with
    | nil => rfl
    | cons b r2 =>
      obtain ⟨n2, f2⟩ := b
      exact chain_insert_comm n1 n2 f1 f2 (path_insert r) (path_insert r2) (fun x => ih r2 x) c

/-- What `tree_add` does to the children for one name can be swapped with what
it does for another. -/
theorem add_path_comm (db : romdb) (a b : String) (c : tree_t) :
    add_path db a (add_path db b c) = add_path db b (add_path db a c) := by
  unfold add_path
  cases db a <;> cases db b <;> simp [path_insert_comm]

/-- Insertion in a list of named nodes yields named nodes. -/
theorem named_chain_insert (n : String) (f : Bool) (k : tree_t → tree_t)
    (hk : ∀ x, named x → named (k x)) (c : tree_t) (hc : named c) :
    named (chain_insert n f k c) := by
  induction c with
  | null => exact ⟨rfl, hk _ trivial, trivial⟩
  | node nm ck cd ch nx _ ihn =>
    obtain ⟨h1, h2, h3⟩ := hc
    cases nm with
    | none => exact absurd h1 (by simp)
    | some m =>
      rcases lt_trichotomy n m with h | h | h
      · rw [chain_insert_lt _ _ h]
        exact ⟨rfl, hk _ trivial, rfl, h2, h3⟩
      · subst h
        rw [chain_insert_eq]
        exact ⟨rfl, hk _ h2, h3⟩
      · rw [chain_insert_gt _ _ h]
        exact ⟨rfl, h2, ihn h3⟩

/-- Insertion of a path in a list of named nodes yields named nodes. -/
theorem named_path_insert (p : List (String × Bool)) (c : tree_t) (hc : named c) :
    named (path_insert p c) := by
  induction p generalizing c with
  | nil => exact hc
  | cons a r ih =>
    obtain ⟨n, f⟩ := a
    exact named_chain_insert n f (path_insert r) (fun x hx => ih x hx) c hc

/-- The nodes stay named under `add_path`. -/
theorem named_add_path (db : romdb) (name : String) (c : tree_t) (hc : named c) :
    named (add_path db name c) := by
  unfold add_path
  cases db name with
  | none => exact hc
  | some g => exact named_path_insert _ c hc

/-- The loop of `tree_add_node`, started at a node whose name sorts before
`name`, is the insertion in the list of siblings. -/
theorem tree_add_node_loop_eq (name : String) (check : Bool) (K : tree_t → Option tree_t)
    (k : tree_t → tree_t)
    (hK : ∀ nm ck cd ch nx, named ch →
      K (.node nm ck cd ch nx) = some (.node nm ck cd (k ch) nx))
    (nx : tree_t) (hnx : named nx) (m : String) (hm : m < name) (ck cd : Bool) (ch : tree_t) :
    tree_add_node_loop name check K (.node (some m) ck cd ch nx)
      = some (chain_insert name check k (.node (some m) ck cd ch nx)) := by
  induction nx generalizing m ck cd ch with
  | null =>
    rw [chain_insert_gt _ _ hm, chain_insert_null]
    simp [tree_add_node_loop, tree_new_full, hK _ _ _ _ _ (show named .null from trivial)]
  | node nnm nck ncd nch nnx _ ihn =>
    obtain ⟨h1, h2, h3⟩ := hnx
    cases nnm with
    | none => exact absurd h1 (by simp)
    | some n =>
      rw [chain_insert_gt _ _ hm]
      rcases lt_trichotomy name n with h | h | h
      · have e1 : ¬ (strcmp n name == 0) = true := by
          rw [strcmp_eq_zero]; intro e; subst e; exact lt_irrefl _ h
        have e2 : strcmp n name > 0 := (strcmp_pos n name).mpr h
        rw [chain_insert_lt _ _ h]
        simp only [tree_add_node_loop]
        rw [if_neg e1, if_pos e2, hK _ _ _ _ _ (show named .null from trivial)]
        rfl
      · subst h
        have e1 : (strcmp name name == 0) = true := (strcmp_eq_zero _ _).mpr rfl
        rw [chain_insert_eq]
        simp only [tree_add_node_loop]
        rw [if_pos e1, hK _ _ _ _ _ h2]
        cases check <;> rfl
      · have e1 : ¬ (strcmp n name == 0) = true := by
          rw [strcmp_eq_zero]; intro e; subst e; exact lt_irrefl _ h
        have e2 : ¬ strcmp n name > 0 := by
          rw [strcmp_pos]; exact lt_asymm h
        simp only [tree_add_node_loop]
        rw [if_neg e1, if_neg e2, ihn h3 n h]
        rfl

/-- `tree_add_node` on a node whose children are named is the insertion in the
list of its children. -/
theorem tree_add_node_eq (name : String) (check : Bool) (K : tree_t → Option tree_t)
    (k : tree_t → tree_t)
    (hK : ∀ nm ck cd ch nx, named ch →
      K (.node nm ck cd ch nx) = some (.node nm ck cd (k ch) nx))
    (nm : Option String) (ck cd : Bool) (ch nx : tree_t) (hch : named ch) :
    tree_add_node (.node nm ck cd ch nx) name check K
      = some (.node nm ck cd (chain_insert name check k ch) nx) := by
  cases ch with
  | null =>
    rw [chain_insert_null]
    simp [tree_add_node, tree_new_full, hK _ _ _ _ _ (show named .null from trivial)]
  | node cnm cck ccd cch cnx =>
    obtain ⟨h1, h2, h3⟩ := hch
    cases cnm with
    | none => exact absurd h1 (by simp)
    | some n =>
      rcases lt_trichotomy name n with h | h | h
      · have e1 : ¬ (strcmp n name == 0) = true := by
          rw [strcmp_eq_zero]; intro e; subst e; exact lt_irrefl _ h
        have e2 : strcmp n name > 0 := (strcmp_pos n name).mpr h
        rw [chain_insert_lt _ _ h]
        simp only [tree_add_node]
        rw [if_neg e1, if_pos e2, hK _ _ _ _ _ (show named .null from trivial)]
        rfl
      · subst h
        have e1 : (strcmp name name == 0) = true := (strcmp_eq_zero _ _).mpr rfl
        rw [chain_insert_eq]
        simp only [tree_add_node]
        rw [if_pos e1, hK _ _ _ _ _ h2]
        cases check <;> rfl
      · have e1 : ¬ (strcmp n name == 0) = true := by
          rw [strcmp_eq_zero]; intro e; subst e; exact lt_irrefl _ h
        have e2 : ¬ strcmp n name > 0 := by
          rw [strcmp_pos]; exact lt_asymm h
        simp only [tree_add_node]
        rw [if_neg e1, if_neg e2, tree_add_node_loop_eq name check K k hK cnx h3 n h]
        rfl

/-- `tree_add` on a node whose children are named: it returns 0 for a known name
and -1 for an unknown one, and it changes the children as `add_path` says. -/
theorem tree_add_eq (db : romdb) (name : String) (nm : Option String) (ck cd : Bool)
    (ch nx : tree_t) (hch : named ch) :
    tree_add db (.node nm ck cd ch nx) name
      = some (.node nm ck cd (add_path db name ch) nx, if (db name).isSome then 0 else -1) := by
  unfold tree_add add_path
  cases hdb : db name with
  | none => rfl
  | some game =>
    have h3 : ∀ nm ck cd ch nx, named ch →
        tree_add_node (.node nm ck cd ch nx) name true some
          = some (.node nm ck cd (chain_insert name true id ch) nx) := by
      intro nm ck cd ch nx h
      exact tree_add_node_eq name true some id (fun _ _ _ _ _ _ => rfl) nm ck cd ch nx h
    have h2 : ∀ nm ck cd ch nx, named ch →
        tree_add_node (.node nm ck cd ch nx) game.cloneof0 false
            (fun t => tree_add_node t name true some)
          = some (.node nm ck cd
              (chain_insert game.cloneof0 false (chain_insert name true id) ch) nx) := by
      intro nm ck cd ch nx h
      exact tree_add_node_eq game.cloneof0 false (fun t => tree_add_node t name true some) _
        h3 nm ck cd ch nx h
    by_cases c1 : game.cloneof1 = "" <;> by_cases c0 : game.cloneof0 = ""
    · simp only [c1, c0, ne_eq, not_true_eq_false, if_false, game_path, List.nil_append]
      rw [h3 _ _ _ _ _ hch]
      rfl
    · simp only [c1, c0, ne_eq, not_true_eq_false, not_false_eq_true, if_false, if_true,
        game_path, List.nil_append]
      rw [h2 _ _ _ _ _ hch]
      rfl
    · simp only [c1, c0, ne_eq, not_true_eq_false, not_false_eq_true, if_true, if_false,
        game_path, List.append_nil]
      rw [tree_add_node_eq game.cloneof1 false (fun t => tree_add_node t name true some)
        (chain_insert name true id) h3 nm ck cd ch nx hch]
      rfl
    · simp only [c1, c0, ne_eq, not_false_eq_true, if_true, game_path]
      rw [tree_add_node_eq game.cloneof1 false
        (fun t => tree_add_node t game.cloneof0 false (fun t => tree_add_node t name true some))
        (chain_insert game.cloneof0 false (chain_insert name true id)) h2 nm ck cd ch nx hch]
      rfl

/-- `tree_add` for the names of a list, on a node whose children are named. -/
theorem tree_add_list_eq (db : romdb) (l : List String) (nm : Option String) (ck cd : Bool)
    (ch nx : tree_t) (hch : named ch) :
    tree_add_list db l (.node nm ck cd ch nx)
      = some (.node nm ck cd (l.foldl (fun c n => add_path db n c) ch) nx) := by
  induction l generalizing ch with
  | nil => rfl
  | cons a r ih =>
    simp only [tree_add_list, tree_add_eq db a nm ck cd ch nx hch, List.foldl_cons]
    exact ih _ (named_add_path db a ch hch)

/-- C6: for a fixed catalog and two lists of names that are permutations of each
other, applying `tree_add` to each name of the list in turn, starting from the
empty tree `tree_new`, succeeds and yields the same tree: the same nodes under the
same parents, every list of children in the same order, the same flags. -/
theorem C6_tree_add_order_independent (db : romdb) (l1 l2 : List String)
    (hperm : l1.Perm l2) :
    (∃ t, tree_add_list db l1 tree_new = some t)
      ∧ tree_add_list db l1 tree_new = tree_add_list db l2 tree_new := by
  unfold tree_new
  rw [tree_add_list_eq db l1 none false false .null .null trivial,
    tree_add_list_eq db l2 none false false .null .null trivial]
  refine ⟨⟨_, rfl⟩, ?_⟩
  rw [hperm.foldl_eq' (fun x _ y _ z => add_path_comm db y x z) .null]

/-- C6 at the lists `mspacmab, puckman, pacman` and `pacman, mspacmab, puckman`. -/
theorem C6_tree_add_order_independent_witness :
    (∃ t, tree_add_list sample_db ["mspacmab", "puckman", "pacman"] tree_new = some t)
      ∧ tree_add_list sample_db ["mspacmab", "puckman", "pacman"] tree_new
        = tree_add_list sample_db ["pacman", "mspacmab", "puckman"] tree_new :=
  C6_tree_add_order_independent sample_db _ _ (by decide)

/-- In a sorted list of siblings the nodes are named. -/
theorem named_of_sorted (c : tree_t) (h : sorted c) : named c := by
  induction c with
  | null => trivial
  | node nm ck cd ch nx ihc ihn =>
    obtain ⟨⟨n, hn, _⟩, h2, h3⟩ := h
    exact ⟨by simp [hn], ihc h2, ihn h3⟩

/-- A name before the head of a sorted list of siblings is not in the list. -/
theorem chain_find_none_of_lt_head (n : String) (c : tree_t) (hs : sorted c)
    (hl : lt_head n c) : chain_find n c = none := by
  induction c generalizing n with
  | null => rfl
  | node nm ck cd ch nx _ ihn =>
    obtain ⟨m, hm, hlt⟩ := hl
    obtain ⟨⟨m', hm', hl'⟩, _, h3⟩ := hs
    rw [hm] at hm'
    cases hm'
    have hne : ¬ (nm = some n) := by
      rw [hm]; intro e; cases e; exact lt_irrefl _ hlt
    simp only [chain_find, if_neg hne]
    apply ihn n h3
    cases nx with
    | null => trivial
    | node nm2 _ _ _ _ =>
      obtain ⟨m2, hm2, hlt2⟩ := hl'
      exact ⟨m2, hm2, lt_trans hlt hlt2⟩

/-- A node found in a list of siblings carries the name looked for, stands
alone, and has sorted children when the list is sorted. -/
theorem chain_find_some (n : String) (c C : tree_t) (h : chain_find n c = some C) :
    ∃ ck cd ch, C = .node (some n) ck cd ch .null ∧ (sorted c → sorted ch) := by
  induction c with
  | null => simp [chain_find] at h
  | node nm ck cd ch nx _ ihn =>
    by_cases e : nm = some n
    · simp only [chain_find, if_pos e, Option.some.injEq] at h
      subst h
      exact ⟨ck, cd, ch, by rw [e], fun hs => hs.2.1⟩
    · simp only [chain_find, if_neg e] at h
      obtain ⟨ck', cd', ch', h1, h2⟩ := ihn h
      exact ⟨ck', cd', ch', h1, fun hs => h2 hs.2.2⟩

/-- Looking for another name is not affected by an insertion. -/
theorem chain_find_insert_ne (m n : String) (hne : m ≠ n) (f : Bool) (k : tree_t → tree_t)
    (c : tree_t) : chain_find m (chain_insert n f k c) = chain_find m c := by
  have hne2 : ¬ (some n = some m) := fun e => hne (Option.some.inj e).symm
  induction c with
  | null => simp [chain_insert_null, chain_find, hne2]
  | node nm ck cd ch nx _ ihn =>
    cases nm with
    | none => rfl
    | some m0 =>
      rcases lt_trichotomy n m0 with h | h | h
      · rw [chain_insert_lt _ _ h]
        simp only [chain_find, if_neg hne2]
      · subst h
        rw [chain_insert_eq]
        simp only [chain_find, if_neg hne2]
      · rw [chain_insert_gt _ _ h]
        simp only [chain_find, ihn]

/-- Looking for the inserted name in a sorted list of siblings finds the node
the insertion started from, with `check` raised by `f` and with `k` applied to
its children. -/
theorem chain_find_insert_self (n : String) (f : Bool) (k : tree_t → tree_t) (c : tree_t)
    (hs : sorted c) :
    chain_find n (chain_insert n f k c)
      = some (.node (some n) (f || (old_or_new n c).check) (old_or_new n c).checked
          (k (old_or_new n c).child) .null) := by
  induction c with
  | null => simp [chain_insert_null, chain_find, old_or_new, tree_t.check, tree_t.checked,
      tree_t.child]
  | node nm ck cd ch nx _ ihn =>
    obtain ⟨⟨m, hm, hl⟩, h2, h3⟩ := hs
    subst hm
    rcases lt_trichotomy n m with h | h | h
    · have hnone : chain_find n (.node (some m) ck cd ch nx) = none :=
        chain_find_none_of_lt_head n _ ⟨⟨m, rfl, hl⟩, h2, h3⟩ ⟨m, rfl, h⟩
      have ho : old_or_new n (.node (some m) ck cd ch nx)
          = .node (some n) false false .null .null := by
        unfold old_or_new
        rw [hnone]
        rfl
      rw [chain_insert_lt _ _ h, ho]
      simp [chain_find, tree_t.check, tree_t.checked, tree_t.child]
    · subst h
      rw [chain_insert_eq]
      simp [chain_find, old_or_new, tree_t.check, tree_t.checked, tree_t.child]
    · have hne : ¬ (some m = some n) := by
        intro e; cases e; exact lt_irrefl _ h
      rw [chain_insert_gt _ _ h]
      simp only [chain_find, if_neg hne, old_or_new]
      rw [ihn h3]
      rfl

/-- An insertion keeps the names of a list of siblings, in their order. -/
theorem chain_names_sublist_insert (n : String) (f : Bool) (k : tree_t → tree_t) (c : tree_t) :
    (chain_names c).Sublist (chain_names (chain_insert n f k c)) := by
  induction c with
  | null => simp [chain_names]
  | node nm ck cd ch nx _ ihn =>
    cases nm with
    | none => exact List.Sublist.refl _
    | some m =>
      rcases lt_trichotomy n m with h | h | h
      · rw [chain_insert_lt _ _ h]
        exact List.sublist_cons_self _ _
      · subst h
        rw [chain_insert_eq]
        exact List.Sublist.refl _
      · rw [chain_insert_gt _ _ h]
        exact List.Sublist.cons₂ _ ihn

/-- The insertion of a path keeps the names of a list of siblings, in their
order. -/
theorem chain_names_sublist_path_insert (p : List (String × Bool)) (c : tree_t) :
    (chain_names c).Sublist (chain_names (path_insert p c)) := by
  cases p with
  | nil => exact List.Sublist.refl _
  | cons a r => exact chain_names_sublist_insert a.1 a.2 (path_insert r) c

/-- Every node found along a path before the insertion of a path `p` is found
along the same path afterwards, with the same name and `checked`, with `check`
raised as `path_flag` says, and with its children kept in their order. -/
theorem tree_find_path_insert (p : List (String × Bool)) (f : Bool) (nm : Option String)
    (ck cd : Bool) (ch nx : tree_t) (hs : sorted ch) (q : List String) (B : tree_t)
    (hB : tree_find (.node nm ck cd ch nx) q = some B) :
    ∃ B', tree_find (.node nm (f || ck) cd (path_insert p ch) nx) q = some B'
      ∧ B'.name = B.name ∧ B'.checked = B.checked
      ∧ B'.check = (path_flag f p q || B.check)
      ∧ (chain_names B.child).Sublist (chain_names B'.child) := by
  induction p generalizing f nm ck cd ch nx q B with
  | nil =>
    cases q with
    | nil =>
      simp only [tree_find, Option.some.injEq] at hB
      subst hB
      exact ⟨_, rfl, rfl, rfl, rfl, List.Sublist.refl _⟩
    | cons m q' =>
      refine ⟨B, ?_, rfl, rfl, by simp [path_flag], List.Sublist.refl _⟩
      simpa [tree_find, tree_t.child, path_insert] using hB
  | cons a r ih =>
    obtain ⟨n, f'⟩ := a
    cases q with
    | nil =>
      simp only [tree_find, Option.some.injEq] at hB
      subst hB
      exact ⟨_, rfl, rfl, rfl, rfl, chain_names_sublist_path_insert _ ch⟩
    | cons m q' =>
      simp only [tree_find, tree_t.child] at hB
      cases hC : chain_find m ch with
      | none => rw [hC] at hB; exact absurd hB (by simp)
      | some C =>
        rw [hC] at hB
        simp only at hB
        obtain ⟨ck', cd', ch', hCeq, hCs⟩ := chain_find_some m ch C hC
        by_cases hmn : m = n
        · subst hmn
          have ho : old_or_new m ch = C := by
            unfold old_or_new; rw [hC]; rfl
          subst hCeq
          obtain ⟨B', h1, h2, h3, h4, h5⟩ := ih f' (some m) ck' cd' ch' .null (hCs hs) q' B hB
          refine ⟨B', ?_, h2, h3, ?_, h5⟩
          · simp only [tree_find, tree_t.child, path_insert]
            rw [chain_find_insert_self m f' (path_insert r) ch hs, ho]
            exact h1
          · rw [h4]; simp [path_flag]
        · refine ⟨B, ?_, rfl, rfl, by simp [path_flag, hmn], List.Sublist.refl _⟩
          simp only [tree_find, tree_t.child, path_insert]
          rw [chain_find_insert_ne m n hmn, hC]
          exact hB

/-- Below a new node nothing is found, and the new node is not to be checked. -/
theorem check_at_new (n : String) (q : List String) :
    check_at (.node (some n) false false .null .null) q = false := by
  cases q with
  | nil => rfl
  | cons m q' => rfl

/-- After the insertion of a path `p`, every start of the path leads to a node;
its `check` is what it was before (false for a node that was not there), raised
as `path_flag` says. -/
theorem tree_find_prefix (p : List (String × Bool)) (f : Bool) (nm : Option String)
    (ck cd : Bool) (ch nx : tree_t) (hs : sorted ch) (q : List String)
    (hq : q <+: p.map Prod.fst) :
    ∃ A, tree_find (.node nm (f || ck) cd (path_insert p ch) nx) q = some A
      ∧ A.check = (path_flag f p q || check_at (.node nm ck cd ch nx) q)
      ∧ A.name = (if q = [] then nm else q.getLast?) := by
  induction p generalizing f nm ck cd ch nx q with
  | nil =>
    have hq' : q = [] := by simpa using hq
    subst hq'
    exact ⟨_, rfl, rfl, rfl⟩
  | cons a r ih =>
    obtain ⟨n, f'⟩ := a
    cases q with
    | nil => exact ⟨_, rfl, rfl, rfl⟩
    | cons m q' =>
      simp only [List.map_cons, List.cons_prefix_cons] at hq
      obtain ⟨hmn, hq'⟩ := hq
      subst hmn
      have hso : sorted (old_or_new m ch).child := by
        unfold old_or_new
        cases hC : chain_find m ch with
        | none => trivial
        | some C =>
          obtain ⟨ck', cd', ch', hCeq, hCs⟩ := chain_find_some m ch C hC
          subst hCeq
          exact hCs hs
      obtain ⟨A, h1, h2, h3⟩ := ih f' (some m) (old_or_new m ch).check (old_or_new m ch).checked
        (old_or_new m ch).child .null hso q' hq'
      refine ⟨A, ?_, ?_, ?_⟩
      · simp only [tree_find, tree_t.child, path_insert]
        rw [chain_find_insert_self m f' (path_insert r) ch hs]
        exact h1
      · rw [h2]
        have hold : check_at (.node (some m) (old_or_new m ch).check (old_or_new m ch).checked
            (old_or_new m ch).child .null) q' = check_at (.node nm ck cd ch nx) (m :: q') := by
          unfold old_or_new
          cases hC : chain_find m ch with
          | none =>
            have e : check_at (.node nm ck cd ch nx) (m :: q') = false := by
              simp [check_at, tree_find, tree_t.child, hC]
            rw [e]
            exact check_at_new m q'
          | some C =>
            obtain ⟨ck', cd', ch', hCeq, _⟩ := chain_find_some m ch C hC
            subst hCeq
            simp [check_at, tree_find, tree_t.child, hC, tree_t.check, tree_t.checked]
        rw [hold]
        simp [path_flag]
      · rw [h3]
        cases q' with
        | nil => simp
        | cons x y => simp [List.getLast?_cons_cons]

/-- An insertion in a sorted list of siblings yields a sorted list. -/
theorem sorted_chain_insert (n : String) (f : Bool) (k : tree_t → tree_t)
    (hk : ∀ x, sorted x → sorted (k x)) (c : tree_t) (hc : sorted c) :
    sorted (chain_insert n f k c)
      ∧ ∀ m, m < n → lt_head m c → lt_head m (chain_insert n f k c) := by
  induction c with
  | null => exact ⟨⟨⟨n, rfl, trivial⟩, hk _ trivial, trivial⟩, fun m hm _ => ⟨n, rfl, hm⟩⟩
  | node nm ck cd ch nx _ ihn =>
    obtain ⟨⟨m0, hm0, hl⟩, h2, h3⟩ := hc
    subst hm0
    rcases lt_trichotomy n m0 with h | h | h
    · rw [chain_insert_lt _ _ h]
      exact ⟨⟨⟨n, rfl, m0, rfl, h⟩, hk _ trivial, ⟨m0, rfl, hl⟩, h2, h3⟩,
        fun m hm _ => ⟨n, rfl, hm⟩⟩
    · subst h
      rw [chain_insert_eq]
      exact ⟨⟨⟨n, rfl, hl⟩, hk _ h2, h3⟩, fun m hm _ => ⟨n, rfl, hm⟩⟩
    · rw [chain_insert_gt _ _ h]
      obtain ⟨i1, i2⟩ := ihn h3
      exact ⟨⟨⟨m0, rfl, i2 m0 h hl⟩, h2, i1⟩, fun m _ hm => hm⟩

/-- The insertion of a path in a sorted list of siblings yields a sorted list. -/
theorem sorted_path_insert (p : List (String × Bool)) (c : tree_t) (hc : sorted c) :
    sorted (path_insert p c) := by
  induction p generalizing c with
  | nil => exact hc
  | cons a r ih => exact (sorted_chain_insert a.1 a.2 (path_insert r) (fun x hx => ih x hx) c hc).1

/-- The children of a node stay sorted under `tree_add`: sortedness, which holds
for `tree_new`, holds for every tree built by `tree_add`. -/
theorem sorted_add_path (db : romdb) (name : String) (c : tree_t) (hc : sorted c) :
    sorted (add_path db name c) := by
  unfold add_path
  cases db name with
  | none => exact hc
  | some g => exact sorted_path_insert _ c hc

/-- A path whose last node alone is to be checked raises `check` at the end of
the path. -/
theorem path_flag_target (p : List (String × Bool)) (hp : ∀ x ∈ p, x.2 = false)
    (name : String) :
    path_flag false (p ++ [(name, true)]) (p.map Prod.fst ++ [name]) = true := by
  induction p with
  | nil => simp [path_flag]
  | cons a r ih =>
    obtain ⟨n, f⟩ := a
    have hf : f = false := hp (n, f) (List.mem_cons_self _ _)
    subst hf
    simp only [List.cons_append, List.map_cons, path_flag, if_true]
    exact ih (fun x hx => hp x (List.mem_cons_of_mem _ hx))

/-- A path whose last node alone is to be checked raises `check` nowhere else. -/
theorem path_flag_other (p : List (String × Bool)) (hp : ∀ x ∈ p, x.2 = false)
    (name : String) (q : List String) (hq : q ≠ p.map Prod.fst ++ [name]) :
    path_flag false (p ++ [(name, true)]) q = false := by
  induction p generalizing q with
  | nil =>
    cases q with
    | nil => rfl
    | cons m q' =>
      cases q' with
      | nil =>
        have hm : m ≠ name := by
          intro e; subst e; exact hq rfl
        simp [path_flag, hm]
      | cons x y => simp [path_flag]
  | cons a r ih =>
    obtain ⟨n, f⟩ := a
    have hf : f = false := hp (n, f) (List.mem_cons_self _ _)
    subst hf
    cases q with
    | nil => rfl
    | cons m q' =>
      by_cases hmn : m = n
      · subst hmn
        simp only [List.cons_append, path_flag, if_true]
        apply ih (fun x hx => hp x (List.mem_cons_of_mem _ hx))
        intro e
        exact hq (by simp [e])
      · simp [path_flag, hmn]

/-- The path of a game is a path whose last node alone is to be checked. -/
theorem game_path_eq (game : Game) (name : String) :
    ∃ p : List (String × Bool), (∀ x ∈ p, x.2 = false)
      ∧ game_path game name = p ++ [(name, true)]
      ∧ game_names game name = p.map Prod.fst ++ [name] := by
  refine ⟨(if game.cloneof1 ≠ "" then [(game.cloneof1, false)] else [])
    ++ (if game.cloneof0 ≠ "" then [(game.cloneof0, false)] else []), ?_, rfl, ?_⟩
  · intro x hx
    rcases List.mem_append.mp hx with h | h
    · split_ifs at h
      · rw [List.mem_singleton.mp h]
      · exact absurd h (List.not_mem_nil _)
    · split_ifs at h
      · rw [List.mem_singleton.mp h]
      · exact absurd h (List.not_mem_nil _)
  · simp [game_names, game_path]

/-- C9: `tree_add` on a tree whose lists of children are sorted by name, as they
are in every tree built from `tree_new` by `tree_add`. For a name the catalog
does not know it returns -1 and leaves the tree as it is. For a known name it
returns 0 and afterwards: the path root, grandparent, parent, name (an absent
ancestor left out) is in the tree and ends in a node called `name` whose `check`
is true; every node before the end of that path has the `check` it had before
the call, false if it was not there; every node that was in the tree is still
found along the same path, with the same name and `checked`, with the same
`check` unless it is the node of `name`, and with its children in the same
order. -/
theorem C9_tree_add_postcondition (db : romdb) (name : String) (nm : Option String)
    (ck cd : Bool) (ch nx : tree_t) (hs : sorted ch) :
    (db name = none →
      tree_add db (.node nm ck cd ch nx) name = some (.node nm ck cd ch nx, -1))
    ∧ (∀ game, db name = some game →
        ∃ t', tree_add db (.node nm ck cd ch nx) name = some (t', 0)
          ∧ (∃ N, tree_find t' (game_names game name) = some N
              ∧ N.name = some name ∧ N.check = true)
          ∧ (∀ q, q <+: game_names game name → q ≠ game_names game name →
              ∃ A, tree_find t' q = some A
                ∧ A.check = check_at (.node nm ck cd ch nx) q)
          ∧ (∀ q B, tree_find (.node nm ck cd ch nx) q = some B →
              ∃ B', tree_find t' q = some B'
                ∧ B'.name = B.name ∧ B'.checked = B.checked
                ∧ (q ≠ game_names game name → B'.check = B.check)
                ∧ (chain_names B.child).Sublist (chain_names B'.child))) := by
  have hn : named ch := named_of_sorted ch hs
  constructor
  · intro hdb
    rw [tree_add_eq db name nm ck cd ch nx hn]
    simp [add_path, hdb]
  · intro game hdb
    obtain ⟨p, hp, hpath, hnames⟩ := game_path_eq game name
    have hadd : add_path db name ch = path_insert (game_path game name) ch := by
      simp [add_path, hdb]
    refine ⟨.node nm ck cd (path_insert (game_path game name) ch) nx, ?_, ?_, ?_, ?_⟩
    · rw [tree_add_eq db name nm ck cd ch nx hn, hadd]
      simp [hdb]
    · obtain ⟨A, h1, h2, h3⟩ := tree_find_prefix (game_path game name) false nm ck cd ch nx hs
        (game_names game name) (List.prefix_refl _)
      simp only [Bool.false_or] at h1
      refine ⟨A, h1, ?_, ?_⟩
      · rw [h3, hnames]; simp
      · rw [h2, hpath, hnames, path_flag_target p hp name]; rfl
    · intro q hq hne
      obtain ⟨A, h1, h2, _⟩ := tree_find_prefix (game_path game name) false nm ck cd ch nx hs
        q hq
      simp only [Bool.false_or] at h1
      refine ⟨A, h1, ?_⟩
      rw [h2, hpath, path_flag_other p hp name q (by rw [← hnames]; exact hne)]
      rfl
    · intro q B hB
      obtain ⟨B', h1, h2, h3, h4, h5⟩ := tree_find_path_insert (game_path game name) false
        nm ck cd ch nx hs q B hB
      simp only [Bool.false_or] at h1
      refine ⟨B', h1, h2, h3, ?_, h5⟩
      intro hne
      rw [h4, hpath, path_flag_other p hp name q (by rw [← hnames]; exact hne)]
      rfl

/-- C9 at the tree built for `pacman` and `puckman`, to which `mspacmab` is
added. -/
theorem C9_tree_add_postcondition_witness :
    ∃ t', tree_add sample_db
        (.node none false false
          (.node (some "pacman") true false .null
            (.node (some "puckman") true false .null .null)) .null) "mspacmab" = some (t', 0)
      ∧ (∃ N, tree_find t' ["pacman", "mspacman", "mspacmab"] = some N
          ∧ N.name = some "mspacmab" ∧ N.check = true) := by
  obtain ⟨t', h1, h2, _⟩ := (C9_tree_add_postcondition sample_db "mspacmab" none false false
    (.node (some "pacman") true false .null (.node (some "puckman") true false .null .null))
    .null
    ⟨⟨"pacman", rfl, "puckman", rfl, by rw [String.lt_iff_toList_lt]; decide⟩, trivial,
      ⟨"puckman", rfl, trivial⟩, trivial, trivial⟩).2
    ⟨"mspacmab", "mspacman", "pacman"⟩ (by decide)
  exact ⟨t', h1, h2⟩

/-! ## Theorems: tree.cc, traversal -/

/-- The array of a node: slot 0, then slots 0 and 1 of the array of the caller;
slot 0 is NULL for a node without a name. -/
theorem node_archives_spec {ω α ι : Type} (env : tree_env ω α ι) (nm : Option String)
    (ck : Bool) (arch : List (Option α)) (w : ω) :
    ∃ x, node_archives env nm ck arch w = [x, arch.getD 0 none, arch.getD 1 none]
      ∧ (nm = none → x = none) := by
  cases nm with
  | none => exact ⟨none, rfl, fun _ => rfl⟩
  | some name =>
    simp only [node_archives]
    split_ifs
    all_goals exact ⟨_, rfl, fun e => by cases e⟩

/-- What one call records, and the array it hands on. -/
theorem visit_node_spec {ω α ι : Type} (env : tree_env ω α ι) (nm : Option String)
    (ck : Bool) (addr : List Nat) (arch : List (Option α)) (img : List ι)
    (s : tree_state ω α) :
    (visit_node env nm ck addr arch img s).2.log
        = s.log ++ [⟨addr, nm, ck, s.checked addr, node_archives env nm ck arch s.world,
            if (nm.isSome && ck && !s.checked addr) = true
              then some (node_archives env nm ck arch s.world) else none, s.world⟩]
      ∧ (visit_node env nm ck addr arch img s).1.1 = node_archives env nm ck arch s.world := by
  cases nm with
  | none => exact ⟨rfl, rfl⟩
  | some name =>
    by_cases h : (ck && !s.checked addr) = true
    · have e : visit_node env (some name) ck addr arch img s
          = ((node_archives env (some name) ck arch s.world,
              node_images env (some name) img s.world),
            { checked := (env.tree_process addr name
                  (node_archives env (some name) ck arch s.world)
                  (node_images env (some name) img s.world) (s.checked, s.world)).1,
              world := (env.tree_process addr name
                  (node_archives env (some name) ck arch s.world)
                  (node_images env (some name) img s.world) (s.checked, s.world)).2,
              log := s.log ++ [⟨addr, some name, ck, s.checked addr,
                node_archives env (some name) ck arch s.world,
                some (node_archives env (some name) ck arch s.world), s.world⟩] }) := by
        simp only [visit_node, h, if_true]
      rw [e, Option.isSome_some, Bool.true_and, h]
      exact ⟨rfl, rfl⟩
    · have e : visit_node env (some name) ck addr arch img s
          = ((node_archives env (some name) ck arch s.world,
              node_images env (some name) img s.world),
            { s with log := s.log ++ [⟨addr, some name, ck, s.checked addr,
                node_archives env (some name) ck arch s.world, none, s.world⟩] }) := by
        simp only [visit_node, h, if_false, Bool.false_eq_true]
      rw [Bool.not_eq_true] at h
      rw [e, Option.isSome_some, Bool.true_and, h]
      exact ⟨rfl, rfl⟩

/-- There is no node below a NULL pointer. -/
theorem node_at_null (r : List Nat) : node_at .null r = .null := by
  induction r with
  | nil => rfl
  | cons i rest ih => simpa [node_at, tree_t.child, chain_nth] using ih

/-- What the loop over the children records. -/
theorem traverse_children_spec {ω α ι : Type} (env : tree_env ω α ι) (c : tree_t) :
    ∀ (p : List Nat) (i : Nat) (arch : List (Option α)) (img : List ι) (s : tree_state ω α),
      ∃ M, (traverse_children env c p i arch img s).log = s.log ++ M ∧ seg_ok c p i arch M := by
  induction c with
  | null =>
    intro p i arch img s
    refine ⟨[], by simp [traverse_children], ?_⟩
    exact
      { order := List.Pairwise.nil
        mem := by
          intro a
          simp [chain_nth, node_at_null]
        node := by intro v hv; cases hv
        flags := by intro v hv; cases hv
        top := by intro v hv; cases hv
        step := by intro u hu; cases hu
        up := by intro v hv; cases hv }
  | node nm ck cd ch nx ihc ihn =>
    intro p i arch img s
    obtain ⟨hlog0, harch⟩ := visit_node_spec env nm ck (p ++ [i]) arch img s
    obtain ⟨x, hx, hxn⟩ := node_archives_spec env nm ck arch s.world
    obtain ⟨M1, hM1, ok1⟩ := ihc (p ++ [i]) 0 (visit_node env nm ck (p ++ [i]) arch img s).1.1
      (visit_node env nm ck (p ++ [i]) arch img s).1.2
      (visit_node env nm ck (p ++ [i]) arch img s).2
    obtain ⟨M2, hM2, ok2⟩ := ihn p (i + 1) arch img
      (traverse_children env ch (p ++ [i]) 0 (visit_node env nm ck (p ++ [i]) arch img s).1.1
        (visit_node env nm ck (p ++ [i]) arch img s).1.2
        (visit_node env nm ck (p ++ [i]) arch img s).2)
    rw [harch] at ok1
    generalize hv0 : (⟨p ++ [i], nm, ck, s.checked (p ++ [i]),
      node_archives env nm ck arch s.world,
      if (nm.isSome && ck && !s.checked (p ++ [i])) = true
        then some (node_archives env nm ck arch s.world) else none, s.world⟩ : visit ω α)
      = v0 at hlog0
    have a0 : v0.addr = p ++ [i] := by rw [← hv0]
    have n0 : v0.name = nm := by rw [← hv0]
    have c0 : v0.check = ck := by rw [← hv0]
    have r0 : v0.archives = [x, arch.getD 0 none, arch.getD 1 none] := by rw [← hv0]; exact hx
    have r1 : node_archives env nm ck arch s.world = v0.archives := by rw [← hv0]
    have f0 : v0.processed = (if (v0.name.isSome && v0.check && !v0.checked) = true
        then some v0.archives else none) := by rw [← hv0]
    rw [r1] at ok1
    have sh1 : ∀ v ∈ M1, ∃ j r, v.addr = p ++ i :: j :: r := by
      intro v hv
      obtain ⟨j, r, h, _⟩ := ok1.node v hv
      exact ⟨j, r, by simp [h]⟩
    have sh2 : ∀ v ∈ M2, ∃ j r, v.addr = p ++ (i + 1 + j) :: r := by
      intro v hv
      obtain ⟨j, r, h, _⟩ := ok2.node v hv
      exact ⟨j, r, h⟩
    refine ⟨v0 :: (M1 ++ M2), ?_, ?_⟩
    · simp only [traverse_children]
      rw [hM2, hM1, hlog0]
      simp
    · exact
        { order := by
            simp only [List.map_cons, List.map_append, List.pairwise_cons, List.mem_append,
              List.pairwise_append, List.mem_map]
            refine ⟨?_, ok1.order, ok2.order, ?_⟩
            · rintro a (⟨v, hv, rfl⟩ | ⟨v, hv, rfl⟩)
              · obtain ⟨j, r, h⟩ := sh1 v hv
                exact Or.inl ⟨j, r, by simp [h, a0]⟩
              · obtain ⟨j, r, h⟩ := sh2 v hv
                exact Or.inr ⟨p, i, i + 1 + j, [], r, by simp [a0], h, by omega⟩
            · rintro a ⟨u, hu, rfl⟩ b ⟨v, hv, rfl⟩
              obtain ⟨j, r, h⟩ := sh1 u hu
              obtain ⟨j', r', h'⟩ := sh2 v hv
              exact Or.inr ⟨p, i, i + 1 + j', j :: r, r', h, h', by omega⟩
          mem := by
            intro a
            simp only [List.map_cons, List.map_append, List.mem_cons, List.mem_append]
            rw [ok1.mem a, ok2.mem a, a0]
            constructor
            · rintro (h | ⟨j, r, h, hn⟩ | ⟨j, r, h, hn⟩)
              · exact ⟨0, [], by simp [h], by simp [chain_nth, node_at]⟩
              · exact ⟨0, j :: r, by simp [h],
                  by simpa [chain_nth, node_at, tree_t.child] using hn⟩
              · exact ⟨j + 1, r, by rw [h]; congr 2; omega,
                  by simpa [chain_nth] using hn⟩
            · rintro ⟨j, r, h, hn⟩
              cases j with
              | zero =>
                cases r with
                | nil => exact Or.inl (by simp [h])
                | cons j' r' =>
                  exact Or.inr (Or.inl ⟨j', r', by simp [h],
                    by simpa [chain_nth, node_at, tree_t.child] using hn⟩)
              | succ j' =>
                exact Or.inr (Or.inr ⟨j', r, by rw [h]; congr 2; omega,
                  by simpa [chain_nth] using hn⟩)
          node := by
            intro v hv
            rcases List.mem_cons.mp hv with h | h
            · subst h
              exact ⟨0, [], by simp [a0], by simp [chain_nth, node_at, tree_t.name, n0],
                by simp [chain_nth, node_at, tree_t.check, c0]⟩
            · rcases List.mem_append.mp h with h | h
              · obtain ⟨j, r, h1, h2, h3⟩ := ok1.node v h
                exact ⟨0, j :: r, by simp [h1],
                  by simpa [chain_nth, node_at, tree_t.child] using h2,
                  by simpa [chain_nth, node_at, tree_t.child] using h3⟩
              · obtain ⟨j, r, h1, h2, h3⟩ := ok2.node v h
                exact ⟨j + 1, r, by rw [h1]; congr 2; omega,
                  by simpa [chain_nth] using h2, by simpa [chain_nth] using h3⟩
          flags := by
            intro v hv
            rcases List.mem_cons.mp hv with h | h
            · subst h
              refine ⟨f0, ?_⟩
              intro hn
              rw [r0]
              exact hxn (by rw [← n0]; exact hn)
            · rcases List.mem_append.mp h with h | h
              · exact ok1.flags v h
              · exact ok2.flags v h
          top := by
            intro v hv j hj
            rcases List.mem_cons.mp hv with h | h
            · subst h
              exact ⟨x, r0⟩
            · rcases List.mem_append.mp h with h | h
              · obtain ⟨j', r, h'⟩ := sh1 v h
                rw [h'] at hj
                simp at hj
              · exact ok2.top v h j hj
          step := by
            intro u hu v hv j hj
            rcases List.mem_cons.mp hu with hu | hu
            · subst hu
              rcases List.mem_cons.mp hv with hv | hv
              · subst hv
                simp at hj
              · rcases List.mem_append.mp hv with hv | hv
                · exact ok1.top v hv j (by rw [hj, a0])
                · obtain ⟨j', r, h'⟩ := sh2 v hv
                  rw [h', a0] at hj
                  simp at hj
                  omega
            · rcases List.mem_append.mp hu with hu | hu
              · obtain ⟨ju, ru, hua⟩ := sh1 u hu
                rcases List.mem_cons.mp hv with hv | hv
                · subst hv
                  rw [a0, hua] at hj
                  simp at hj
                · rcases List.mem_append.mp hv with hv | hv
                  · exact ok1.step u hu v hv j hj
                  · obtain ⟨j', r, h'⟩ := sh2 v hv
                    rw [h', hua] at hj
                    simp at hj
                    omega
              · obtain ⟨ju, ru, hua⟩ := sh2 u hu
                rcases List.mem_cons.mp hv with hv | hv
                · subst hv
                  rw [a0, hua] at hj
                  simp at hj
                · rcases List.mem_append.mp hv with hv | hv
                  · obtain ⟨j', r, h'⟩ := sh1 v hv
                    rw [h', hua] at hj
                    simp at hj
                    omega
                  · exact ok2.step u hu v hv j hj
          up := by
            intro v hv
            rcases List.mem_cons.mp hv with h | h
            · subst h
              exact Or.inl ⟨i, a0⟩
            · rcases List.mem_append.mp h with h | h
              · rcases ok1.up v h with ⟨j, hj⟩ | ⟨u, hu, j, hj⟩
                · exact Or.inr ⟨v0, List.mem_cons_self _ _, j, by rw [hj, a0]⟩
                · exact Or.inr ⟨u, List.mem_cons_of_mem _ (List.mem_append_left _ hu), j, hj⟩
              · rcases ok2.up v h with ⟨j, hj⟩ | ⟨u, hu, j, hj⟩
                · exact Or.inl ⟨j, hj⟩
                · exact Or.inr ⟨u, List.mem_cons_of_mem _ (List.mem_append_right _ hu), j, hj⟩ }

/-- No address comes before itself in pre-order. -/
theorem addr_lt_irrefl (a : List Nat) : ¬ addr_lt a a := by
  rintro (⟨x, r, h⟩ | ⟨p, i, j, r, r', h1, h2, hlt⟩)
  · have := congrArg List.length h
    simp at this
  · rw [h1] at h2
    simp at h2
    omega

/-- C11, counterexample: with fixing enabled and a `fix_game` that returns the
error code -1 for `pacman`, `tree_process` on the node of `pacman`, whose
`checked` is false, returns with that flag set. -/
theorem C11_failed_fix_marks_checked :
    (sample_penv (-1)).FIX_DO = true
      ∧ ((sample_penv (-1)).fix_game ⟨"pacman", "", ""⟩ none (some ()) ()
          (fun _ => false, ())).1 = -1
      ∧ (tree_process (sample_penv (-1)) [0] "pacman" [none, none, none] [(), (), ()]
          (fun _ => false, ())).2.1 [0] = true := by
  decide

/-- C11, amended: for a node whose game is in the catalog, with fixing enabled
(`FIX_DO`): if `fix_game` returns 1, `tree_process` does not touch the flags
`checked`, which are as `fix_game` left them (the flag of the node is still false
when it was false and `fix_game` did not set it); if `fix_game` returns any other
value, 0 or a negative error code, the flag of the node is set. With fixing
disabled the flag is set. The flags of the other nodes are as `fix_game` left
them in every case. -/
theorem C11_tree_process_checked_amended {ω α ι ρ : Type} (penv : process_env ω α ι ρ)
    (addr : List Nat) (name : String) (archives : List (Option α)) (images : List ι)
    (s : (List Nat → Bool) × ω) (game : Game) (hdb : penv.db name = some game) :
    (penv.FIX_DO = true →
        (penv.fix_game game (archives.headD none) images.head?
            (penv.checks game archives images s.2).1
            (s.1, (penv.checks game archives images s.2).2)).1 = 1 →
        (tree_process penv addr name archives images s).2.1
          = (penv.fix_game game (archives.headD none) images.head?
              (penv.checks game archives images s.2).1
              (s.1, (penv.checks game archives images s.2).2)).2.2.1)
      ∧ (penv.FIX_DO = true →
        (penv.fix_game game (archives.headD none) images.head?
            (penv.checks game archives images s.2).1
            (s.1, (penv.checks game archives images s.2).2)).1 ≠ 1 →
        (tree_process penv addr name archives images s).2.1 addr = true
          ∧ ∀ b, b ≠ addr → (tree_process penv addr name archives images s).2.1 b
              = (penv.fix_game game (archives.headD none) images.head?
                  (penv.checks game archives images s.2).1
                  (s.1, (penv.checks game archives images s.2).2)).2.2.1 b)
      ∧ (penv.FIX_DO = false →
        (tree_process penv addr name archives images s).2.1 addr = true
          ∧ ∀ b, b ≠ addr → (tree_process penv addr name archives images s).2.1 b = s.1 b) := by
  refine ⟨?_, ?_, ?_⟩
  · intro hfix hret
    simp only [tree_process, hdb, hfix, if_true, hret, ne_eq, not_true_eq_false, if_false]
  · intro hfix hret
    simp only [tree_process, hdb, hfix, if_true, ne_eq, hret, not_false_eq_true]
    exact ⟨by simp, fun b hb => by simp [hb]⟩
  · intro hfix
    simp only [tree_process, hdb, hfix, Bool.false_eq_true, if_false]
    exact ⟨by simp, fun b hb => by simp [hb]⟩

/-- C11, amended, at `pacman` with a `fix_game` that returns 1 and one that
returns -1: the flag stays false in the first case and is set in the second. -/
theorem C11_tree_process_checked_amended_witness :
    (tree_process (sample_penv 1) [0] "pacman" [none, none, none] [(), (), ()]
        (fun _ => false, ())).2.1 [0] = false
      ∧ (tree_process (sample_penv (-1)) [0] "pacman" [none, none, none] [(), (), ()]
        (fun _ => false, ())).2.1 [0] = true :=
  ⟨by
      rw [(C11_tree_process_checked_amended (sample_penv 1) [0] "pacman" [none, none, none]
        [(), (), ()] (fun _ => false, ()) ⟨"pacman", "", ""⟩ (by decide)).1 rfl (by decide)]
      decide,
    ((C11_tree_process_checked_amended (sample_penv (-1)) [0] "pacman" [none, none, none]
      [(), (), ()] (fun _ => false, ()) ⟨"pacman", "", ""⟩ (by decide)).2.1 rfl (by decide)).1⟩

/-- A list of siblings is in the frame of `tree_recheck` with itself. -/
theorem recheck_frame_refl (name : String) (c : tree_t) : recheck_frame name c c := by
  induction c with
  | null => trivial
  | node nm ck cd ch nx ihc ihn => exact ⟨rfl, rfl, fun _ => rfl, Or.inl rfl, ihc, ihn⟩

/-- What the loop of `tree_recheck` does to a list of siblings whose nodes, here
and below, have names. -/
theorem tree_recheck_loop_spec (name : String) (c : tree_t) (hc : named c) :
    ∃ c' r, tree_recheck_loop name c = some (c', r)
      ∧ recheck_frame name c c'
      ∧ (nodes_any (called name) c = true → nodes_any (called_unchecked name) c' = true)
      ∧ (nodes_any (called name) c = false → c' = c ∧ r = false)
      ∧ (r = true → nodes_any (called_check name) c = true) := by
  induction c with
  | null =>
    exact ⟨.null, false, rfl, trivial, by simp [nodes_any], fun _ => ⟨rfl, rfl⟩, by simp⟩
  | node nm ck cd ch nx ihc ihn =>
    obtain ⟨h1, h2, h3⟩ := hc
    obtain ⟨n, rfl⟩ := Option.isSome_iff_exists.mp h1
    by_cases e : (strcmp n name == 0) = true
    · have en : n = name := (strcmp_eq_zero n name).mp e
      subst en
      refine ⟨.node (some n) ck false ch nx, ck, ?_, ?_, ?_, ?_, ?_⟩
      · simp only [tree_recheck_loop, e, if_true]
      · exact ⟨rfl, rfl, fun h => absurd rfl h, Or.inr rfl, recheck_frame_refl _ _,
          recheck_frame_refl _ _⟩
      · intro _; simp [nodes_any, called_unchecked]
      · intro h; simp [nodes_any, called] at h
      · intro h; simp [nodes_any, called_check, h]
    · have en : n ≠ name := fun h => e ((strcmp_eq_zero n name).mpr h)
      have en2 : ¬ (some n = some name) := fun h => en (Option.some.inj h)
      obtain ⟨ch', r1, e1, f1, a1, b1, c1⟩ := ihc h2
      cases r1 with
      | true =>
        have hany : nodes_any (called name) ch = true := by
          cases hx : nodes_any (called name) ch with
          | true => rfl
          | false => exact absurd (b1 hx).2 (by simp)
        refine ⟨.node (some n) ck cd ch' nx, true, ?_, ?_, ?_, ?_, ?_⟩
        · simp only [tree_recheck_loop, e, e1, if_true, if_false, Bool.false_eq_true]
        · exact ⟨rfl, rfl, fun _ => rfl, Or.inl rfl, f1, recheck_frame_refl _ _⟩
        · intro _; simp [nodes_any, a1 hany]
        · intro h; simp [nodes_any, hany] at h
        · intro _; simp [nodes_any, c1 rfl]
      | false =>
        obtain ⟨nx', r2, e2, f2, a2, b2, c2⟩ := ihn h3
        refine ⟨.node (some n) ck cd ch' nx', r2, ?_, ?_, ?_, ?_, ?_⟩
        · simp only [tree_recheck_loop, e, e1, e2, if_false, Bool.false_eq_true]
        · exact ⟨rfl, rfl, fun _ => rfl, Or.inl rfl, f1, f2⟩
        · intro h
          simp only [nodes_any, called, en2, decide_False, Bool.false_or, Bool.or_eq_true] at h
          rcases h with h | h
          · simp [nodes_any, a1 h]
          · simp [nodes_any, a2 h]
        · intro h
          simp only [nodes_any, called, en2, decide_False, Bool.false_or,
            Bool.or_eq_false_iff] at h
          obtain ⟨q1, q2⟩ := b1 h.1
          obtain ⟨q3, q4⟩ := b2 h.2
          subst q1; subst q3
          exact ⟨rfl, q4⟩
        · intro h; simp [nodes_any, c2 h]

/-- C12: `tree_recheck(tree, name)` on a tree whose nodes below the top node have
names; the nodes of the tree are the nodes below the top node, the root, which has
no name and is not looked at. The call returns; afterwards every node is where it
was with its name, its `check`, its children and its siblings; a node that is not
called `name` has the `checked` it had, and a `checked` that changed was cleared.
If a node is called `name`, then a node called `name` has `checked` false
afterwards. If no node is called `name`, the tree is unchanged and the result is
false. The result is true only if a node called `name` has its `check` set. -/
theorem C12_tree_recheck_frame (name : String) (nm : Option String) (ck cd : Bool)
    (ch nx : tree_t) (hc : named ch) :
    ∃ ch' r, tree_recheck (.node nm ck cd ch nx) name = some (.node nm ck cd ch' nx, r)
      ∧ recheck_frame name ch ch'
      ∧ (nodes_any (called name) ch = true → nodes_any (called_unchecked name) ch' = true)
      ∧ (nodes_any (called name) ch = false → ch' = ch ∧ r = false)
      ∧ (r = true → nodes_any (called_check name) ch = true) := by
  obtain ⟨ch', r, e, h⟩ := tree_recheck_loop_spec name ch hc
  exact ⟨ch', r, by simp [tree_recheck, e], h⟩

/-- C12 at the tree of `pacman` and `puckman`, both checked, and the name
`pacman`: afterwards a node called `pacman` has `checked` false. -/
theorem C12_tree_recheck_frame_witness :
    ∃ ch' r, tree_recheck (.node none false true
          (.node (some "pacman") true true .null
            (.node (some "puckman") true true .null .null)) .null) "pacman"
        = some (.node none false true ch' .null, r)
      ∧ nodes_any (called_unchecked "pacman") ch' = true := by
  obtain ⟨ch', r, e, _, a, _, _⟩ := C12_tree_recheck_frame "pacman" none false true
    (.node (some "pacman") true true .null (.node (some "puckman") true true .null .null))
    .null ⟨rfl, trivial, rfl, trivial, trivial⟩
  exact ⟨ch', r, e, a (by decide)⟩

/-! ## Theorems: tree.cc, a node that is rechecked -/

/-- C13, counterexample: the tree of `pacman` and `puckman`, both to be checked;
the fix of `puckman` calls `tree_recheck(tree, "pacman")`. `tree_traverse` calls
`tree_process` for `pacman` (which sets its `checked`), then for `puckman` (which
clears the `checked` of `pacman`), and returns: there is no second call for
`pacman`, whose `checked` is false at the end. -/
theorem C13_rechecked_not_revisited :
    (tree_traverse sample_env_recheck sample_pair ()).map
        (fun s => (s.log.map (fun v => (v.addr, v.processed.isSome)), s.checked [0]))
      = some ([([], false), ([0], true), ([1], true)], false)
    ∧ (sample_env_recheck.tree_process [0] "pacman" [some "roms/pacman.zip", none, none]
        [(), (), ()] (fun _ => false, ())).1 [0] = true
    ∧ (sample_env_recheck.tree_process [1] "puckman" [some "roms/puckman.zip", none, none]
        [(), (), ()] (fun a => decide (a = [0]), ())).1 [0] = false := by
  decide

/-- The flag `checked` of the node at `a` stays clear through the visit of
another node, when the processing of other nodes does not set it. -/
theorem visit_node_keeps {ω α ι : Type} (env : tree_env ω α ι) (a : List Nat)
    (hother : ∀ b n ar im st, b ≠ a → st.1 a = false →
      (env.tree_process b n ar im st).1 a = false)
    (nm : Option String) (ck : Bool) (addr : List Nat) (arch : List (Option α))
    (img : List ι) (s : tree_state ω α) (hne : addr ≠ a) (hs : s.checked a = false) :
    (visit_node env nm ck addr arch img s).2.checked a = false := by
  cases nm with
  | none => exact hs
  | some name =>
    simp only [visit_node]
    split_ifs
    · exact hother addr name _ _ (s.checked, s.world) hne hs
    · exact hs

/-- Through the loop over the children, the flag `checked` of the node at `a`
stays clear until that node is visited, when the processing of other nodes does
not set it. -/
theorem traverse_children_keeps {ω α ι : Type} (env : tree_env ω α ι) (a : List Nat)
    (hother : ∀ b n ar im st, b ≠ a → st.1 a = false →
      (env.tree_process b n ar im st).1 a = false) (c : tree_t) :
    ∀ (p : List Nat) (i : Nat) (arch : List (Option α)) (img : List ι) (s : tree_state ω α),
      s.checked a = false →
      ∃ M, (traverse_children env c p i arch img s).log = s.log ++ M
        ∧ (((∀ v ∈ M, v.addr ≠ a) ∧ (traverse_children env c p i arch img s).checked a = false)
            ∨ ∃ v ∈ M, v.addr = a ∧ v.checked = false) := by
  induction c with
  | null =>
    intro p i arch img s hs
    exact ⟨[], by simp [traverse_children], Or.inl ⟨by simp, hs⟩⟩
  | node nm ck cd ch nx ihc ihn =>
    intro p i arch img s hs
    obtain ⟨hlog0, _⟩ := visit_node_spec env nm ck (p ++ [i]) arch img s
    generalize hv0 : (⟨p ++ [i], nm, ck, s.checked (p ++ [i]),
      node_archives env nm ck arch s.world,
      if (nm.isSome && ck && !s.checked (p ++ [i])) = true
        then some (node_archives env nm ck arch s.world) else none, s.world⟩ : visit ω α)
      = v0 at hlog0
    have a0 : v0.addr = p ++ [i] := by rw [← hv0]
    have k0 : v0.checked = s.checked (p ++ [i]) := by rw [← hv0]
    by_cases ha : p ++ [i] = a
    · obtain ⟨M1, hM1, _⟩ := traverse_children_spec env ch (p ++ [i]) 0
        (visit_node env nm ck (p ++ [i]) arch img s).1.1
        (visit_node env nm ck (p ++ [i]) arch img s).1.2
        (visit_node env nm ck (p ++ [i]) arch img s).2
      obtain ⟨M2, hM2, _⟩ := traverse_children_spec env nx p (i + 1) arch img
        (traverse_children env ch (p ++ [i]) 0 (visit_node env nm ck (p ++ [i]) arch img s).1.1
          (visit_node env nm ck (p ++ [i]) arch img s).1.2
          (visit_node env nm ck (p ++ [i]) arch img s).2)
      refine ⟨v0 :: (M1 ++ M2), ?_, Or.inr ⟨v0, by simp, by rw [a0, ha], ?_⟩⟩
      · simp only [traverse_children]
        rw [hM2, hM1, hlog0]
        simp
      · rw [k0, ha]; exact hs
    · have hs1 := visit_node_keeps env a hother nm ck (p ++ [i]) arch img s ha hs
      obtain ⟨M1, hM1, h1⟩ := ihc (p ++ [i]) 0
        (visit_node env nm ck (p ++ [i]) arch img s).1.1
        (visit_node env nm ck (p ++ [i]) arch img s).1.2
        (visit_node env nm ck (p ++ [i]) arch img s).2 hs1
      rcases h1 with ⟨hn1, hs2⟩ | ⟨v, hv, hva, hvc⟩
      · obtain ⟨M2, hM2, h2⟩ := ihn p (i + 1) arch img
          (traverse_children env ch (p ++ [i]) 0
            (visit_node env nm ck (p ++ [i]) arch img s).1.1
            (visit_node env nm ck (p ++ [i]) arch img s).1.2
            (visit_node env nm ck (p ++ [i]) arch img s).2) hs2
        refine ⟨v0 :: (M1 ++ M2), ?_, ?_⟩
        · simp only [traverse_children]
          rw [hM2, hM1, hlog0]
          simp
        · rcases h2 with ⟨hn2, hs3⟩ | ⟨v, hv, hva, hvc⟩
          · refine Or.inl ⟨?_, by simpa only [traverse_children] using hs3⟩
            intro v hv
            simp only [List.mem_cons, List.mem_append] at hv
            rcases hv with rfl | hv | hv
            · rw [a0]; exact ha
            · exact hn1 v hv
            · exact hn2 v hv
          · exact Or.inr ⟨v, by simp [hv], hva, hvc⟩
      · obtain ⟨M2, hM2, _⟩ := traverse_children_spec env nx p (i + 1) arch img
          (traverse_children env ch (p ++ [i]) 0
            (visit_node env nm ck (p ++ [i]) arch img s).1.1
            (visit_node env nm ck (p ++ [i]) arch img s).1.2
            (visit_node env nm ck (p ++ [i]) arch img s).2)
        refine ⟨v0 :: (M1 ++ M2), ?_, Or.inr ⟨v, by simp [hv], hva, hvc⟩⟩
        simp only [traverse_children]
        rw [hM2, hM1, hlog0]
        simp

/-- C13, amended: `tree_traverse` visits every node once in a call, whatever the
flags `checked` are at its start and whatever `tree_process` does to them; so a
node whose `checked` is cleared by `tree_recheck` after its visit is not
processed again before the call returns. It is processed by a following call: a
call of `tree_traverse` that starts with `checked` clear at a node `a` that has a
name and is to be checked, and during which the processing of the other nodes
does not set that flag, calls `tree_process` for `a`. -/
theorem C13_recheck_next_traversal {ω α ι : Type} (env : tree_env ω α ι)
    (nm : Option String) (ck cd : Bool) (ch nx : tree_t) (a : List Nat)
    (f : List Nat → Bool) (w : ω)
    (hname : (node_at (.node nm ck cd ch nx) a).name.isSome = true)
    (hcheck : (node_at (.node nm ck cd ch nx) a).check = true)
    (hf : f a = false)
    (hother : ∀ b n ar im st, b ≠ a → st.1 a = false →
      (env.tree_process b n ar im st).1 a = false) :
    (∀ w0, tree_traverse env (.node nm ck cd ch nx) w0
        = tree_traverse_again env (.node nm ck cd ch nx)
            (fun b => (node_at (.node nm ck cd ch nx) b).checked) w0)
      ∧ (∀ f0 w0, ∃ s, tree_traverse_again env (.node nm ck cd ch nx) f0 w0 = some s
          ∧ (s.log.map (fun v => v.addr)).Nodup)
      ∧ ∃ s, tree_traverse_again env (.node nm ck cd ch nx) f w = some s
          ∧ ∃ v ∈ s.log, v.addr = a ∧ v.processed.isSome = true := by
  refine ⟨fun _ => rfl, ?_, ?_⟩
  · intro f0 w0
    generalize hs0 : (tree_state.mk f0 w0 [] : tree_state ω α) = s0
    have hl0 : s0.log = [] := by rw [← hs0]
    obtain ⟨hlog0, _⟩ := visit_node_spec env nm ck [] [none, none, none]
      [env.new_images, env.new_images, env.new_images] s0
    obtain ⟨M1, hM1, ok1⟩ := traverse_children_spec env ch [] 0
      (visit_node env nm ck [] [none, none, none]
        [env.new_images, env.new_images, env.new_images] s0).1.1
      (visit_node env nm ck [] [none, none, none]
        [env.new_images, env.new_images, env.new_images] s0).1.2
      (visit_node env nm ck [] [none, none, none]
        [env.new_images, env.new_images, env.new_images] s0).2
    refine ⟨_, by simp only [tree_traverse_again, tree_traverse_internal, hs0]; rfl, ?_⟩
    rw [hM1, hlog0, hl0]
    simp only [List.nil_append, List.map_append, List.map_cons, List.map_nil,
      List.singleton_append, List.nodup_cons]
    have hnd : List.Pairwise (fun x y : List Nat => x ≠ y) (M1.map (fun v => v.addr)) :=
      ok1.order.imp (fun {x y} h e => by subst e; exact addr_lt_irrefl _ h)
    refine ⟨?_, hnd⟩
    intro hmem
    obtain ⟨v, hv, hva⟩ := List.mem_map.mp hmem
    obtain ⟨j, r, h, _⟩ := ok1.node v hv
    rw [h] at hva
    simp at hva
  · generalize hs0 : (tree_state.mk f w [] : tree_state ω α) = s0
    have hl0 : s0.log = [] := by rw [← hs0]
    have hc0 : s0.checked a = false := by rw [← hs0]; exact hf
    obtain ⟨hlog0, harch⟩ := visit_node_spec env nm ck [] [none, none, none]
      [env.new_images, env.new_images, env.new_images] s0
    obtain ⟨M1, hM1, ok1⟩ := traverse_children_spec env ch [] 0
      (visit_node env nm ck [] [none, none, none]
        [env.new_images, env.new_images, env.new_images] s0).1.1
      (visit_node env nm ck [] [none, none, none]
        [env.new_images, env.new_images, env.new_images] s0).1.2
      (visit_node env nm ck [] [none, none, none]
        [env.new_images, env.new_images, env.new_images] s0).2
    refine ⟨_, by simp only [tree_traverse_again, tree_traverse_internal, hs0]; rfl, ?_⟩
    rw [hM1, hlog0, hl0]
    cases a with
    | nil =>
      simp only [node_at, tree_t.name, tree_t.check] at hname hcheck
      generalize hv0 : (⟨[], nm, ck, s0.checked [],
        node_archives env nm ck [none, none, none] s0.world,
        if (nm.isSome && ck && !s0.checked []) = true
          then some (node_archives env nm ck [none, none, none] s0.world) else none, s0.world⟩
      : visit ω α)
        = v0
      have a0 : v0.addr = [] := by rw [← hv0]
      have p0 : v0.processed.isSome = true := by
        rw [← hv0]
        simp [hname, hcheck, hc0]
      exact ⟨v0, by simp, a0, p0⟩
    | cons j r =>
      have hne : ([] : List Nat) ≠ j :: r := by simp
      have hs1 := visit_node_keeps env (j :: r) hother nm ck [] [none, none, none]
        [env.new_images, env.new_images, env.new_images] s0 hne hc0
      obtain ⟨M, hM, hk⟩ := traverse_children_keeps env (j :: r) hother ch [] 0
        (visit_node env nm ck [] [none, none, none]
          [env.new_images, env.new_images, env.new_images] s0).1.1
        (visit_node env nm ck [] [none, none, none]
          [env.new_images, env.new_images, env.new_images] s0).1.2
        (visit_node env nm ck [] [none, none, none]
          [env.new_images, env.new_images, env.new_images] s0).2 hs1
      have hMM : M = M1 := List.append_cancel_left (hM.symm.trans hM1)
      subst hMM
      have hnode : node_at (chain_nth ch j) r ≠ .null := by
        intro e
        simp only [node_at, tree_t.child] at hname
        rw [e] at hname
        simp [tree_t.name] at hname
      have hin : j :: r ∈ M.map (fun v => v.addr) :=
        (ok1.mem (j :: r)).mpr ⟨j, r, by simp, hnode⟩
      rcases hk with ⟨hno, _⟩ | ⟨v, hv, hva, hvc⟩
      · obtain ⟨v, hv, hva⟩ := List.mem_map.mp hin
        exact absurd hva (hno v hv)
      · refine ⟨v, by simp [hv], hva, ?_⟩
        obtain ⟨j', r', h1, h2, h3⟩ := ok1.node v hv
        rw [hva] at h1
        simp only [List.nil_append, Nat.zero_add, List.cons.injEq] at h1
        obtain ⟨rfl, rfl⟩ := h1
        simp only [node_at, tree_t.child] at hname hcheck
        rw [(ok1.flags v hv).1, h2, h3, hname, hcheck, hvc]
        rfl

/-- C13, amended, at the tree of `pacman` and `puckman` with the flags the first
traversal leaves (`checked` set for `puckman`, cleared for `pacman`): the next
call of `tree_traverse` calls `tree_process` for `pacman`. -/
theorem C13_recheck_next_traversal_witness :
    ∃ s, tree_traverse_again sample_env_recheck sample_pair (fun b => decide (b = [1])) ()
        = some s
      ∧ ∃ v ∈ s.log, v.addr = [0] ∧ v.processed.isSome = true :=
  (C13_recheck_next_traversal sample_env_recheck none false false
    (.node (some "pacman") true false .null (.node (some "puckman") true false .null .null))
    .null [0] (fun b => decide (b = [1])) () (by decide) (by decide) (by decide)
    (by
      intro b n ar im st hb hst
      simp only [sample_env_recheck, tree_process, sample_penv]
      cases hdb : sample_db n with
      | none => exact hst
      | some g =>
        simp only [if_true, ne_eq]
        have hb2 : ¬ ([0] = b) := fun e => hb e.symm
        by_cases hg : g.name = "puckman"
        · simp [hg, hb2, recheck_store, with_checked, store_chain, sample_pair, tree_recheck,
            tree_recheck_loop, strcmp, node_at, chain_nth, tree_t.child, tree_t.checked]
        · simp [hg, hb2, hst])).2.2

/-! ## Theorems: tree.cc, sorted lists of children and repeated insertion -/

/-- The order of the names is the order of `strcmp`. -/
theorem strcmp_neg (a b : String) : strcmp a b < 0 ↔ a < b := by
  rw [String.lt_iff_toList_lt]
  unfold strcmp
  split_ifs with h1 h2
  · exact ⟨fun _ => h1, fun _ => by decide⟩
  · exact ⟨fun h => absurd h (by decide), fun h => absurd h h1⟩
  · exact ⟨fun h => absurd h (by decide), fun h => absurd h h1⟩

/-- In a sorted list of siblings that starts after `n`, every name is after `n`. -/
theorem names_after (n : String) (c : tree_t) (hs : sorted c) (hl : lt_head n c) :
    ∀ x ∈ chain_names c, ∃ m, x = some m ∧ n < m := by
  induction c generalizing n with
  | null => intro x hx; cases hx
  | node nm ck cd ch nx _ ihn =>
    obtain ⟨⟨m0, hm0, hl0⟩, _, h3⟩ := hs
    obtain ⟨m1, hm1, hlt⟩ := hl
    intro x hx
    simp only [chain_names, List.mem_cons] at hx
    rcases hx with rfl | hx
    · exact ⟨m1, hm1, hlt⟩
    · rw [hm0] at hm1
      cases hm1
      obtain ⟨m, hm, hlt2⟩ := ihn m0 h3 hl0 x hx
      exact ⟨m, hm, lt_trans hlt hlt2⟩

/-- A sorted list of siblings has no two nodes of the same name, here and below. -/
theorem distinct_of_sorted (c : tree_t) (hs : sorted c) : distinct_names c := by
  induction c with
  | null => trivial
  | node nm ck cd ch nx ihc ihn =>
    obtain ⟨⟨m0, hm0, hl0⟩, h2, h3⟩ := hs
    refine ⟨?_, ihc h2, ihn h3⟩
    intro hmem
    obtain ⟨m, hm, hlt⟩ := names_after m0 nx h3 hl0 nm hmem
    rw [hm0] at hm
    cases hm
    exact lt_irrefl _ hlt

/-- Sortedness is kept by a sequence of calls of `tree_add`. -/
theorem sorted_foldl_add_path (db : romdb) (l : List String) (c : tree_t) (hc : sorted c) :
    sorted (l.foldl (fun c n => add_path db n c) c) := by
  induction l generalizing c with
  | nil => exact hc
  | cons a r ih => exact ih _ (sorted_add_path db a c hc)

/-- C14: the lists of children are strictly increasing by name, in the order of
`strcmp`, and so without two nodes of the same name, in every tree built from
`tree_new` by a sequence of calls of `tree_add`; and `tree_add_node`, for every
name and both values of `check`, on a node below which the lists of children are
sorted, returns and leaves them sorted. -/
theorem C14_sorted_children (db : romdb) (l : List String) (name : String) (check : Bool)
    (nm : Option String) (ck cd : Bool) (ch nx : tree_t) (hs : sorted ch) :
    (∃ t, tree_add_list db l tree_new = some t ∧ sorted t.child ∧ distinct_names t.child)
      ∧ (∃ ch', tree_add_node (.node nm ck cd ch nx) name check some
            = some (.node nm ck cd ch' nx)
          ∧ sorted ch' ∧ distinct_names ch')
      ∧ ∀ a b : String, a < b ↔ strcmp a b < 0 := by
  refine ⟨?_, ?_, fun a b => (strcmp_neg a b).symm⟩
  · unfold tree_new
    rw [tree_add_list_eq db l none false false .null .null trivial]
    have h := sorted_foldl_add_path db l .null trivial
    exact ⟨_, rfl, h, distinct_of_sorted _ h⟩
  · have h := (sorted_chain_insert name check id (fun x hx => hx) ch hs).1
    refine ⟨chain_insert name check id ch, ?_, h, distinct_of_sorted _ h⟩
    exact tree_add_node_eq name check some id (fun _ _ _ _ _ _ => rfl) nm ck cd ch nx
      (named_of_sorted ch hs)

/-- C14 at the catalog `sample_db`: the tree built for `puckman` and `mspacmab`,
and `tree_add_node` for `pacman` below a node with the children `mspacman` and
`puckman`. -/
theorem C14_sorted_children_witness :
    (∃ t, tree_add_list sample_db ["puckman", "mspacmab"] tree_new = some t
        ∧ sorted t.child ∧ distinct_names t.child)
      ∧ ∃ ch', tree_add_node (.node none false false
            (.node (some "mspacman") false false .null
              (.node (some "puckman") true false .null .null)) .null) "pacman" true some
            = some (.node none false false ch' .null)
          ∧ sorted ch' ∧ distinct_names ch' :=
  ⟨(C14_sorted_children sample_db ["puckman", "mspacmab"] "pacman" true none false false
      (.node (some "mspacman") false false .null (.node (some "puckman") true false .null .null))
      .null
      ⟨⟨"mspacman", rfl, "puckman", rfl, by rw [String.lt_iff_toList_lt]; decide⟩, trivial,
        ⟨"puckman", rfl, trivial⟩, trivial, trivial⟩).1,
    (C14_sorted_children sample_db ["puckman", "mspacmab"] "pacman" true none false false
      (.node (some "mspacman") false false .null (.node (some "puckman") true false .null .null))
      .null
      ⟨⟨"mspacman", rfl, "puckman", rfl, by rw [String.lt_iff_toList_lt]; decide⟩, trivial,
        ⟨"puckman", rfl, trivial⟩, trivial, trivial⟩).2.1⟩

/-- An insertion done twice is the insertion done once. -/
theorem chain_insert_idem (n : String) (f : Bool) (k : tree_t → tree_t)
    (hk : ∀ x, k (k x) = k x) (c : tree_t) :
    chain_insert n f k (chain_insert n f k c) = chain_insert n f k c := by
  have hnn : (strcmp n n == 0) = true := (strcmp_eq_zero n n).mpr rfl
  have hf : (if f = true then true else f) = f := by cases f <;> rfl
  induction c with
  | null =>
    simp only [chain_insert, hnn, if_true, hk, hf]
  | node nm ck cd ch nx _ ihn =>
    cases nm with
    | none => simp only [chain_insert]
    | some m =>
      by_cases h1 : (strcmp m n == 0) = true
      · have e : chain_insert n f k (.node (some m) ck cd ch nx)
            = .node (some m) (if f then true else ck) cd (k ch) nx := by
          simp only [chain_insert, h1, if_true]
        rw [e]
        simp only [chain_insert, h1, if_true, hk]
        cases f <;> rfl
      · by_cases h2 : strcmp m n > 0
        · have e : chain_insert n f k (.node (some m) ck cd ch nx)
              = .node (some n) f false (k .null) (.node (some m) ck cd ch nx) := by
            simp only [chain_insert, h1, h2, if_true, if_false, Bool.false_eq_true]
          rw [e]
          simp only [chain_insert, hnn, if_true, hk, hf]
        · have e : ∀ y, chain_insert n f k (.node (some m) ck cd ch y)
              = .node (some m) ck cd ch (chain_insert n f k y) := by
            intro y
            simp only [chain_insert, h1, h2, if_false, Bool.false_eq_true]
          rw [e, e, ihn]

/-- The insertion of a path done twice is the insertion done once. -/
theorem path_insert_idem (p : List (String × Bool)) (c : tree_t) :
    path_insert p (path_insert p c) = path_insert p c := by
  induction p generalizing c with
  | nil => rfl
  | cons a r ih => exact chain_insert_idem a.1 a.2 (path_insert r) ih c

/-- C15: `tree_add(tree, name)` on a node whose children, here and below, have
names: the call returns, and a second call with the same name returns the same
value and leaves the tree of the first call as it is: the same nodes, the same
order of the children, the same `check` and `checked`. -/
theorem C15_tree_add_idempotent (db : romdb) (name : String) (nm : Option String)
    (ck cd : Bool) (ch nx : tree_t) (hc : named ch) :
    ∃ t r, tree_add db (.node nm ck cd ch nx) name = some (t, r)
      ∧ tree_add db t name = some (t, r) := by
  refine ⟨_, _, tree_add_eq db name nm ck cd ch nx hc, ?_⟩
  rw [tree_add_eq db name nm ck cd _ nx (named_add_path db name ch hc)]
  have h : add_path db name (add_path db name ch) = add_path db name ch := by
    unfold add_path
    cases db name with
    | none => rfl
    | some g => exact path_insert_idem _ ch
  rw [h]

/-- C15 at the tree of `pacman` and `puckman`, to which `mspacmab` is added
twice. -/
theorem C15_tree_add_idempotent_witness :
    ∃ t r, tree_add sample_db sample_pair "mspacmab" = some (t, r)
      ∧ tree_add sample_db t "mspacmab" = some (t, r) :=
  C15_tree_add_idempotent sample_db "mspacmab" none false false
    (.node (some "pacman") true false .null (.node (some "puckman") true false .null .null))
    .null ⟨rfl, trivial, rfl, trivial, trivial⟩

/-! ## Theorems: libzip -/

set_option maxRecDepth 100000

/-- C1, at a failing input: with `FWRITE_MAX_WRITE=2`, `zip_close` on the archive
`old.zip` (files `a` and `b`, `b` deleted) fails to copy the data of `a`
(`zip_entry_copy` returns -1 with `ZERR_WRITE`, which is reported through
`myerror`), and still renames the temporary file over `old.zip`: the file is
not what it was, and the data of `a` are gone. -/
theorem C1_zip_close_replaces_original_after_failure :
    (zip_close { no_faults with max_write := 2 } sample_zf sample_world).2.errors
        = ["zip_entry_copy failed"]
      ∧ (zip_close { no_faults with max_write := 2 } sample_zf sample_world).2.zip_err
        = some .ZERR_WRITE
      ∧ sample_world.fs "old.zip" = some sample_archive
      ∧ (zip_close { no_faults with max_write := 2 } sample_zf sample_world).2.fs "old.zip"
        = some ((sample_local.take 31) ++ sample_central ++ sample_eocd 1 1 47 31)
      ∧ (zip_close { no_faults with max_write := 2 } sample_zf sample_world).2.fs "old.zip"
        ≠ sample_world.fs "old.zip" := by
  decide

/-- Whatever happens while the entries are copied, the directory is written and
the temporary file is closed, `zip_close` returns 0 for an archive with staged
changes once `fdopen` has succeeded and `rename` does not fail. -/
theorem zip_close_returns_zero (flt : faults) (z : zf) (w : zip_world)
    (hch : z.changes = true) (hst : z.entry.all (fun e => e.state = .Z_UNCHANGED) = false)
    (hfd : flt.fdopen_fails = false) (hrn : flt.rename_fails = false) :
    (zip_close flt z w).1 = 0 := by
  unfold zip_close
  simp only [hch, hst, hfd, hrn, Bool.true_eq_false, Bool.false_eq_true, if_false]
  split_ifs <;> rfl

/-- Whatever happens while the entries are copied and the directory is written,
`zip_close` puts what the temporary file holds in the place of the archive once
`fdopen` and `fclose` have succeeded and `rename` does not fail. -/
theorem zip_close_renames (flt : faults) (z : zf) (w : zip_world)
    (hch : z.changes = true) (hst : z.entry.all (fun e => e.state = .Z_UNCHANGED) = false)
    (hfd : flt.fdopen_fails = false) (hfc : flt.fclose_fails = false)
    (hrn : flt.rename_fails = false) :
    (zip_close flt z w).2.fs z.zn
      = some (writecdir flt.max_write
          (close_loop flt.max_write z z.entry 0
            ⟨⟨⟨[], false, flt.room⟩, []⟩, w.count, w.errors, w.zip_err⟩).tzf
          (z.com.take z.comlen) z.comlen
          (close_loop flt.max_write z z.entry 0
            ⟨⟨⟨[], false, flt.room⟩, []⟩, w.count, w.errors, w.zip_err⟩).count).2.2.1.data := by
  unfold zip_close
  simp only [hch, hst, hfd, hfc, hrn, Bool.true_eq_false, Bool.false_eq_true, if_false,
    Bool.not_false, if_true, fs_set]
  have h : temp_name z.zn ≠ z.zn := by
    intro e
    have := congrArg String.length e
    simp only [temp_name, String.length_append] at this
    have h2 : ".XXXXXX".length = 7 := by decide
    omega
  simp [h.symm]

/-- C7, at failing inputs: `zip_close` on the archive `old.zip` (files `a` and
`b`, `b` deleted) returns 0 when `zip_entry_copy` fails (with
`FWRITE_MAX_WRITE=2` it returns -1 for the file `a`); and it returns 0 when
`fclose` fails (the archive is left as it was and the temporary file stays). -/
theorem C7_zip_close_returns_zero_after_failure :
    ((_zip_entry_copy 2 ⟨⟨[], false, none⟩, []⟩ sample_zf.source 0 none 0).1 = -1
      ∧ (zip_close { no_faults with max_write := 2 } sample_zf sample_world).1 = 0)
    ∧ ((zip_close { no_faults with fclose_fails := true } sample_zf sample_world).1 = 0
      ∧ (zip_close { no_faults with fclose_fails := true } sample_zf sample_world).2.fs "old.zip"
          = some sample_archive
      ∧ (zip_close { no_faults with fclose_fails := true } sample_zf sample_world).2.fs
          "old.zip.XXXXXX" = some (sample_local ++ sample_central ++ sample_eocd 1 1 47 34)) := by
  decide

/-- C2, at a failing input: a new archive `new.zip` with one entry in state
added whose data are in a buffer. `zip_close` returns 0 and writes an archive
without any entry; `zip_open` of `new.zip` then yields no entry, while the
staged list had one. -/
theorem C2_added_from_buffer_is_dropped :
    sample_zf_buf.entry.map (fun e => e.state) = [.Z_ADDED]
      ∧ sample_zf_buf.entry.map (fun e => e.ch_data_buf) = [some [1, 2, 3]]
      ∧ (zip_close no_faults sample_zf_buf sample_world).1 = 0
      ∧ (zip_close no_faults sample_zf_buf sample_world).2.errors = []
      ∧ (zip_close no_faults sample_zf_buf sample_world).2.fs "new.zip"
          = some (sample_eocd 0 0 0 0)
      ∧ zip_open (zip_close no_faults sample_zf_buf sample_world).2.fs (some "new.zip")
            ⟨false, false, false⟩
          = some (some ⟨"new.zip", some (sample_eocd 0 0 0 0), [], [], 0, 0, 0, false⟩) := by
  decide

/-- For comparison with C2: the file `a` of another archive, added to `new.zip`
under the name `c`, is there with its size and CRC when the archive is
reopened, also with the consistency check. -/
theorem added_from_archive_round_trip :
    (zip_close no_faults sample_zf_zip sample_world).1 = 0
      ∧ zip_open (zip_close no_faults sample_zf_zip sample_world).2.fs (some "new.zip")
            ⟨false, false, true⟩
          = some (some ⟨"new.zip",
              some ((sample_local.set 30 99) ++ (sample_central.set 46 99) ++ sample_eocd 1 1 47 34),
              [read_entry { sample_header with fn := some [99] }], [], 0, 47, 34, false⟩) := by
  decide

/-- C8, at failing inputs: `zip_open` returns an archive, not NULL, for a file
whose end record declares the directory at offset 0 while it stands at offset
67 (offset plus size does not end at the end record); for a file whose end
record declares no record in a directory of 47 bytes that holds one; and for a
file whose only directory record declares a name of 200 bytes while 23 bytes
follow it: that entry is returned with a NULL name. -/
theorem C8_zip_open_accepts_disagreeing_files :
    zip_open (fun _ => some (sample_local ++ sample_local_b ++ sample_central
          ++ sample_central_b ++ sample_eocd 2 2 94 0)) (some "x.zip") ⟨false, false, false⟩
        = some (some ⟨"x.zip", some (sample_local ++ sample_local_b ++ sample_central
            ++ sample_central_b ++ sample_eocd 2 2 94 0),
            [read_entry sample_header, read_entry sample_header_b], [], 0, 94, 0, false⟩)
    ∧ zip_open (fun _ => some (sample_central ++ sample_eocd 0 0 47 0)) (some "x.zip")
          ⟨false, false, false⟩
        = some (some ⟨"x.zip", some (sample_central ++ sample_eocd 0 0 47 0), [], [], 0, 47, 0,
            false⟩)
    ∧ zip_open (fun _ => some (sample_central.set 28 200 ++ sample_eocd 1 1 47 0))
          (some "x.zip") ⟨false, false, false⟩
        = some (some ⟨"x.zip", some (sample_central.set 28 200 ++ sample_eocd 1 1 47 0),
            [read_entry { sample_header with fnlen := 200, fn := none }], [], 0, 47, 0,
            false⟩) := by
  decide

/-! ## Theorems: libzip, nothing staged -/

/-- C16: `zip_close` on an archive whose `changes` is 0, or whose entries are all
in the state unchanged: the value returned is that of `zf_free`, and the world is
as it was: no temporary file, nothing written, nothing renamed, no error set. -/
theorem C16_zip_close_nothing_staged (flt : faults) (z : zf) (w : zip_world)
    (h : z.changes = false ∨ ∀ e ∈ z.entry, e.state = .Z_UNCHANGED) :
    zip_close flt z w = (flt.zf_free_result, w) := by
  unfold zip_close
  rcases h with h | h
  · simp [h]
  · have hall : z.entry.all (fun e => decide (e.state = .Z_UNCHANGED)) = true := by
      rw [List.all_eq_true]
      intro e he
      simp [h e he]
    simp [hall]

/-- C16 at the archive `old.zip` with `changes` 0 and an entry marked deleted,
and at the same archive with `changes` set and every entry unchanged. -/
theorem C16_zip_close_nothing_staged_witness :
    zip_close no_faults { sample_zf with changes := false } sample_world = (0, sample_world)
      ∧ zip_close no_faults sample_zf_clean sample_world = (0, sample_world) :=
  ⟨C16_zip_close_nothing_staged no_faults { sample_zf with changes := false } sample_world
      (Or.inl rfl),
    C16_zip_close_nothing_staged no_faults sample_zf_clean sample_world
      (Or.inr (by decide))⟩

/-! ## Theorems: libzip, integers in the file -/

/-- The byte `x & 0xff`. -/
theorem and_ff (x : Nat) : x &&& 0xff = x % 256 :=
  Nat.and_pow_two_sub_one_eq_mod x 8

/-- Index in a list behind another. -/
theorem getD_append_pre (pre l : List Nat) (i : Nat) :
    (pre ++ l).getD (pre.length + i) 0 = l.getD i 0 := by
  induction pre with
  | nil => simp
  | cons a r ih =>
    have e : (a :: r).length + i = (r.length + i) + 1 := by simp; omega
    rw [e]
    simpa using ih

/-- `putc` on a stream without limit appends the byte. -/
theorem putc_free (c : Nat) (d : List Nat) (e : Bool) :
    putc c ⟨d, e, none⟩ = ⟨d ++ [c], e, none⟩ := rfl

/-- `write2` on a stream without limit appends the two bytes of the low 16 bits,
low byte first. -/
theorem write2_free (v : Nat) (d : List Nat) (e : Bool) :
    write2 v ⟨d, e, none⟩ = ⟨d ++ [v % 256, v / 256 % 256], e, none⟩ := by
  unfold write2
  rw [putc_free, putc_free, and_ff, and_ff, Nat.shiftRight_eq_div_pow]
  simp

/-- `write4` on a stream without limit appends the four bytes of the low 32 bits,
low byte first. -/
theorem write4_free (v : Nat) (d : List Nat) (e : Bool) :
    write4 v ⟨d, e, none⟩
      = ⟨d ++ [v % 256, v / 256 % 256, v / 65536 % 256, v / 16777216 % 256], e, none⟩ := by
  unfold write4
  rw [putc_free, putc_free, putc_free, putc_free, and_ff, and_ff, and_ff, and_ff,
    Nat.shiftRight_eq_div_pow, Nat.shiftRight_eq_div_pow, Nat.shiftRight_eq_div_pow]
  simp

/-- `read2` of two bytes. -/
theorem read2_bytes (pre post : List Nat) (b0 b1 : Nat) :
    read2 (pre ++ [b0, b1] ++ post) pre.length = b0 + b1 * 256 := by
  unfold read2
  rw [List.append_assoc]
  have h0 := getD_append_pre pre ([b0, b1] ++ post) 0
  have h1 := getD_append_pre pre ([b0, b1] ++ post) 1
  rw [Nat.add_zero] at h0
  rw [h0, h1, Nat.shiftLeft_eq]
  simp

/-- `read4` of four bytes. -/
theorem read4_bytes (pre post : List Nat) (b0 b1 b2 b3 : Nat) :
    read4 (pre ++ [b0, b1, b2, b3] ++ post) pre.length
      = ((b3 * 256 + b2) * 256 + b1) * 256 + b0 := by
  unfold read4
  rw [List.append_assoc]
  have h0 := getD_append_pre pre ([b0, b1, b2, b3] ++ post) 0
  have h1 := getD_append_pre pre ([b0, b1, b2, b3] ++ post) 1
  have h2 := getD_append_pre pre ([b0, b1, b2, b3] ++ post) 2
  have h3 := getD_append_pre pre ([b0, b1, b2, b3] ++ post) 3
  rw [Nat.add_zero] at h0
  rw [h0, h1, h2, h3]
  simp [Nat.shiftLeft_eq]

/-- C20: on a stream without limit, `write2` of a value below 2^16 appends the
bytes `v mod 256` and `v div 256`, and `read2` at those two bytes, wherever they
stand in a buffer, returns `v` and advances the cursor by 2; `write4` of a value
below 2^32 appends its four bytes, least significant first, and `read4` at those
four bytes returns the bits of `v` (as an `int`, a value that equals `v` modulo
2^32) and advances the cursor by 4. -/
theorem C20_little_endian_round_trip (v : Nat) (f : wfile) (pre post : List Nat)
    (hroom : f.room = none) :
    (v < 2 ^ 16 →
        (write2 v f).data = f.data ++ [v % 256, v / 256]
          ∧ read2_cursor (pre ++ [v % 256, v / 256] ++ post) pre.length = (v, pre.length + 2))
      ∧ (v < 2 ^ 32 →
        (write4 v f).data = f.data ++ [v % 256, v / 256 % 256, v / 65536 % 256, v / 16777216]
          ∧ read4_cursor (pre ++ [v % 256, v / 256 % 256, v / 65536 % 256, v / 16777216] ++ post)
              pre.length = (v, pre.length + 4)
          ∧ to_int32 (read4 (pre ++ [v % 256, v / 256 % 256, v / 65536 % 256, v / 16777216]
              ++ post) pre.length) % 2 ^ 32 = (v : Int) % 2 ^ 32) := by
  obtain ⟨d, er, room⟩ := f
  simp only at hroom
  subst hroom
  constructor
  · intro hv
    have e : v / 256 % 256 = v / 256 := by omega
    constructor
    · rw [write2_free, e]
    · unfold read2_cursor
      rw [read2_bytes]
      have : v % 256 + v / 256 * 256 = v := by omega
      rw [this]
  · intro hv
    have e : v / 16777216 % 256 = v / 16777216 := by omega
    have hr : read4 (pre ++ [v % 256, v / 256 % 256, v / 65536 % 256, v / 16777216] ++ post)
        pre.length = v := by
      rw [read4_bytes]
      omega
    refine ⟨?_, ?_, ?_⟩
    · rw [write4_free, e]
    · unfold read4_cursor
      rw [hr]
    · rw [hr]
      unfold to_int32
      have hm : v % 2 ^ 32 = v := Nat.mod_eq_of_lt hv
      rw [hm]
      split_ifs
      · rfl
      · omega

/-- C20 at the values 0x1234 and 0x89abcdef, written to an empty stream and read
at the start of a buffer. -/
theorem C20_little_endian_round_trip_witness :
    ((write2 0x1234 ⟨[], false, none⟩).data = [0x34, 0x12]
        ∧ read2_cursor [0x34, 0x12] 0 = (0x1234, 2))
      ∧ ((write4 0x89abcdef ⟨[], false, none⟩).data = [0xef, 0xcd, 0xab, 0x89]
        ∧ read4_cursor [0xef, 0xcd, 0xab, 0x89] 0 = (0x89abcdef, 4)) :=
  ⟨(C20_little_endian_round_trip 0x1234 ⟨[], false, none⟩ [] [] rfl).1 (by decide),
    ⟨((C20_little_endian_round_trip 0x89abcdef ⟨[], false, none⟩ [] [] rfl).2 (by decide)).1,
      ((C20_little_endian_round_trip 0x89abcdef ⟨[], false, none⟩ [] [] rfl).2
        (by decide)).2.1⟩⟩

/-! ## Theorems: libzip, the consistency check of `zip_open` -/

/-- C19, counterexample: the archive of the files `a` and `b` with one byte of the
CRC in the local header of `a` changed. Its end record and its directory parse
(`zip_open` without `ZIP_CHECKCONS` returns both entries); the local header of `a`
disagrees with its directory record (`headercomp` returns -1); and `zip_open` with
`ZIP_CHECKCONS` returns NULL. -/
theorem C19_zip_open_rejects_inconsistent_entry :
    zip_open (fun _ => some (sample_archive.set 14 30)) (some "x.zip") ⟨false, false, false⟩
        = some (some ⟨"x.zip", some (sample_archive.set 14 30),
            [read_entry sample_header, read_entry sample_header_b], [], 0, 94, 67, false⟩)
      ∧ (_zip_readcdentry ⟨sample_archive.set 14 30, 0⟩ [] 0 0 true true).1.map
          (fun r => headercomp sample_header false r.1 true) = some (-1)
      ∧ zip_open (fun _ => some (sample_archive.set 14 30)) (some "x.zip") ⟨false, false, true⟩
        = some none := by
  decide

/-- `readfpstr` leaves the bytes of the file as they are. -/
theorem readfpstr_data (fp : rfile) (len : Nat) : (readfpstr fp len).2.data = fp.data := by
  unfold readfpstr
  simp only []
  split_ifs <;> rfl

/-- A conditional `readfpstr` leaves the bytes of the file as they are. -/
theorem ite_readfpstr_data (c : Prop) [Decidable c] (fp : rfile) (len : Nat)
    (x : Option (List Nat)) :
    (if c then readfpstr fp len else (x, fp)).2.data = fp.data := by
  split_ifs
  · exact readfpstr_data _ _
  · rfl

/-- `_zip_readcdentry` leaves the bytes of the file as they are. -/
theorem zip_readcdentry_data (fp : rfile) (buf : List Nat) (cdp : Nat) (left : Int)
    (readp localp : Bool) :
    (_zip_readcdentry fp buf cdp left readp localp).2.data = fp.data := by
  unfold _zip_readcdentry
  lift_lets
  extract_lets size rd fp1 src cur left1 cur1 version_made cur2 version_need bitflags comp_meth
    lmtime lmdate crc comp_size uncomp_size fnlen eflen cur3 fcomlen disknrstart intatt extatt
    local_offset cur4 r1 r2 r3
  extract_lets
  have hfp1 : fp1.data = fp.data := by cases readp <;> rfl
  have h1 : r1.2.data = fp1.data := ite_readfpstr_data _ _ _ _
  have h2 : r2.2.data = r1.2.data := ite_readfpstr_data _ _ _ _
  have h3 : r3.2.data = r2.2.data := ite_readfpstr_data _ _ _ _
  split_ifs
  all_goals first
    | rfl
    | exact hfp1
    | exact (h3.trans (h2.trans (h1.trans hfp1)))

/-- The loop of `readcdir` leaves the bytes of the file as they are. -/
theorem readcdir_entries_data (buf : List Nat) (eocd : Nat) (readp : Bool) (n : Nat) :
    ∀ (fp : rfile) (cdp : Nat), (readcdir_entries buf eocd readp n fp cdp).2.data = fp.data := by
  induction n with
  | zero => intro fp cdp; rfl
  | succ n ih =>
    intro fp cdp
    have h0 := zip_readcdentry_data fp buf cdp ((eocd : Int) - (cdp : Int)) readp false
    rcases h : _zip_readcdentry fp buf cdp ((eocd : Int) - (cdp : Int)) readp false
      with ⟨_ | ⟨h1, cdp1⟩, fp1⟩
    · rw [h] at h0
      simp only [readcdir_entries, h]
      exact h0
    · rw [h] at h0
      have h2 := ih fp1 cdp1
      rcases h3 : readcdir_entries buf eocd readp n fp1 cdp1 with ⟨_ | es, fp2⟩
      · rw [h3] at h2
        simp only [readcdir_entries, h, h3]
        exact h2.trans h0
      · rw [h3] at h2
        simp only [readcdir_entries, h, h3]
        exact h2.trans h0

/-- `readcdir` leaves the bytes of the file as they are. -/
theorem readcdir_data (fp : rfile) (buf : List Nat) (eocd buflen : Nat) :
    (readcdir fp buf eocd buflen).2.data = fp.data := by
  unfold readcdir
  lift_lets
  extract_lets comlen i nentry cd_size cd_offset zcomlen com back fp1
  have hfp1 : fp1.data = fp.data := by
    show (if _ then _ else _ : rfile).data = _
    split_ifs <;> rfl
  split_ifs
  · rfl
  · rfl
  · rfl
  · rfl
  · have h2 := readcdir_entries_data buf eocd false nentry fp (eocd - cd_size)
    rcases h3 : readcdir_entries buf eocd false nentry fp (eocd - cd_size) with ⟨_ | es, fp2⟩
    · rw [h3] at h2; exact h2
    · rw [h3] at h2; exact h2
  · exact hfp1
  · have h2 := readcdir_entries_data buf eocd true nentry fp1 eocd
    rcases h3 : readcdir_entries buf eocd true nentry fp1 eocd with ⟨_ | es, fp2⟩
    · rw [h3] at h2; exact h2.trans hfp1
    · rw [h3] at h2; exact h2.trans hfp1

/-- The loop of `checkcons` leaves the bytes of the file as they are. -/
theorem checkcons_loop_data (cd : Nat) (es : List zf_entry) :
    ∀ (fp : rfile) (mn mx : Nat) (temp : Option zf_header),
      (checkcons_loop cd es fp mn mx temp).2.data = fp.data := by
  induction es with
  | nil => intro fp mn mx temp; rfl
  | cons e rest ih =>
    intro fp mn mx temp
    have h0 := zip_readcdentry_data { fp with pos := e.local_offset } [] 0 0 true true
    unfold checkcons_loop
    lift_lets
    extract_lets min1 j max1
    split_ifs with hmax
    · rfl
    · rcases h : _zip_readcdentry { fp with pos := e.local_offset } [] 0 0 true true
        with ⟨_ | ⟨t, p⟩, fp1⟩
      · rw [h] at h0
        cases temp with
        | none => exact h0
        | some old =>
          simp only []
          split_ifs
          · exact h0
          · exact (ih fp1 min1 max1 (some old)).trans h0
      · rw [h] at h0
        simp only []
        split_ifs
        · exact h0
        · exact (ih fp1 min1 max1 (some t)).trans h0

/-- `checkcons` leaves the bytes of the file as they are. -/
theorem checkcons_data (fp : rfile) (z : zf) : (checkcons fp z).2.data = fp.data := by
  unfold checkcons
  cases z.entry with
  | nil => rfl
  | cons e rest => exact checkcons_loop_data _ _ _ _ _ _

/-- The value of the loop of `checkcons` does not depend on the position of the
file: it seeks before each read. -/
theorem checkcons_loop_pos (cd : Nat) (es : List zf_entry) (fp fp' : rfile) (mn mx : Nat)
    (temp : Option zf_header) (h : fp.data = fp'.data) :
    (checkcons_loop cd es fp mn mx temp).1 = (checkcons_loop cd es fp' mn mx temp).1 := by
  cases es with
  | nil => rfl
  | cons e rest =>
    have e1 : ({ fp with pos := e.local_offset } : rfile) = { fp' with pos := e.local_offset } := by
      rw [h]
    unfold checkcons_loop
    rw [e1]
    lift_lets
    extract_lets min1 j max1
    split_ifs <;> rfl

/-- The value of `checkcons` does not depend on the position of the file. -/
theorem checkcons_pos (fp fp' : rfile) (z : zf) (h : fp.data = fp'.data) :
    (checkcons fp z).1 = (checkcons fp' z).1 := by
  unfold checkcons
  cases z.entry with
  | nil => rfl
  | cons e rest => exact checkcons_loop_pos _ _ _ _ _ _ _ h

/-- When the loop of `checkcons` returns a value that is not negative, the record
of every entry agrees with the header it was compared with: its local header
where one is read, else the local header read last before. -/
theorem checkcons_loop_agree (data : List Nat) (cd : Nat) (es : List zf_entry) :
    ∀ (fp : rfile) (mn mx : Nat) (temp : Option zf_header) (v : Int), fp.data = data →
      (checkcons_loop cd es fp mn mx temp).1 = some v → 0 ≤ v →
      records_agree data es temp := by
  induction es with
  | nil => intro fp mn mx temp v _ _ _; trivial
  | cons e rest ih =>
    intro fp mn mx temp v hd hv hpos
    have h0 := zip_readcdentry_data { fp with pos := e.local_offset } [] 0 0 true true
    have e1 : ({ fp with pos := e.local_offset } : rfile) = ⟨data, e.local_offset⟩ := by
      rw [← hd]
    rw [e1] at h0
    unfold checkcons_loop at hv
    rw [e1] at hv
    lift_lets at hv
    extract_lets min1 j max1 at hv
    show (∃ h, compared_header data e temp = some h ∧ headercomp e.tozf_header false h true = 0)
      ∧ records_agree data rest (compared_header data e temp)
    split_ifs at hv with hmax
    · simp only [Option.some.injEq] at hv
      omega
    · rcases h : _zip_readcdentry ⟨data, e.local_offset⟩ [] 0 0 true true
        with ⟨_ | ⟨t, p⟩, fp1⟩
      · have hcmp : compared_header data e temp = temp := by
          simp only [compared_header, h]
        rw [h] at hv h0
        rw [hcmp]
        cases temp with
        | none => simp at hv
        | some old =>
          simp only [] at hv
          split_ifs at hv with hc
          · simp only [Option.some.injEq] at hv
            omega
          · exact ⟨⟨old, rfl, not_not.mp hc⟩, ih fp1 min1 max1 (some old) v h0 hv hpos⟩
      · have hcmp : compared_header data e temp = some t := by
          simp only [compared_header, h]
        rw [h] at hv h0
        rw [hcmp]
        simp only [] at hv
        split_ifs at hv with hc
        · simp only [Option.some.injEq] at hv
          omega
        · exact ⟨⟨t, rfl, not_not.mp hc⟩, ih fp1 min1 max1 (some t) v h0 hv hpos⟩

/-- Where the records agree with the headers `checkcons` compares them with, every
entry whose local header is read at its offset agrees with that header. -/
theorem records_agree_read (data : List Nat) (es : List zf_entry) :
    ∀ (temp : Option zf_header), records_agree data es temp →
      ∀ e ∈ es, ∀ (t : zf_header) (p : Nat) (fp' : rfile),
        _zip_readcdentry ⟨data, e.local_offset⟩ [] 0 0 true true = (some (t, p), fp') →
        headercomp e.tozf_header false t true = 0 := by
  induction es with
  | nil => intro temp _ e he; cases he
  | cons e0 rest ih =>
    intro temp hag e he t p fp' hread
    obtain ⟨⟨h, hh, hc⟩, hrest⟩ := hag
    rcases List.mem_cons.mp he with rfl | he
    · have hcmp : compared_header data e temp = some t := by
        simp only [compared_header, hread]
      rw [hcmp] at hh
      cases hh
      exact hc
    · exact ih _ hrest e he t p fp' hread

/-- With `ZIP_CHECKCONS`, `best` is the value of `checkcons` for `cdir` throughout
the loop of `zip_open`. -/
theorem open_loop_inv (fl : zip_flags) (hflag : fl.ZIP_CHECKCONS = true) (data buf : List Nat)
    (buflen : Nat) :
    ∀ (fuel start : Nat) (fp : rfile) (best : Int) (cdir : Option zf) (best' : Int)
      (cdir' : Option zf),
      fp.data = data →
      (∀ c, cdir = some c → ∀ fp0 : rfile, fp0.data = data → (checkcons fp0 c).1 = some best) →
      open_loop fl buf buflen fuel start fp best cdir = some (best', cdir') →
      ∀ c, cdir' = some c → ∀ fp0 : rfile, fp0.data = data →
        (checkcons fp0 c).1 = some best' := by
  intro fuel
  induction fuel with
  | zero =>
    intro start fp best cdir best' cdir' _ hinv h
    simp only [open_loop, Option.some.injEq, Prod.mk.injEq] at h
    obtain ⟨rfl, rfl⟩ := h
    exact hinv
  | succ fuel ih =>
    intro start fp best cdir best' cdir' hd hinv h
    unfold open_loop at h
    cases hm : memmem buf start ((buflen : Int) - (start : Int) - 18) EOCD_MAGIC with
    | none =>
      rw [hm] at h
      simp only [Option.some.injEq, Prod.mk.injEq] at h
      obtain ⟨rfl, rfl⟩ := h
      exact hinv
    | some j =>
      rw [hm] at h
      simp only [] at h
      have hd1 := readcdir_data fp buf j buflen
      rcases hr : readcdir fp buf j buflen with ⟨_ | cdirnew, fp1⟩
      · rw [hr] at h hd1
        simp only [] at h
        exact ih _ _ _ _ _ _ (hd1.trans hd) hinv h
      · rw [hr] at h hd1
        simp only [] at h
        have hd2 : fp1.data = data := hd1.trans hd
        cases cdir with
        | none =>
          simp only [hflag, if_true] at h
          have hd3 := checkcons_data fp1 cdirnew
          rcases hc : checkcons fp1 cdirnew with ⟨_ | b, fp2⟩
          · rw [hc] at h
            simp at h
          · rw [hc] at h hd3
            simp only [] at h
            refine ih _ _ _ _ _ _ (hd3.trans hd2) ?_ h
            intro c hc' fp0 hfp0
            cases hc'
            rw [checkcons_pos fp0 fp1 _ (hfp0.trans hd2.symm), hc]
        | some old =>
          simp only [] at h
          have hold := hinv old rfl
          have hc1 : (if best ≤ 0 then checkcons fp1 old else (some best, fp1)).1 = some best := by
            split_ifs
            · exact hold fp1 hd2
            · rfl
          have hc1d : (if best ≤ 0 then checkcons fp1 old else (some best, fp1)).2.data
              = data := by
            split_ifs
            · exact (checkcons_data fp1 old).trans hd2
            · exact hd2
          generalize (if best ≤ 0 then checkcons fp1 old else (some best, fp1)) = c1
            at h hc1 hc1d
          have hc2d := (checkcons_data c1.2 cdirnew).trans hc1d
          have hc2 : ∀ fp0 : rfile, fp0.data = data →
              (checkcons fp0 cdirnew).1 = (checkcons c1.2 cdirnew).1 :=
            fun fp0 hfp0 => checkcons_pos fp0 c1.2 cdirnew (hfp0.trans hc1d.symm)
          generalize checkcons c1.2 cdirnew = c2 at h hc2 hc2d
          rw [hc1] at h
          cases ha : c2.1 with
          | none =>
            rw [ha] at h
            simp at h
          | some a =>
            rw [ha] at h
            simp only [] at h
            split_ifs at h
            · refine ih _ _ _ _ _ _ hc2d ?_ h
              intro c hc' fp0 hfp0
              cases hc'
              rw [hc2 fp0 hfp0, ha]
            · exact ih _ _ _ _ _ _ hc2d hinv h

/-- C19, amended: `zip_open` with `ZIP_CHECKCONS` on a file that exists returns an
archive only if the record of every entry of it agrees (`headercomp` returns 0)
with the header `checkcons` compares it with: the local header at the offset of
the entry where one is read, else the local header read last before. So every
entry of an archive that is returned whose local header is read agrees with it:
a local header that disagrees makes `checkcons` return -1 for the whole
directory, which is then not returned. (A run in which no local header is read
for the first entry compares with a structure that was never set; it has no
value here and is not among the runs that return an archive.) -/
theorem C19_zip_open_checkcons_amended (fs : String → Option (List Nat)) (fn : String) (data : List Nat)
    (fl : zip_flags) (z : zf) (hfile : fs fn = some data) (hflag : fl.ZIP_CHECKCONS = true)
    (hopen : zip_open fs (some fn) fl = some (some z)) :
    records_agree data z.entry none
      ∧ ∀ e ∈ z.entry, ∀ (temp : zf_header) (p : Nat) (fp' : rfile),
          _zip_readcdentry ⟨data, e.local_offset⟩ [] 0 0 true true = (some (temp, p), fp') →
          headercomp e.tozf_header false temp true = 0 := by
  have hmain : records_agree data z.entry none := by
    unfold zip_open at hopen
    simp only [hfile] at hopen
    by_cases hex : fl.ZIP_EXCL = true
    · simp [hex] at hopen
    simp only [hex, Bool.false_eq_true, if_false] at hopen
    generalize fread data (data.length - if data.length < BUFSIZE then data.length else BUFSIZE)
      BUFSIZE = rd at hopen
    cases hl : open_loop fl rd.1 rd.1.length (rd.1.length + 1) 0 ⟨data, rd.2⟩ (-1) none with
    | none =>
      rw [hl] at hopen
      simp at hopen
    | some r =>
      obtain ⟨best, cdir⟩ := r
      rw [hl] at hopen
      simp only [] at hopen
      by_cases hb : best < 0
      · simp [hb] at hopen
      simp only [hb, if_false] at hopen
      cases cdir with
      | none => simp at hopen
      | some c =>
        simp only [Option.some.injEq] at hopen
        subst hopen
        have hinv := open_loop_inv fl hflag data rd.1 rd.1.length (rd.1.length + 1) 0 ⟨data, rd.2⟩ (-1) none
          best (some c) rfl (fun c hc => by cases hc) hl c rfl ⟨data, 0⟩ rfl
        unfold checkcons at hinv
        show records_agree data c.entry none
        cases he : c.entry with
        | nil => trivial
        | cons e0 rest =>
          rw [he] at hinv
          exact checkcons_loop_agree data c.cd_offset (e0 :: rest) ⟨data, 0⟩ _ _ none best rfl hinv
            (not_lt.mp hb)
  exact ⟨hmain, records_agree_read data z.entry none hmain⟩

/-- C19, amended, at the archive of the files `a` and `b`, which `zip_open`
returns with `ZIP_CHECKCONS`: both records agree with the local headers. -/
theorem C19_zip_open_checkcons_amended_witness :
    records_agree sample_archive [read_entry sample_header, read_entry sample_header_b] none :=
  (C19_zip_open_checkcons_amended (fun _ => some sample_archive) "x.zip" sample_archive
    ⟨false, false, true⟩
    ⟨"x.zip", some sample_archive, [read_entry sample_header, read_entry sample_header_b], [],
      0, 94, 67, false⟩ rfl rfl (by decide)).1

/-- An archive whose second entry has no local header at its offset and whose two
records agree: `checkcons` compares the second record with the local header of
the first, returns 68, and `zip_open` with `ZIP_CHECKCONS` returns the
archive. -/
theorem zip_open_stale_header :
    (_zip_readcdentry ⟨sample_archive_stale, 34⟩ [] 0 0 true true).1 = none
      ∧ (checkcons ⟨sample_archive_stale, 0⟩
          ⟨"x.zip", some sample_archive_stale,
            [read_entry sample_header, read_entry { sample_header with local_offset := 34 }],
            [], 0, 94, 68, false⟩).1 = some 68
      ∧ zip_open (fun _ => some sample_archive_stale) (some "x.zip") ⟨false, false, true⟩
          = some (some ⟨"x.zip", some sample_archive_stale,
              [read_entry sample_header, read_entry { sample_header with local_offset := 34 }],
              [], 0, 94, 68, false⟩) := by
  exact ⟨by decide, by decide, by decide⟩

/-! ## Theorems: libzip, what is written -/

/-- `fprintf` on a stream without limit appends the bytes. -/
theorem fprintf_free (s d : List Nat) (e : Bool) :
    fprintf s ⟨d, e, none⟩ = ⟨d ++ s, e, none⟩ := by
  unfold fprintf
  induction s generalizing d with
  | nil => simp
  | cons a r ih =>
    rw [List.foldl_cons, putc_free, ih]
    simp

/-- `writestr` on a stream without limit, with no limit of `fwrite`, appends the
first `len` bytes of the string. -/
theorem writestr_free (str : Option (List Nat)) (len : Nat) (d : List Nat) (e : Bool)
    (count : Nat) :
    (writestr 0 str len ⟨d, e, none⟩ count).1 = ⟨d ++ (str.getD []).take len, e, none⟩ := by
  simp [writestr, fwrite, real_fwrite]

/-- A string that is written when its length is not 0. -/
theorem ite_writestr_free (len : Nat) (str : Option (List Nat)) (r : wfile × Nat)
    (d : List Nat) (e : Bool) (hr : r.1 = ⟨d, e, none⟩) :
    (if len ≠ 0 then writestr 0 str len r.1 r.2 else r).1
      = ⟨d ++ (str.getD []).take len, e, none⟩ := by
  split_ifs with h
  · rw [hr, writestr_free]
  · rw [not_not.mp h, hr]
    simp

/-- What `writecdentry` writes on a stream without limit and without error, with
no limit of `fwrite`: the record and its strings; it returns 0. -/
theorem writecdentry_free (d : List Nat) (count : Nat) (h : zf_header) (localp : Bool) :
    (writecdentry 0 ⟨d, false, none⟩ count h localp).1 = 0
      ∧ (writecdentry 0 ⟨d, false, none⟩ count h localp).2.1
        = ⟨d ++ (if localp then local_record h else central_record h) ++ record_strings h,
            false, none⟩ := by
  unfold writecdentry
  lift_lets
  extract_lets f1 f2 f3 f4 f5 f6 f7 f8 f9 f10 f11 f12 f13 r1 r2 r3
  have hf : f13 = ⟨d ++ (if localp then local_record h else central_record h), false, none⟩ := by
    cases localp
    · simp only [f13, f12, f11, f10, f9, f8, f7, f6, f5, f4, f3, f2, f1, fprintf_free,
        write2_free, write4_free, Bool.not_false, if_true, Bool.false_eq_true, if_false,
        central_record, le2, le4, List.append_assoc]
    · simp only [f13, f12, f11, f10, f9, f8, f7, f6, f5, f4, f3, f2, f1, fprintf_free,
        write2_free, write4_free, Bool.not_true, if_true, Bool.false_eq_true, if_false,
        local_record, le2, le4, List.append_assoc]
  have h1 : r1.1 = ⟨d ++ (if localp then local_record h else central_record h)
      ++ (h.fn.getD []).take h.fnlen, false, none⟩ :=
    ite_writestr_free h.fnlen h.fn (f13, count) _ _ hf
  have h2 : r2.1 = ⟨d ++ (if localp then local_record h else central_record h)
      ++ (h.fn.getD []).take h.fnlen ++ (h.ef.getD []).take h.eflen, false, none⟩ :=
    ite_writestr_free h.eflen h.ef r1 _ _ h1
  have h3 : r3.1 = ⟨d ++ (if localp then local_record h else central_record h)
      ++ (h.fn.getD []).take h.fnlen ++ (h.ef.getD []).take h.eflen
      ++ (h.fcom.getD []).take h.fcomlen, false, none⟩ :=
    ite_writestr_free h.fcomlen h.fcom r2 _ _ h2
  have he : r3.1.err = false := by rw [h3]
  rw [he]
  simp only [Bool.false_eq_true, if_false]
  refine ⟨trivial, ?_⟩
  rw [h3]
  simp [record_strings, List.append_assoc]

/-- `fwrite` without limit on a stream without limit writes all the bytes it is
given. -/
theorem fwrite_free (ptr : List Nat) (n : Nat) (d : List Nat) (e : Bool) (count : Nat)
    (hn : ptr.length = n) :
    fwrite 0 ptr n ⟨d, e, none⟩ count = (n, ⟨d ++ ptr, e, none⟩, count + n) := by
  subst hn
  simp [fwrite, real_fwrite]

/-- The loop that copies the data, on a source that holds `remainder` bytes from
its position on and with fuel for as many rounds: it ends without error, and the
bytes are appended in their order. -/
theorem copy_data_exact :
    ∀ (fuel remainder len : Nat) (fp : rfile) (d : List Nat) (e : Bool) (count : Nat),
      remainder ≤ fuel → 0 < len → fp.pos + remainder ≤ fp.data.length →
      copy_data 0 fuel remainder len fp ⟨d, e, none⟩ count
        = (none, ⟨d ++ (fp.data.drop fp.pos).take remainder, e, none⟩, count + remainder) := by
  intro fuel
  induction fuel with
  | zero =>
    intro remainder len fp d e count h _ _
    have : remainder = 0 := by omega
    subst this
    simp [copy_data]
  | succ fuel ih =>
    intro remainder len fp d e count hfuel hlen hdata
    unfold copy_data
    by_cases h0 : remainder = 0
    · subst h0
      simp
    · rw [if_neg h0]
      lift_lets
      extract_lets len1 rd wr
      have hl1 : 0 < len1 ∧ len1 ≤ remainder := by
        show 0 < (if len > remainder then remainder else len)
          ∧ (if len > remainder then remainder else len) ≤ remainder
        split_ifs <;> omega
      have hrd : rd = ((fp.data.drop fp.pos).take len1, fp.pos + len1) := by
        show fread fp.data fp.pos len1 = _
        unfold fread
        simp only [List.length_take, List.length_drop]
        rw [Nat.min_eq_left (by omega)]
      have hrl : rd.1.length = len1 := by
        rw [hrd]
        simp only [List.length_take, List.length_drop]
        omega
      have hwr : wr = (len1, ⟨d ++ rd.1, e, none⟩, count + len1) := fwrite_free rd.1 len1 d e count hrl
      rw [if_neg (by rw [hrl]; exact fun h => h rfl), hwr]
      simp only [ne_eq, not_true_eq_false, if_false]
      rw [ih (remainder - len1) len1 ⟨fp.data, rd.2⟩ (d ++ rd.1) e (count + len1) (by omega)
        hl1.1 (by rw [hrd]; simp only []; omega)]
      rw [hrd]
      simp only [List.append_assoc, Prod.mk.injEq, wfile.mk.injEq, and_true, true_and]
      constructor
      · congr 1
        have e1 : remainder = len1 + (remainder - len1) := by omega
        conv_rhs => rw [e1, List.take_add, List.drop_drop]
      · omega

/-- The loop that copies the data, without limit of `fwrite` on a stream without
limit: whatever is read, the stream is without error afterwards. -/
theorem copy_data_stream :
    ∀ (fuel remainder len : Nat) (fp : rfile) (d : List Nat) (e : Bool) (count : Nat),
      ∃ r d' c', copy_data 0 fuel remainder len fp ⟨d, e, none⟩ count = (r, ⟨d', e, none⟩, c') := by
  intro fuel
  induction fuel with
  | zero => intro remainder len fp d e count; exact ⟨_, _, _, rfl⟩
  | succ fuel ih =>
    intro remainder len fp d e count
    unfold copy_data
    by_cases h0 : remainder = 0
    · rw [if_pos h0]; exact ⟨_, _, _, rfl⟩
    · rw [if_neg h0]
      lift_lets
      extract_lets len1 rd wr
      by_cases hrl : rd.1.length = len1
      · have hwr : wr = (len1, ⟨d ++ rd.1, e, none⟩, count + len1) :=
          fwrite_free rd.1 len1 d e count hrl
        rw [if_neg (fun h => h hrl), hwr]
        simp only [ne_eq, not_true_eq_false, if_false]
        exact ih _ _ _ _ _ _
      · rw [if_pos hrl]; exact ⟨_, _, _, rfl⟩

/-- A local header has 30 bytes. -/
theorem local_record_length (h : zf_header) : (local_record h).length = 30 := by
  simp [local_record, le2, le4, LOCAL_MAGIC]

/-- `readfpstr` of bytes that are in the file. -/
theorem readfpstr_at (data : List Nat) (pos : Nat) (s : List Nat)
    (h : (data.drop pos).take s.length = s) :
    readfpstr ⟨data, pos⟩ s.length = (some s, ⟨data, pos + s.length⟩) := by
  unfold readfpstr fread
  simp [h]

/-- `_zip_readcdentry` on a local header in the file, followed by its name and
its extra field: the fields are read as they are, the position is behind the
extra field. -/
theorem read_local_header (pre lname lef rest : List Nat) (lh : zf_header)
    (hfit : local_fits lh) (hn : lname.length = lh.fnlen) (he : lef.length = lh.eflen) :
    _zip_readcdentry ⟨pre ++ local_record lh ++ lname ++ lef ++ rest, pre.length⟩ [] 0 0
        true true
      = (some (⟨0, lh.version_need, lh.bitflags, lh.comp_meth, lh.lmtime, lh.lmdate, lh.crc,
            lh.comp_size, lh.uncomp_size, lh.fnlen, lh.eflen, 0, 0, 0, 0, 0, some lname,
            if lh.eflen ≠ 0 then some lef else none, none⟩, 0),
          ⟨pre ++ local_record lh ++ lname ++ lef ++ rest,
            pre.length + 30 + lh.fnlen + lh.eflen⟩) := by
  obtain ⟨v1, v2, v3, v4, v5, v6, v7, v8, v9, v10⟩ := hfit
  unfold _zip_readcdentry
  lift_lets
  extract_lets size rd fp1 src cur left1 cur1 version_made cur2 version_need bitflags comp_meth
    lmtime lmdate crc comp_size uncomp_size fnlen eflen cur3 fcomlen disknrstart intatt extatt
    local_offset cur4 r1 r2 r3
  extract_lets
  have hrd : rd = (local_record lh, pre.length + 30) := by
    show fread _ _ 30 = _
    unfold fread
    simp only [List.append_assoc, List.drop_left]
    rw [List.take_left' (local_record_length lh), local_record_length]
  have hsrc : src = local_record lh := by
    show (if true = true then rd.1 else []) = _
    rw [if_pos rfl, hrd]
  have hfp1 : fp1 = ⟨pre ++ local_record lh ++ lname ++ lef ++ rest, pre.length + 30⟩ := by
    show (if true = true then _ else _ : rfile) = _
    rw [if_pos rfl, hrd]
  have hlist : local_record lh = [80, 75, 3, 4, lh.version_need % 256, lh.version_need / 256 % 256,
      lh.bitflags % 256, lh.bitflags / 256 % 256, lh.comp_meth % 256, lh.comp_meth / 256 % 256,
      lh.lmtime % 256, lh.lmtime / 256 % 256, lh.lmdate % 256, lh.lmdate / 256 % 256,
      lh.crc % 256, lh.crc / 256 % 256, lh.crc / 65536 % 256, lh.crc / 16777216 % 256,
      lh.comp_size % 256, lh.comp_size / 256 % 256, lh.comp_size / 65536 % 256,
      lh.comp_size / 16777216 % 256,
      lh.uncomp_size % 256, lh.uncomp_size / 256 % 256, lh.uncomp_size / 65536 % 256,
      lh.uncomp_size / 16777216 % 256,
      lh.fnlen % 256, lh.fnlen / 256 % 256, lh.eflen % 256, lh.eflen / 256 % 256] := by
    simp [local_record, le2, le4, LOCAL_MAGIC]
  have hcur : cur = 0 := rfl
  have hcur2 : cur2 = 4 := rfl
  have hvm : version_made = 0 := rfl
  have hvn : version_need = lh.version_need := by
    show read2 src cur2 = _
    rw [hsrc, hcur2, hlist]
    simp only [read2, List.getD_cons_succ, List.getD_cons_zero, Nat.shiftLeft_eq]
    omega
  have hbf : bitflags = lh.bitflags := by
    show read2 src (cur2 + 2) = _
    rw [hsrc, hcur2, hlist]
    simp only [read2, List.getD_cons_succ, List.getD_cons_zero, Nat.shiftLeft_eq]
    omega
  have hcm : comp_meth = lh.comp_meth := by
    show read2 src (cur2 + 4) = _
    rw [hsrc, hcur2, hlist]
    simp only [read2, List.getD_cons_succ, List.getD_cons_zero, Nat.shiftLeft_eq]
    omega
  have hlt : lmtime = lh.lmtime := by
    show read2 src (cur2 + 6) = _
    rw [hsrc, hcur2, hlist]
    simp only [read2, List.getD_cons_succ, List.getD_cons_zero, Nat.shiftLeft_eq]
    omega
  have hld : lmdate = lh.lmdate := by
    show read2 src (cur2 + 8) = _
    rw [hsrc, hcur2, hlist]
    simp only [read2, List.getD_cons_succ, List.getD_cons_zero, Nat.shiftLeft_eq]
    omega
  have hcrc : crc = lh.crc := by
    show read4 src (cur2 + 10) = _
    rw [hsrc, hcur2, hlist]
    simp only [read4, List.getD_cons_succ, List.getD_cons_zero, Nat.shiftLeft_eq]
    omega
  have hcs : comp_size = lh.comp_size := by
    show read4 src (cur2 + 14) = _
    rw [hsrc, hcur2, hlist]
    simp only [read4, List.getD_cons_succ, List.getD_cons_zero, Nat.shiftLeft_eq]
    omega
  have hus : uncomp_size = lh.uncomp_size := by
    show read4 src (cur2 + 18) = _
    rw [hsrc, hcur2, hlist]
    simp only [read4, List.getD_cons_succ, List.getD_cons_zero, Nat.shiftLeft_eq]
    omega
  have hfn : fnlen = lh.fnlen := by
    show read2 src (cur2 + 22) = _
    rw [hsrc, hcur2, hlist]
    simp only [read2, List.getD_cons_succ, List.getD_cons_zero, Nat.shiftLeft_eq]
    omega
  have hef : eflen = lh.eflen := by
    show read2 src (cur2 + 24) = _
    rw [hsrc, hcur2, hlist]
    simp only [read2, List.getD_cons_succ, List.getD_cons_zero, Nat.shiftLeft_eq]
    omega
  have hfc : fcomlen = 0 := rfl
  have hdn : disknrstart = 0 := rfl
  have hia : intatt = 0 := rfl
  have hea : extatt = 0 := rfl
  have hlo : local_offset = 0 := rfl
  have hdata : pre ++ local_record lh ++ lname ++ lef ++ rest
      = (pre ++ local_record lh) ++ (lname ++ (lef ++ rest)) := by
    simp only [List.append_assoc]
  have hdata2 : pre ++ local_record lh ++ lname ++ lef ++ rest
      = (pre ++ local_record lh ++ lname) ++ (lef ++ rest) := by
    simp only [List.append_assoc]
  have hr1 : r1 = (some lname, ⟨pre ++ local_record lh ++ lname ++ lef ++ rest,
      pre.length + 30 + lh.fnlen⟩) := by
    show (if fnlen ≠ 0 then readfpstr fp1 fnlen else (some [], fp1)) = _
    rw [hfp1, hfn, ← hn]
    by_cases h0 : lname.length = 0
    · rw [if_neg (not_not.mpr h0)]
      have h0' : lname = [] := List.length_eq_zero.mp h0
      rw [h0']
      rfl
    · rw [if_pos h0]
      apply readfpstr_at
      rw [hdata, List.drop_left' (by simp [local_record_length]), List.take_left' rfl]
  have hr2 : r2 = (if lh.eflen ≠ 0 then some lef else none,
      ⟨pre ++ local_record lh ++ lname ++ lef ++ rest, pre.length + 30 + lh.fnlen + lh.eflen⟩) := by
    show (if eflen ≠ 0 then readfpstr r1.2 eflen else (none, r1.2)) = _
    rw [hr1, hef]
    by_cases h0 : lh.eflen = 0
    · rw [if_neg (not_not.mpr h0), if_neg (not_not.mpr h0), h0]
      rfl
    · rw [if_pos h0, if_pos h0, ← he, ← hn]
      apply readfpstr_at
      rw [hdata2, List.drop_left' (by simp [local_record_length]; omega), List.take_left' rfl]
  have hr3 : r3 = (none, r2.2) := rfl
  have hsz : size = 30 := rfl
  have hl1 : left1 = 30 := rfl
  have c1 : (true && decide (rd.1.length < size)) = false := by
    rw [hrd, hsz, local_record_length]
    rfl
  have c3 : List.take 4 (List.drop cur src) = LOCAL_MAGIC := by
    rw [hcur, hsrc, hlist]
    rfl
  have c4 : left1 < ((CDENTRYSIZE + fnlen + eflen + fcomlen : Nat) : Int) := by
    rw [hl1]
    simp only [CDENTRYSIZE]
    omega
  rw [c1]
  simp only [Bool.false_eq_true, if_false, Bool.not_true, Bool.false_and, if_true, c3, ne_eq,
    not_true_eq_false, c4]
  rw [hr3, hr2, hr1, hvm, hvn, hbf, hcm, hlt, hld, hcrc, hcs, hus, hfn, hef, hfc, hdn, hia, hea,
    hlo]

/-- `xstrdup` of a copy made by `xstrdup` is that copy. -/
theorem xstrdup_idem (s : List Nat) : xstrdup (xstrdup s) = xstrdup s := by
  unfold xstrdup
  induction s with
  | nil => rfl
  | cons a r ih =>
    by_cases h : (a != 0) = true
    · simp only [List.takeWhile_cons, h, if_true, ih]
    · simp only [List.takeWhile_cons, h, if_false, List.takeWhile_nil, Bool.false_eq_true]

/-- `xstrdup` of a string without NUL is the string. -/
theorem xstrdup_of_no_nul (s : List Nat) (h : 0 ∉ s) : xstrdup s = s := by
  unfold xstrdup
  rw [List.takeWhile_eq_self_iff]
  intro x hx
  have : x ≠ 0 := fun e => h (e ▸ hx)
  simpa using this

/-- The name and the length of name of the created entry are a C string and a
length. -/
theorem created_fn_idem (se : zf_header) (name : Option (List Nat)) :
    xstrdup (created_fn se name) = created_fn se name := by
  unfold created_fn
  cases name with
  | some n => exact xstrdup_idem n
  | none =>
    cases se.fn with
    | some s => exact xstrdup_idem s
    | none => rfl

/-- What `_zip_create_entry` appends. -/
theorem zip_create_entry_eq (dest : zf_dest) (se : zf_header) (name : Option (List Nat)) :
    ∃ de, _zip_create_entry dest se name = { dest with entry := dest.entry ++ [de] }
      ∧ de.fn = some (created_fn se name) ∧ de.fnlen = created_fnlen se name
      ∧ de.comp_size = se.comp_size ∧ de.uncomp_size = se.uncomp_size ∧ de.crc = se.crc
      ∧ de.comp_meth = se.comp_meth := by
  unfold _zip_create_entry created_fn created_fnlen
  exact ⟨_, rfl, rfl, rfl, rfl, rfl, rfl, rfl⟩

/-- C18, amended: `_zip_entry_copy` for a source entry `se` whose local header
(fields `lh`, each within its place), name `lname`, extra field `lef` and
`se.comp_size` bytes of data are in the source file at `se.local_offset`, onto a
stream without limit and without error, without limit of `fwrite`, where the name
of the created entry has the length of its length field. It returns 0; the loop
that copies the data ends for every fuel of at least `se.comp_size` rounds; and
the bytes appended are the local header of the source with the length of name of
the created entry, the name of the created entry, the extra field of the source
and the data of the source. When no name is given and the entry has a name, a C
string that is the name in its local header, the bytes appended are the bytes of
the source from the local header to the end of the data. -/
theorem C18_zip_entry_copy_verbatim_amended (d : List Nat) (es : List zf_header)
    (pre lname lef payload post : List Nat) (lh se : zf_header) (ents : List zf_header)
    (entry_no : Nat) (name : Option (List Nat)) (count : Nat)
    (hget : ents.get? entry_no = some se) (hoff : se.local_offset = pre.length)
    (hfit : local_fits lh) (hn : lname.length = lh.fnlen) (he : lef.length = lh.eflen)
    (hp : payload.length = se.comp_size)
    (hname : (created_fn se name).length = created_fnlen se name) :
    ∃ de count',
      _zip_entry_copy 0 ⟨⟨d, false, none⟩, es⟩
          ⟨pre ++ local_record lh ++ lname ++ lef ++ payload ++ post, ents⟩ entry_no name count
        = (0, none,
            ⟨⟨d ++ local_record { lh with fnlen := created_fnlen se name }
                ++ created_fn se name ++ lef ++ payload, false, none⟩, es ++ [de]⟩, count')
      ∧ de.fn = some (created_fn se name) ∧ de.fnlen = created_fnlen se name
      ∧ (∀ fuel c, se.comp_size ≤ fuel →
          copy_data 0 fuel se.comp_size BUFSIZE
              ⟨pre ++ local_record lh ++ lname ++ lef ++ payload ++ post,
                pre.length + 30 + lh.fnlen + lh.eflen⟩
              ⟨d ++ local_record { lh with fnlen := created_fnlen se name }
                ++ created_fn se name ++ lef, false, none⟩ c
            = (none, ⟨d ++ local_record { lh with fnlen := created_fnlen se name }
                ++ created_fn se name ++ lef ++ payload, false, none⟩, c + se.comp_size))
      ∧ (name = none → se.fn = some lname → se.fnlen = lh.fnlen → 0 ∉ lname →
          d ++ local_record { lh with fnlen := created_fnlen se name }
              ++ created_fn se name ++ lef ++ payload
            = d ++ ((pre ++ local_record lh ++ lname ++ lef ++ payload ++ post).drop
                se.local_offset).take (LENTRYSIZE + lh.fnlen + lh.eflen + se.comp_size)) := by
  obtain ⟨de, hde, hdfn, hdlen, _⟩ := zip_create_entry_eq ⟨⟨d, false, none⟩, es⟩ se name
  have hread := read_local_header pre lname lef (payload ++ post) lh hfit hn he
  have hassoc : pre ++ local_record lh ++ lname ++ lef ++ (payload ++ post)
      = pre ++ local_record lh ++ lname ++ lef ++ payload ++ post := by
    simp only [List.append_assoc]
  rw [hassoc] at hread
  have hcopy : ∀ (fuel c : Nat) (x : List Nat), se.comp_size ≤ fuel →
      copy_data 0 fuel se.comp_size BUFSIZE
          ⟨pre ++ local_record lh ++ lname ++ lef ++ payload ++ post,
            pre.length + 30 + lh.fnlen + lh.eflen⟩ ⟨x, false, none⟩ c
        = (none, ⟨x ++ payload, false, none⟩, c + se.comp_size) := by
    intro fuel c x hfuel
    have hlen : (pre ++ local_record lh ++ lname ++ lef).length
        = pre.length + 30 + lh.fnlen + lh.eflen := by
      simp only [List.length_append, local_record_length, hn, he]
    rw [copy_data_exact fuel se.comp_size BUFSIZE _ x false c hfuel (by decide)
      (by
        simp only [List.length_append, local_record_length, hn, he, hp]
        omega)]
    simp only []
    rw [← hlen, List.append_assoc _ payload post, List.drop_left, ← hp, List.take_left]
  have hmain : ∃ count', _zip_entry_copy 0 ⟨⟨d, false, none⟩, es⟩
        ⟨pre ++ local_record lh ++ lname ++ lef ++ payload ++ post, ents⟩ entry_no name count
      = (0, none,
          ⟨⟨d ++ local_record { lh with fnlen := created_fnlen se name }
              ++ created_fn se name ++ lef ++ payload, false, none⟩, es ++ [de]⟩, count') := by
    unfold _zip_entry_copy
    simp only [hget, hde, hoff, hread]
    rw [List.getLast?_append_of_ne_nil _ (by simp)]
    simp only [List.getLast?_singleton, Option.getD_some, hdfn, hdlen, created_fn_idem]
    obtain ⟨hw1, hw2⟩ := writecdentry_free d count
      { version_made := 0, version_need := lh.version_need, bitflags := lh.bitflags,
        comp_meth := lh.comp_meth, lmtime := lh.lmtime, lmdate := lh.lmdate, crc := lh.crc,
        comp_size := lh.comp_size, uncomp_size := lh.uncomp_size,
        fnlen := created_fnlen se name, eflen := lh.eflen, fcomlen := 0, disknrstart := 0,
        intatt := 0, extatt := 0, local_offset := 0, fn := some (created_fn se name),
        ef := if lh.eflen ≠ 0 then some lef else none, fcom := none } true
    have hrec : local_record
        { version_made := 0, version_need := lh.version_need, bitflags := lh.bitflags,
          comp_meth := lh.comp_meth, lmtime := lh.lmtime, lmdate := lh.lmdate, crc := lh.crc,
          comp_size := lh.comp_size, uncomp_size := lh.uncomp_size,
          fnlen := created_fnlen se name, eflen := lh.eflen, fcomlen := 0, disknrstart := 0,
          intatt := 0, extatt := 0, local_offset := 0, fn := some (created_fn se name),
          ef := if lh.eflen ≠ 0 then some lef else none, fcom := none }
        = local_record { lh with fnlen := created_fnlen se name } := rfl
    have hstr : record_strings
        { version_made := 0, version_need := lh.version_need, bitflags := lh.bitflags,
          comp_meth := lh.comp_meth, lmtime := lh.lmtime, lmdate := lh.lmdate, crc := lh.crc,
          comp_size := lh.comp_size, uncomp_size := lh.uncomp_size,
          fnlen := created_fnlen se name, eflen := lh.eflen, fcomlen := 0, disknrstart := 0,
          intatt := 0, extatt := 0, local_offset := 0, fn := some (created_fn se name),
          ef := if lh.eflen ≠ 0 then some lef else none, fcom := none }
        = created_fn se name ++ lef := by
      simp only [record_strings, Option.getD_some, List.take_zero, List.append_nil]
      rw [List.take_of_length_le (le_of_eq hname)]
      by_cases h0 : lh.eflen = 0
      · have : lef = [] := List.length_eq_zero.mp (he.trans h0)
        simp [h0, this]
      · rw [if_pos h0, Option.getD_some, List.take_of_length_le (le_of_eq he)]
    rw [if_pos rfl, hrec, hstr] at hw2
    generalize writecdentry 0 { data := d, err := false, room := none } count
      { version_made := 0, version_need := lh.version_need, bitflags := lh.bitflags,
        comp_meth := lh.comp_meth, lmtime := lh.lmtime, lmdate := lh.lmdate, crc := lh.crc,
        comp_size := lh.comp_size, uncomp_size := lh.uncomp_size,
        fnlen := created_fnlen se name, eflen := lh.eflen, fcomlen := 0, disknrstart := 0,
        intatt := 0, extatt := 0, local_offset := 0, fn := some (created_fn se name),
        ef := if lh.eflen ≠ 0 then some lef else none, fcom := none } true = W at hw1 hw2 ⊢
    rw [hw1, hw2]
    simp only [ne_eq, not_true_eq_false, if_false]
    rw [hcopy se.comp_size W.2.2 _ (le_refl _)]
    simp only [List.append_assoc]
    exact ⟨_, rfl⟩
  obtain ⟨count', hmain⟩ := hmain
  refine ⟨de, count', hmain, hdfn, hdlen, fun fuel c hfuel => hcopy fuel c _ hfuel, ?_⟩
  intro hnone hsefn hselen hnul
  have hcf : created_fn se name = lname := by
    simp only [created_fn, hnone, hsefn]
    exact xstrdup_of_no_nul lname hnul
  have hcl : created_fnlen se name = lh.fnlen := by
    simp only [created_fnlen, hnone, hsefn, hselen]
  have hlh : ({ lh with fnlen := created_fnlen se name } : zf_header) = lh := by
    rw [hcl]
  rw [hcf, hlh, hoff]
  have e1 : pre ++ local_record lh ++ lname ++ lef ++ payload ++ post
      = pre ++ ((local_record lh ++ lname ++ lef ++ payload) ++ post) := by
    simp only [List.append_assoc]
  rw [e1, List.drop_left, List.take_left' (by
    simp only [List.length_append, local_record_length, hn, he, hp, LENTRYSIZE])]
  simp only [List.append_assoc]

/-- C18, counterexample: the entry without a name of the archive
`sample_archive_nameless`, unchanged, copied without a new name. Its local header
agrees with its directory record (`headercomp` returns 0) and the copy succeeds,
but the bytes appended are not the bytes of the source from the local header to
the end of the data: the length of name is 1 and the name `-` is inserted. And
the entry of the archive `sample_archive_nul` whose name is `a`, NUL, `b`,
copied without a new name: its local header agrees with its directory record
and the copy succeeds, but the name of the entry created is the string `a`, of
one byte, with the length of name 3 of the source. -/
theorem C18_name_not_verbatim :
    (sample_zf_nameless.source.entry.get? 0 = some sample_header_nameless
      ∧ (_zip_readcdentry ⟨sample_archive_nameless, 0⟩ [] 0 0 true true).1.map
          (fun r => headercomp sample_header_nameless false r.1 true) = some 0
      ∧ (_zip_entry_copy 0 ⟨⟨[], false, none⟩, []⟩ sample_zf_nameless.source 0 none 0).1 = 0
      ∧ (_zip_entry_copy 0 ⟨⟨[], false, none⟩, []⟩ sample_zf_nameless.source 0 none 0).2.2.1.zp.data
          = sample_local_nameless.take 26 ++ [1, 0, 0, 0, 45, 1, 2, 3]
      ∧ (sample_archive_nameless.drop sample_header_nameless.local_offset).take
            (LENTRYSIZE + sample_header_nameless.fnlen + sample_header_nameless.eflen
              + sample_header_nameless.comp_size)
          = sample_local_nameless
      ∧ (_zip_entry_copy 0 ⟨⟨[], false, none⟩, []⟩ sample_zf_nameless.source 0 none 0).2.2.1.zp.data
          ≠ sample_local_nameless)
    ∧ (sample_zf_nul.source.entry.get? 0 = some sample_header_nul
      ∧ sample_header_nul.fn = some [97, 0, 98]
      ∧ (_zip_readcdentry ⟨sample_archive_nul, 0⟩ [] 0 0 true true).1.map
          (fun r => headercomp sample_header_nul false r.1 true) = some 0
      ∧ (_zip_entry_copy 0 ⟨⟨[], false, none⟩, []⟩ sample_zf_nul.source 0 none 0).1 = 0
      ∧ (_zip_entry_copy 0 ⟨⟨[], false, none⟩, []⟩ sample_zf_nul.source 0 none 0).2.2.1.entry.map
          (fun h => (h.fn, h.fnlen)) = [(some [97], 3)]) := by
  exact ⟨by decide, by decide⟩

/-- C18, amended, at the file `a` of the archive `sample_archive`, copied to an
empty stream without a new name: the copy returns 0 and appends the 34 bytes of
`a` in the archive. -/
theorem C18_zip_entry_copy_verbatim_amended_witness :
    [] ++ local_record sample_header ++ [97] ++ [] ++ [1, 2, 3]
          ++ (sample_local_b ++ sample_central ++ sample_central_b ++ sample_eocd 2 2 94 67)
        = sample_archive
      ∧ ∃ de count',
        _zip_entry_copy 0 ⟨⟨[], false, none⟩, []⟩
            ⟨[] ++ local_record sample_header ++ [97] ++ [] ++ [1, 2, 3]
              ++ (sample_local_b ++ sample_central ++ sample_central_b ++ sample_eocd 2 2 94 67),
              [sample_header, sample_header_b]⟩ 0 none 0
          = (0, none,
              ⟨⟨[] ++ local_record { sample_header with
                    fnlen := created_fnlen sample_header none }
                  ++ created_fn sample_header none ++ [] ++ [1, 2, 3], false, none⟩,
                [] ++ [de]⟩, count')
        ∧ [] ++ local_record { sample_header with fnlen := created_fnlen sample_header none }
              ++ created_fn sample_header none ++ [] ++ [1, 2, 3]
            = sample_local := by
  refine ⟨by decide, ?_⟩
  obtain ⟨de, count', h, _⟩ := C18_zip_entry_copy_verbatim_amended [] [] [] [97] [] [1, 2, 3]
    (sample_local_b ++ sample_central ++ sample_central_b ++ sample_eocd 2 2 94 67)
    sample_header sample_header [sample_header, sample_header_b] 0 none 0 rfl rfl
    (by unfold local_fits; decide) rfl rfl rfl (by decide)
  exact ⟨de, count', h, by decide⟩

/-- `_zip_entry_copy` onto a stream without limit and without error, without
limit of `fwrite`: whatever is read, the entry is created and the stream is
without error afterwards. -/
theorem zip_entry_copy_stream (d : List Nat) (es : List zf_header) (src : zf_source)
    (entry_no : Nat) (name : Option (List Nat)) (count : Nat) (se : zf_header)
    (hget : src.entry.get? entry_no = some se) :
    ∃ r e d' c' de, _zip_entry_copy 0 ⟨⟨d, false, none⟩, es⟩ src entry_no name count
        = (r, e, ⟨⟨d', false, none⟩, es ++ [de]⟩, c')
      ∧ de.fn = some (created_fn se name) ∧ de.fnlen = created_fnlen se name
      ∧ de.comp_size = se.comp_size ∧ de.uncomp_size = se.uncomp_size ∧ de.crc = se.crc
      ∧ de.comp_meth = se.comp_meth := by
  obtain ⟨de, hde, hprops⟩ := zip_create_entry_eq ⟨⟨d, false, none⟩, es⟩ se name
  unfold _zip_entry_copy
  simp only [hget, hde]
  rcases hr : _zip_readcdentry ⟨src.zp, se.local_offset⟩ [] 0 0 true true
    with ⟨_ | ⟨tempzfe, p⟩, fp⟩
  · exact ⟨_, _, _, _, de, rfl, hprops⟩
  · simp only []
    generalize hT : ({ tempzfe with
      fn := some (xstrdup (((es ++ [de]).getLast?.getD se).fn.getD [])),
      fnlen := ((es ++ [de]).getLast?.getD se).fnlen } : zf_header) = T
    obtain ⟨hw1, hw2⟩ := writecdentry_free d count T true
    generalize writecdentry 0 { data := d, err := false, room := none } count T true = W
      at hw1 hw2 ⊢
    have hW : ∃ dd, W.2.1 = ⟨dd, false, none⟩ := ⟨_, hw2⟩
    obtain ⟨dd, hdd⟩ := hW
    rw [hw1, hdd]
    simp only [ne_eq, not_true_eq_false, if_false]
    obtain ⟨r, d', c', hc⟩ := copy_data_stream se.comp_size se.comp_size BUFSIZE fp dd
      false W.2.2
    rw [hc]
    cases r with
    | none => exact ⟨_, _, _, _, de, rfl, hprops⟩
    | some e => exact ⟨_, _, _, _, de, rfl, hprops⟩

/-- The body of the loop of `zip_close` for an entry that is unchanged, renamed,
deleted or added from another archive: nothing is appended for a deleted entry,
and one entry that lists it for any other. -/
theorem close_entry_listed (z : zf) (i : Nat) (e : zf_entry) (s : close_state)
    (d : List Nat) (es : List zf_header) (hs : s.tzf = ⟨⟨d, false, none⟩, es⟩)
    (hi : z.entry.get? i = some e) (hok : staged_ok e) :
    ∃ d' hs', (close_entry 0 z i e s).tzf = ⟨⟨d', false, none⟩, es ++ hs'⟩
      ∧ List.Forall₂ listed_as hs' ([e].filter (fun e => decide (e.state ≠ .Z_DELETED))) := by
  obtain ⟨hstate, nm, hfn, hnul, hlen⟩ := hok
  have hx : xstrdup nm = nm := xstrdup_of_no_nul nm hnul
  have hself : z.source.entry.get? i = some e.tozf_header := by
    simp only [zf.source, List.get?_eq_getElem?, List.getElem?_map] at hi ⊢
    rw [hi]
    rfl
  have hcopy_self : e.state ≠ .Z_ADDED →
      ∃ d' de, (close_copy 0 z.source i none s).tzf = ⟨⟨d', false, none⟩, es ++ [de]⟩
        ∧ listed_as de e := by
    intro hna
    obtain ⟨r, er, d', c', de, hc, h1, h2, h3, h4, h5, h6⟩ :=
      zip_entry_copy_stream d es z.source i none s.count e.tozf_header hself
    refine ⟨d', de, ?_, ?_⟩
    · simp only [close_copy, hs, hc]
    · have hsrc : source_header e = e.tozf_header := by
        unfold source_header
        split
        · rename_i h _
          exact absurd h hna
        · rfl
      have hfn' : e.tozf_header.fn = some nm := hfn
      refine ⟨?_, ?_, ?_, ?_, ?_, ?_⟩
      · rw [h1, hfn]
        simp only [created_fn, hfn', hx]
      · rw [h2, hfn]
        simp only [created_fnlen, hfn', Option.getD_some]
        exact hlen hna
      · rw [h3, hsrc]
      · rw [h4, hsrc]
      · rw [h5, hsrc]
      · rw [h6, hsrc]
  rcases hstate with h | h | h | ⟨h, other, hother, hno⟩
  · obtain ⟨d', de, h1, h2⟩ := hcopy_self (by rw [h]; decide)
    refine ⟨d', [de], ?_, ?_⟩
    · simp only [close_entry, h, h1]
    · simp [h, h2]
  · obtain ⟨d', de, h1, h2⟩ := hcopy_self (by rw [h]; decide)
    refine ⟨d', [de], ?_, ?_⟩
    · simp only [close_entry, h, h1]
    · simp [h, h2]
  · refine ⟨d, [], ?_, ?_⟩
    · simp only [close_entry, h, hs, List.append_nil]
    · simp [h]
  · obtain ⟨se, hse⟩ : ∃ se, other.entry.get? e.ch_data_zf_fileno = some se := by
      rw [List.get?_eq_getElem?, List.getElem?_eq_getElem hno]
      exact ⟨_, rfl⟩
    obtain ⟨r, er, d', c', de, hc, h1, h2, h3, h4, h5, h6⟩ :=
      zip_entry_copy_stream d es other e.ch_data_zf_fileno e.fn s.count se hse
    refine ⟨d', [de], ?_, ?_⟩
    · simp only [close_entry, h, hother, close_copy, hs, hc]
    · have hsrc : source_header e = se := by
        simp only [source_header, h, hother, hse, Option.getD_some]
      have hl : listed_as de e := by
        refine ⟨?_, ?_, ?_, ?_, ?_, ?_⟩
        · rw [h1, hfn]
          simp only [created_fn, hx]
        · rw [h2, hfn]
          simp only [created_fnlen, hx, Option.getD_some]
        · rw [h3, hsrc]
        · rw [h4, hsrc]
        · rw [h5, hsrc]
        · rw [h6, hsrc]
      simp [h, hl]

/-- The loop of `zip_close` over entries that are unchanged, renamed, deleted or
added from another archive: the entries created list those that are not
deleted, in their order. -/
theorem close_loop_listed (z : zf) (l : List zf_entry) :
    ∀ (i : Nat) (s : close_state) (d : List Nat) (es : List zf_header),
      s.tzf = ⟨⟨d, false, none⟩, es⟩ →
      (∀ k e, l.get? k = some e → z.entry.get? (i + k) = some e) →
      (∀ e ∈ l, staged_ok e) →
      ∃ d' hs, (close_loop 0 z l i s).tzf = ⟨⟨d', false, none⟩, es ++ hs⟩
        ∧ List.Forall₂ listed_as hs (l.filter (fun e => decide (e.state ≠ .Z_DELETED))) := by
  induction l with
  | nil =>
    intro i s d es hs _ _
    exact ⟨d, [], by simp [close_loop, hs], by simp⟩
  | cons e rest ih =>
    intro i s d es hs hidx hok
    obtain ⟨d1, hs1, h1, f1⟩ := close_entry_listed z i e s d es hs
      (by simpa using hidx 0 e rfl) (hok e (List.mem_cons_self _ _))
    obtain ⟨d2, hs2, h2, f2⟩ := ih (i + 1) (close_entry 0 z i e s) d1 (es ++ hs1) h1
      (fun k e' hk => by
        have := hidx (k + 1) e' (by simpa using hk)
        rw [← this]
        congr 1
        omega)
      (fun e' he' => hok e' (List.mem_cons_of_mem _ he'))
    refine ⟨d2, hs1 ++ hs2, ?_, ?_⟩
    · simp only [close_loop, h2, List.append_assoc]
    · have : (e :: rest).filter (fun e => decide (e.state ≠ .Z_DELETED))
          = [e].filter (fun e => decide (e.state ≠ .Z_DELETED))
            ++ rest.filter (fun e => decide (e.state ≠ .Z_DELETED)) := by
        rw [← List.filter_append]
        rfl
      rw [this]
      exact List.rel_append f1 f2

/-- The loop of `writecdir` on a stream without limit and without error: the
records with their strings, one after the other. -/
theorem writecdir_entries_free (hs : List zf_header) :
    ∀ (d : List Nat) (c : Nat), ∃ c', writecdir_entries 0 hs ⟨d, false, none⟩ c
      = (0, ⟨d ++ hs.flatMap central_bytes, false, none⟩, c') := by
  induction hs with
  | nil => intro d c; exact ⟨c, by simp [writecdir_entries]⟩
  | cons h rest ih =>
    intro d c
    obtain ⟨hw1, hw2⟩ := writecdentry_free d c h false
    unfold writecdir_entries
    generalize writecdentry 0 { data := d, err := false, room := none } c h false = W
      at hw1 hw2 ⊢
    simp only [hw1, ne_eq, not_true_eq_false, if_false, hw2, Bool.false_eq_true]
    obtain ⟨c', hc'⟩ := ih (d ++ central_record h ++ record_strings h) W.2.2
    refine ⟨c', ?_⟩
    rw [hc']
    simp [central_bytes, List.append_assoc]

/-- `writecdir` on a stream without limit and without error: the directory and
the end record. -/
theorem writecdir_free (d : List Nat) (hs : List zf_header) (com : List Nat) (comlen c : Nat) :
    (writecdir 0 ⟨⟨d, false, none⟩, hs⟩ com comlen c).2.2.1.data
      = d ++ hs.flatMap central_bytes
          ++ end_record hs.length (hs.flatMap central_bytes).length d.length comlen com := by
  obtain ⟨c', hc'⟩ := writecdir_entries_free hs d c
  unfold writecdir
  simp only [hc', ne_eq, not_true_eq_false, if_false, fprintf_free, write2_free, write4_free,
    writestr_free, Option.getD_some, List.length_append, Nat.add_sub_cancel_left]
  simp [end_record, le2, le4, List.append_assoc]

/-- C17, counterexample: the archive of a file without a name and the file `b`,
as `zip_open` returns it, with `b` deleted. `zip_close` succeeds without any
error, and the directory of the new file lists the entry that is kept under the
name `-`, with length of name 1, while its name in the archive is empty (NULL,
length 0). And the archive of a file whose name is `a`, NUL, `b` and the file
`b`, as `zip_open` returns it, with `b` deleted: `zip_close` succeeds without any
error, and the entry of the new archive, from which the directory is written,
has the name `a`, of one byte, and the length of name 3. -/
theorem C17_name_not_carried :
    (zip_open sample_world_nameless.fs (some "old.zip") ⟨false, false, true⟩
        = some (some { sample_zf_nameless with
            entry := [read_entry sample_header_nameless,
              read_entry { sample_header_b with local_offset := 33 }],
            changes := false })
      ∧ (zip_close no_faults sample_zf_nameless sample_world_nameless).1 = 0
      ∧ (zip_close no_faults sample_zf_nameless sample_world_nameless).2.errors = []
      ∧ (zip_close no_faults sample_zf_nameless sample_world_nameless).2.zip_err = none
      ∧ zip_open (zip_close no_faults sample_zf_nameless sample_world_nameless).2.fs
            (some "old.zip") ⟨false, false, true⟩
          = some (some ⟨"old.zip",
              some (sample_local_nameless.take 26 ++ [1, 0, 0, 0, 45, 1, 2, 3]
                ++ sample_central_nameless.take 28 ++ [1, 0] ++ sample_central_nameless.drop 30
                ++ [45] ++ sample_eocd 1 1 47 34),
              [read_entry { sample_header_nameless with fnlen := 1, fn := some [45] }], [], 0,
              47, 34, false⟩))
    ∧ (zip_open sample_world_nul.fs (some "old.zip") ⟨false, false, true⟩
        = some (some { sample_zf_nul with
            entry := [read_entry sample_header_nul,
              read_entry { sample_header_b with local_offset := 36 }],
            changes := false })
      ∧ sample_header_nul.fn = some [97, 0, 98]
      ∧ (zip_close no_faults sample_zf_nul sample_world_nul).1 = 0
      ∧ (zip_close no_faults sample_zf_nul sample_world_nul).2.errors = []
      ∧ (zip_close no_faults sample_zf_nul sample_world_nul).2.zip_err = none
      ∧ (close_loop 0 sample_zf_nul sample_zf_nul.entry 0
            ⟨⟨⟨[], false, none⟩, []⟩, 0, [], none⟩).tzf.entry.map (fun h => (h.fn, h.fnlen))
          = [(some [97], 3)]) := by
  exact ⟨by decide, by decide⟩

/-- C17, amended: `zip_close` without any failure of input or output (no limit
of `fwrite`, no limit of the device, `fdopen`, `fclose` and `rename` succeed) on
an archive with staged changes and fewer than 65536 entries, each of which is
unchanged, renamed, deleted or added from an entry of another archive and has a
name that is a C string of the length of its length field (not NULL, without a
NUL byte). The new file ends with a directory and an end
record: the directory holds one record for each entry that is not deleted, in
the order of the entries; each record carries the name of its entry in full and
the compressed size, the uncompressed size, the CRC and the method of the entry
it stands for; and the count of the end record is their number. -/
theorem C17_zip_close_directory_amended (flt : faults) (z : zf) (w : zip_world)
    (hch : z.changes = true) (hst : z.entry.all (fun e => e.state = .Z_UNCHANGED) = false)
    (hmw : flt.max_write = 0) (hroom : flt.room = none) (hfd : flt.fdopen_fails = false)
    (hfc : flt.fclose_fails = false) (hrn : flt.rename_fails = false)
    (hok : ∀ e ∈ z.entry, staged_ok e) (hlen : z.entry.length < 65536) :
    ∃ body hs,
      (zip_close flt z w).2.fs z.zn
        = some (body ++ hs.flatMap central_bytes
            ++ end_record hs.length (hs.flatMap central_bytes).length body.length z.comlen z.com)
      ∧ List.Forall₂ listed_as hs (z.entry.filter (fun e => decide (e.state ≠ .Z_DELETED)))
      ∧ read2 (le2 hs.length) 0 = hs.length := by
  obtain ⟨d, hs, h1, h2⟩ := close_loop_listed z z.entry 0
    ⟨⟨⟨[], false, none⟩, []⟩, w.count, w.errors, w.zip_err⟩ [] [] rfl
    (fun k e hk => by simpa using hk) hok
  have hlen2 : hs.length < 65536 := by
    have := List.Forall₂.length_eq h2
    have := List.length_filter_le (fun e => decide (e.state ≠ .Z_DELETED)) z.entry
    omega
  refine ⟨d, hs, ?_, by simpa using h2, ?_⟩
  · rw [zip_close_renames flt z w hch hst hfd hfc hrn, hmw, hroom, h1]
    simp only [List.nil_append]
    rw [writecdir_free]
    simp [end_record, List.take_take]
  · simp only [le2, read2, List.getD_cons_succ, List.getD_cons_zero, Nat.shiftLeft_eq]
    omega

/-- C17, amended, at the archive `old.zip` (files `a` and `b`) with `b` deleted:
the directory of the new file has one record, which lists `a`. -/
theorem C17_zip_close_directory_amended_witness :
    ∃ body hs,
      (zip_close no_faults sample_zf sample_world).2.fs "old.zip"
        = some (body ++ hs.flatMap central_bytes
            ++ end_record hs.length (hs.flatMap central_bytes).length body.length 0 [])
      ∧ List.Forall₂ listed_as hs [read_entry sample_header]
      ∧ read2 (le2 hs.length) 0 = hs.length :=
  C17_zip_close_directory_amended no_faults sample_zf sample_world rfl (by decide) rfl rfl rfl
    rfl rfl
    (by
      intro e he
      simp only [sample_zf, List.mem_cons, List.mem_singleton, List.not_mem_nil, or_false] at he
      rcases he with rfl | rfl
      · exact ⟨Or.inl rfl, [97], rfl, by decide, fun _ => rfl⟩
      · exact ⟨Or.inr (Or.inr (Or.inl rfl)), [98], rfl, by decide, fun _ => rfl⟩)
    (by decide)

/-! ## Theorems: file.cc, sizes and `is_mergable` -/

/-- C21, counterexample: the sizes of `a` (100) and `b` (200) are both known and
differ, and `a.compare_size_crc(b)` is true: `b` carries a size and a CRC after
header detection, and the pass with detector compares the size of `a` with that
size (100) and the CRC of `a` with that CRC. -/
theorem C21_detector_size_decides :
    (plain_file "a" 100 (crc_only 1)).is_size_known false = true
      ∧ (detector_file "b" 200 (crc_only 2) 100 (crc_only 1)).is_size_known false = true
      ∧ (plain_file "a" 100 (crc_only 1)).size
          ≠ (detector_file "b" 200 (crc_only 2) 100 (crc_only 1)).size
      ∧ (plain_file "a" 100 (crc_only 1)).compare_size_crc
          (detector_file "b" 200 (crc_only 2) 100 (crc_only 1)) = true := by
  decide

/-- C21, amended: for two files whose sizes are both known and different,
`a.compare_size_crc(b)` is false whatever their hashes, when `b` carries no size
and hashes after header detection or the size of `a` also differs from the size
of `b` after header detection; and when `b` carries a size and hashes after
header detection and the size of `a` is that size, `a.compare_size_crc(b)` is
true exactly when `a` has no hashes, or `a` and the hashes of `b` after
detection both carry a CRC and the two CRCs are equal. -/
theorem C21_size_must_match_amended (a b : File)
    (ha : a.is_size_known false = true) (hb : b.is_size_known false = true)
    (hne : a.size ≠ b.size) :
    (b.size_hashes_are_set true = false ∨ a.size ≠ b.size_detector →
      a.compare_size_crc b = false)
    ∧ (b.size_hashes_are_set true = true → a.size = b.size_detector →
      a.compare_size_crc b
        = (a.hashes.empty
          || (a.hashes.has_crc && b.hashes_detector.has_crc
            && a.hashes.crc == b.hashes_detector.crc))) := by
  have hplain : a.compare_size_crc_one b false = false := by
    rw [compare_size_crc_one_plain, ha, hb]
    simp [hne]
  unfold File.compare_size_crc
  rw [hplain, Bool.false_or]
  constructor
  · intro hdet
    rcases hdet with h | h
    · exact compare_size_crc_one_detector_unset a b h
    · unfold File.compare_size_crc_one
      cases hset : b.size_hashes_are_set true
      · simp
      · have hk : b.is_size_known true = true := by
          simp [File.size_hashes_are_set] at hset; exact hset.1
        simp [ha, hk, File.get_size, h]
  · intro hset heq
    unfold File.compare_size_crc_one
    simp only [hset, Bool.not_true, Bool.and_false, Bool.false_eq_true, if_false,
      File.get_size, File.get_hashes, if_true, heq, bne_self_eq_false, Hashes.has_type]
    generalize a.hashes.empty = p1
    generalize (a.hashes.has_crc && b.hashes_detector.has_crc
      && a.hashes.crc == b.hashes_detector.crc) = p2
    cases p1 <;> cases p2 <;> rfl

/-- C21, amended, at a file of size 100 and a file of size 200 whose size after
header detection is 150: no match, although the CRC after detection agrees; and
with the size 100 after header detection the CRC after detection decides. -/
theorem C21_size_must_match_amended_witness :
    (plain_file "a" 100 (crc_only 1)).compare_size_crc
        (detector_file "b" 200 (crc_only 2) 150 (crc_only 1)) = false
      ∧ (plain_file "a" 100 (crc_only 1)).compare_size_crc
          (detector_file "b" 200 (crc_only 2) 100 (crc_only 3))
        = ((plain_file "a" 100 (crc_only 1)).hashes.empty
          || ((plain_file "a" 100 (crc_only 1)).hashes.has_crc
            && (detector_file "b" 200 (crc_only 2) 100 (crc_only 3)).hashes_detector.has_crc
            && (plain_file "a" 100 (crc_only 1)).hashes.crc
              == (detector_file "b" 200 (crc_only 2) 100 (crc_only 3)).hashes_detector.crc)) :=
  ⟨(C21_size_must_match_amended (plain_file "a" 100 (crc_only 1))
      (detector_file "b" 200 (crc_only 2) 150 (crc_only 1)) (by decide) (by decide)
      (by decide)).1 (Or.inr (by decide)),
    (C21_size_must_match_amended (plain_file "a" 100 (crc_only 1))
      (detector_file "b" 200 (crc_only 2) 100 (crc_only 3)) (by decide) (by decide)
      (by decide)).2 (by decide) (by decide)⟩

/-- C28: `a.is_mergable(b)` is true if and only if the merged name of `a` is the
name of `b` and either both have no hashes at all, or both have at least one
hash and `a.compare_size_crc(b)` is true; it is false whenever exactly one of
the two has no hashes. -/
theorem C28_is_mergable_iff (a b : File) :
    (a.is_mergable b = true ↔
      a.merged_name = b.name
        ∧ ((a.hashes.empty = true ∧ b.hashes.empty = true)
          ∨ (a.hashes.empty = false ∧ b.hashes.empty = false ∧ a.compare_size_crc b = true)))
    ∧ (a.hashes.empty ≠ b.hashes.empty → a.is_mergable b = false) := by
  unfold File.is_mergable
  by_cases hn : a.merged_name = b.name
  · cases ha : a.hashes.empty <;> cases hb : b.hashes.empty <;>
      cases hc : a.compare_size_crc b <;> simp [hn]
  · simp [hn]

/-! ## Theorems: libzip, `headercomp` and `checkcons` -/

/-- The highest end is at least the value it starts from. -/
theorem ends_max_ge (es : List zf_entry) : ∀ (mx : Nat), mx ≤ ends_max es mx := by
  induction es with
  | nil => intro mx; exact le_refl _
  | cons e rest ih =>
    intro mx
    show mx ≤ ends_max rest (if entry_end e > mx then entry_end e else mx)
    refine le_trans ?_ (ih _)
    split_ifs <;> omega

/-- The lowest offset is at most the value it starts from. -/
theorem offsets_min_le (es : List zf_entry) : ∀ (mn : Nat), offsets_min es mn ≤ mn := by
  induction es with
  | nil => intro mn; exact le_refl _
  | cons e rest ih =>
    intro mn
    show offsets_min rest (if e.local_offset < mn then e.local_offset else mn) ≤ mn
    refine le_trans (ih _) ?_
    split_ifs <;> omega

/-- The value of the loop of `checkcons` when the local header of every entry is
read and agrees with its record and no entry ends, with the length of its
comment counted, beyond the start of the directory: the highest such end minus
the lowest local offset. -/
theorem checkcons_loop_value (data : List Nat) (cd : Nat) (es : List zf_entry) :
    ∀ (fp : rfile) (mn mx : Nat) (old : Option zf_header), fp.data = data → mx ≤ cd →
      (∀ e ∈ es, ∃ temp p fp', _zip_readcdentry ⟨data, e.local_offset⟩ [] 0 0 true true
          = (some (temp, p), fp')
        ∧ headercomp e.tozf_header false temp true = 0) →
      (∀ e ∈ es, entry_end e ≤ cd) →
      (checkcons_loop cd es fp mn mx old).1
        = some ((ends_max es mx : Int) - (offsets_min es mn : Int)) := by
  induction es with
  | nil => intro fp mn mx old _ _ _ _; rfl
  | cons e rest ih =>
    intro fp mn mx old hd hmx hag hfit
    have h0 := zip_readcdentry_data { fp with pos := e.local_offset } [] 0 0 true true
    have e1 : ({ fp with pos := e.local_offset } : rfile) = ⟨data, e.local_offset⟩ := by
      rw [← hd]
    rw [e1] at h0
    obtain ⟨temp, p, fp1, hread, hcomp⟩ := hag e (List.mem_cons_self _ _)
    have hfe : entry_end e ≤ cd := hfit e (List.mem_cons_self _ _)
    unfold checkcons_loop
    rw [e1, hread]
    lift_lets
    intro min1 j max1
    have hj : j = entry_end e := rfl
    have hmax1 : max1 = if entry_end e > mx then entry_end e else mx := rfl
    have hmin1 : min1 = if e.local_offset < mn then e.local_offset else mn := rfl
    have hle : max1 ≤ cd := by
      rw [hmax1]; split_ifs <;> omega
    rw [if_neg (by omega)]
    simp only []
    rw [if_neg (by rw [hcomp]; exact fun h => h rfl)]
    rw [hread] at h0
    rw [ih fp1 min1 max1 (some temp) h0 hle (fun e' he' => hag e' (List.mem_cons_of_mem _ he'))
      (fun e' he' => hfit e' (List.mem_cons_of_mem _ he'))]
    rfl

/-- The value of `checkcons` for a directory with at least one entry, when the
local header of every entry is read and agrees with its record and no entry
ends, with the length of its comment counted, beyond the start of the
directory: the highest such end minus the lowest local offset, which is at
least 30. -/
theorem checkcons_value (fp : rfile) (z : zf) (e : zf_entry) (rest : List zf_entry)
    (hz : z.entry = e :: rest)
    (hag : ∀ e ∈ z.entry, ∃ temp p fp',
      _zip_readcdentry ⟨fp.data, e.local_offset⟩ [] 0 0 true true = (some (temp, p), fp')
        ∧ headercomp e.tozf_header false temp true = 0)
    (hfit : ∀ e ∈ z.entry, entry_end e ≤ z.cd_offset) :
    (checkcons fp z).1
        = some ((ends_max z.entry e.local_offset : Int) - (offsets_min z.entry e.local_offset : Int))
      ∧ (30 : Int) ≤ (ends_max z.entry e.local_offset : Int)
          - (offsets_min z.entry e.local_offset : Int) := by
  have hfe : entry_end e ≤ z.cd_offset := hfit e (by rw [hz]; exact List.mem_cons_self _ _)
  have hoff : e.local_offset + 30 ≤ entry_end e := by
    unfold entry_end LENTRYSIZE; omega
  constructor
  · unfold checkcons
    rw [hz] at hag hfit ⊢
    exact checkcons_loop_value fp.data z.cd_offset (e :: rest) fp e.local_offset e.local_offset
      none rfl (by omega) hag hfit
  · rw [hz]
    have h1 : entry_end e ≤ ends_max (e :: rest) e.local_offset := by
      show entry_end e ≤ ends_max rest (if entry_end e > e.local_offset then entry_end e
        else e.local_offset)
      refine le_trans ?_ (ends_max_ge rest _)
      split_ifs <;> omega
    have h2 := offsets_min_le (e :: rest) e.local_offset
    omega

/-- C27: an archive with one entry whose directory record carries a comment of
five bytes. The local header agrees with the record, the local offset is 0, and
header, name and data end at 34, where the directory starts; `checkcons` adds
the length of the comment to the end of the entry, finds 39 beyond the start of
the directory and returns -1, and `zip_open` with `ZIP_CHECKCONS` returns no
archive, while without the flag the archive is opened. -/
theorem C27_checkcons_counts_comment :
    ((_zip_readcdentry ⟨sample_archive_fcom, 0⟩ [] 0 0 true true).1.map
        (fun r => headercomp sample_header_fcom false r.1 true)) = some 0
      ∧ sample_header_fcom.local_offset + 30 + sample_header_fcom.fnlen
          + sample_header_fcom.eflen + sample_header_fcom.comp_size ≤ 34
      ∧ (checkcons ⟨sample_archive_fcom, 0⟩
          ⟨"x.zip", some sample_archive_fcom, [read_entry sample_header_fcom], [], 0, 52, 34,
            false⟩).1 = some (-1)
      ∧ zip_open (fun _ => some sample_archive_fcom) (some "x.zip") ⟨false, false, true⟩
          = some none
      ∧ ((zip_open (fun _ => some sample_archive_fcom) (some "x.zip")
          ⟨false, false, false⟩).bind id).map (fun z => z.entry)
          = some [read_entry sample_header_fcom] := by
  decide

/-! ## Theorems: fix_util.c, `copy_file` -/

/-- The inner loop of `copy_file` for one complete item: one byte is written. -/
theorem copy_file_write_one (flt : copy_faults) (b : List Nat) (s : List Nat × Nat) :
    copy_file_write flt b 1 1 0 s
      = if flt.fwrite_fails s.2 then none else some (s.1 ++ b.take 1, s.2 + 1) := by
  simp [copy_file_write]

/-- `fread` of one item of 8192 bytes where that many bytes are left. -/
theorem fread_item_full (data : List Nat) (pos : Nat) (h : pos + 8192 ≤ data.length) :
    fread_item data pos 8192 = ((data.drop pos).take 8192, 1, pos + 8192) := by
  have hl : ((data.drop pos).take 8192).length = 8192 := by
    rw [List.length_take, List.length_drop]; omega
  unfold fread_item
  simp only [hl, if_true]

/-- `fread` of one item of 8192 bytes where fewer bytes are left returns 0. -/
theorem fread_item_short (data : List Nat) (pos : Nat) (h : data.length < pos + 8192) :
    (fread_item data pos 8192).2.1 = 0 := by
  have hl : ((data.drop pos).take 8192).length ≠ 8192 := by
    rw [List.length_take, List.length_drop]; omega
  unfold fread_item
  simp only [hl, if_false]

/-- The outer loop of `copy_file` ends within one round more than there are
complete items left in the old file. -/
theorem copy_file_loop_returns (flt : copy_faults) (data : List Nat) :
    ∀ (fuel pos : Nat) (s : List Nat × Nat), (data.length - pos) / 8192 < fuel →
      copy_file_loop flt data fuel pos s ≠ none := by
  intro fuel
  induction fuel with
  | zero => intro pos s h; omega
  | succ fuel ih =>
    intro pos s h
    unfold copy_file_loop
    by_cases hfull : pos + 8192 ≤ data.length
    · rw [fread_item_full data pos hfull]
      simp only [gt_iff_lt, zero_lt_one, if_true]
      rw [copy_file_write_one]
      by_cases hw : flt.fwrite_fails s.2 = true
      · simp [hw]
      · simp only [hw, Bool.false_eq_true, if_false]
        apply ih
        have h3 : (data.length - (pos + 8192)) / 8192 + 1 = (data.length - pos) / 8192 := by
          rw [← Nat.add_div_right _ (by norm_num : 0 < 8192)]
          congr 1; omega
        omega
    · have h0 := fread_item_short data pos (by omega)
      simp only [h0, gt_iff_lt, lt_self_iff_false, if_false]
      simp

/-- The number of bytes `copy_file` has written when its loop ends: one for
every complete item of 8192 bytes that was left in the old file. -/
theorem copy_file_loop_length (flt : copy_faults) (data : List Nat) :
    ∀ (fuel pos : Nat) (s r : List Nat × Nat),
      copy_file_loop flt data fuel pos s = some (some r) →
      r.1.length = s.1.length + (data.length - pos) / 8192 := by
  intro fuel
  induction fuel with
  | zero => intro pos s r h; simp [copy_file_loop] at h
  | succ fuel ih =>
    intro pos s r h
    unfold copy_file_loop at h
    by_cases hfull : pos + 8192 ≤ data.length
    · rw [fread_item_full data pos hfull] at h
      simp only [gt_iff_lt, zero_lt_one, if_true] at h
      rw [copy_file_write_one] at h
      by_cases hw : flt.fwrite_fails s.2 = true
      · simp [hw] at h
      · simp only [hw, Bool.false_eq_true, if_false] at h
        have h1 := ih _ _ _ h
        have hlen : (((List.drop pos data).take 8192).take 1).length = 1 := by
          simp only [List.length_take, List.length_drop]; omega
        simp only [List.length_append, hlen] at h1
        have h3 : (data.length - (pos + 8192)) / 8192 + 1 = (data.length - pos) / 8192 := by
          rw [← Nat.add_div_right _ (by norm_num : 0 < 8192)]
          congr 1; omega
        omega
    · have h0 := fread_item_short data pos (by omega)
      simp only [h0, gt_iff_lt, lt_self_iff_false, if_false, Option.some.injEq] at h
      subst h
      have : (data.length - pos) / 8192 = 0 := by
        apply Nat.div_eq_of_lt; omega
      omega

/-- The call `copy_file` returns, whatever the files and whatever goes wrong. -/
theorem copy_file_returns (flt : copy_faults) (old new : String)
    (fs : String → Option (List Nat)) : copy_file flt old new fs ≠ none := by
  unfold copy_file
  cases fs old with
  | none => simp
  | some d =>
    simp only []
    by_cases h1 : flt.fopen_fails new = true
    · simp [h1]
    · rw [if_neg h1]
      generalize (if old = new then [] else d) = data
      have hl := copy_file_loop_returns flt data (data.length / 8192 + 1) 0 ([], 0) (by simp)
      rcases hc : copy_file_loop flt data (data.length / 8192 + 1) 0 ([], 0) with _ | _ | s
      · exact absurd hc hl
      · simp
      · simp only []
        split_ifs <;> simp

/-- When `copy_file` returns 0, the new file holds one byte for every complete
8192 bytes of the old file: a new file as long as the old one is an empty
file. -/
theorem copy_file_length (flt : copy_faults) (old new : String)
    (fs fs1 : String → Option (List Nat)) (d : List Nat) (hold : fs old = some d)
    (hne : old ≠ new) (h : copy_file flt old new fs = some (0, fs1)) :
    ∃ out, fs1 new = some out ∧ out.length = d.length / 8192 := by
  unfold copy_file at h
  simp only [hold, hne, if_false] at h
  by_cases h1 : flt.fopen_fails new = true
  · simp [h1] at h
  · rw [if_neg h1] at h
    rcases hc : copy_file_loop flt d (d.length / 8192 + 1) 0 ([], 0) with _ | _ | s
    · rw [hc] at h; simp at h
    · rw [hc] at h; simp at h
    · rw [hc] at h
      simp only [] at h
      by_cases h2 : flt.fclose_fails = true ∨ flt.ferror_fin = true
      · rw [if_pos h2] at h; simp at h
      · rw [if_neg h2] at h
        simp only [Option.some.injEq, Prod.mk.injEq, true_and] at h
        subst h
        refine ⟨s.1, by simp [fs_set], ?_⟩
        have := copy_file_loop_length flt d _ _ _ _ hc
        simpa using this

/-- C29: a file `old` of five bytes and nothing going wrong. `copy_file` returns
0 and the new file is empty: `fread(b, sizeof(b), 1, fin)` returns the number of
complete items of 8192 bytes, which is 0 for the five bytes. `rename_or_move`,
when `rename` fails, returns 0 with the new file empty and the old file removed,
and `link_or_copy`, when `link` fails, returns 0 with the new file empty. -/
theorem C29_copy_file_drops_content :
    (copy_file (no_copy_faults false false) "old" "new" sample_files).map
        (fun r => (r.1, r.2 "old", r.2 "new")) = some ((0 : Int), some [1, 2, 3, 4, 5], some [])
      ∧ (rename_or_move (no_copy_faults true false) "old" "new" sample_files).map
        (fun r => (r.1, r.2 "old", r.2 "new")) = some ((0 : Int), none, some [])
      ∧ (link_or_copy (no_copy_faults false true) "old" "new" sample_files).map
        (fun r => (r.1, r.2 "old", r.2 "new")) = some ((0 : Int), some [1, 2, 3, 4, 5], some []) := by
  exact ⟨by decide, by decide, by decide⟩

/-! ## Theorems: fix_util.c, names for garbage and for needed files -/

/-- A name the loop of `make_unique_name` returns is the name of no file. -/
theorem make_unique_name_loop_absent (absent : List Char → Bool) (ext ret : List Char) :
    ∀ (n i : Nat) (p : List Char), make_unique_name_loop absent ext ret n i = some p →
      absent p = true := by
  intro n
  induction n with
  | zero => intro i p h; simp [make_unique_name_loop] at h
  | succ n ih =>
    intro i p h
    unfold make_unique_name_loop at h
    dsimp only at h
    generalize (ret ++ ['-'] ++ fmt_03d i ++ (if ext ≠ [] then ['.'] else []) ++ ext) = nm at h
    by_cases h1 : absent nm = true
    · rw [if_pos h1] at h
      simp only [Option.some.injEq] at h; subst h; exact h1
    · rw [if_neg h1] at h
      exact ih _ _ h

/-- With `unique` set, a name `make_garbage_name` returns is the name of no
file. -/
theorem make_garbage_name_absent (unknown_dir : List Char) (absent : List Char → Bool)
    (name p : List Char) (h : make_garbage_name unknown_dir absent name true = some p) :
    absent p = true := by
  unfold make_garbage_name at h
  simp only [Bool.true_and] at h
  by_cases ha : absent (unknown_dir ++ ['/'] ++ mybasename name) = true
  · simp only [ha, Bool.not_true, Bool.false_eq_true, if_false, Option.some.injEq] at h
    subst h; exact ha
  · simp only [ha, Bool.not_false, if_true, make_unique_name] at h
    split_ifs at h
    exact make_unique_name_loop_absent _ _ _ _ _ _ h

/-- C23: with `unknown_dir` set to `./unknown` and a file `./unknown/foo.zip`
that exists, `make_garbage_name("roms/foo.zip", 1)` returns
`-000./unknown/foo.zip`, which does not start with `./unknown/`; with `my.dir`
it returns `my-000.dir/foo.zip`. The name is cut at the first `.` of the whole
path, which lies in the directory. With the directory `unknown` the name is
`unknown/foo-000.zip`. -/
theorem C23_garbage_name_cut_at_first_dot :
    make_garbage_name "./unknown".toList (only_file "./unknown/foo.zip")
        "roms/foo.zip".toList true = some "-000./unknown/foo.zip".toList
      ∧ "./unknown/".toList.isPrefixOf "-000./unknown/foo.zip".toList = false
      ∧ make_garbage_name "my.dir".toList (only_file "my.dir/foo.zip")
        "roms/foo.zip".toList true = some "my-000.dir/foo.zip".toList
      ∧ "my.dir/".toList.isPrefixOf "my-000.dir/foo.zip".toList = false
      ∧ make_garbage_name "unknown".toList (only_file "unknown/foo.zip")
        "roms/foo.zip".toList true = some "unknown/foo-000.zip".toList := by
  exact ⟨by decide, by decide, by decide, by decide, by decide⟩

/-- C24: `save_needed` calls `archive_file_delete` only after `archive_file_copy`
and `archive_commit` have both returned a value that is not negative, as its
last call, and returns what that call returns; when the needed name cannot be
made, the needed archive cannot be created, the copy fails or the commit fails,
it returns -1, `archive_file_delete` is not called and the changes staged in the
source archive are what they were. -/
theorem C24_save_needed_delete_after_commit {ω α : Type} (env : needed_env ω α) (sidx : Nat)
    (do_save : Bool) (s : needed_state ω) :
    (∀ d, needed_call.archive_file_delete d ∈ (save_needed env sidx do_save s).2.2 →
      ∃ c m, 0 ≤ c ∧ 0 ≤ m
        ∧ (save_needed env sidx do_save s).2.2
          = [.archive_file_copy c, .archive_commit m, .archive_file_delete d]
        ∧ (save_needed env sidx do_save s).1 = d)
    ∧ (save_fails env sidx do_save s →
      (save_needed env sidx do_save s).1 = -1
        ∧ (save_needed env sidx do_save s).2.1.sa_staged = s.sa_staged
        ∧ ∀ d, needed_call.archive_file_delete d ∉ (save_needed env sidx do_save s).2.2)
    ∧ (¬ save_fails env sidx do_save s →
      ∃ d, needed_call.archive_file_delete d ∈ (save_needed env sidx do_save s).2.2) := by
  unfold save_needed save_fails
  cases hn : env.make_needed_name sidx s.world with
  | none => simp
  | some tmp =>
    rcases ha : env.archive_new tmp do_save s.world with ⟨_ | da, w1⟩
    · simp [ha]
    · simp only [ha]
      by_cases hc : (env.archive_file_copy sidx da w1).1 < 0
      · simp [hc]
      · by_cases hm : (env.archive_commit da (env.archive_file_copy sidx da w1).2).1 < 0
        · simp [hc, hm]
        · simp only [hc, hm, if_false, or_self, false_implies, true_and, not_false_eq_true,
            true_implies]
          constructor
          · intro d hd
            simp only [List.mem_cons, needed_call.archive_file_delete.injEq, List.mem_singleton,
              List.not_mem_nil, or_false, false_or, reduceCtorEq] at hd
            subst hd
            exact ⟨_, _, not_lt.mp hc, not_lt.mp hm, rfl, rfl⟩
          · exact ⟨_, List.mem_cons_of_mem _ (List.mem_cons_of_mem _ (List.mem_singleton.mpr rfl))⟩

/-- C24 at a commit that fails: -1 is returned and nothing is staged in the
source archive. -/
theorem C24_save_needed_delete_after_commit_witness :
    (save_needed (sample_needed_env 0 (-1)) 0 true ⟨[], []⟩).1 = -1
      ∧ (save_needed (sample_needed_env 0 (-1)) 0 true ⟨[], []⟩).2.1.sa_staged = [] :=
  ⟨((C24_save_needed_delete_after_commit (sample_needed_env 0 (-1)) 0 true ⟨[], []⟩).2.1
      (by simp [save_fails, sample_needed_env])).1,
    ((C24_save_needed_delete_after_commit (sample_needed_env 0 (-1)) 0 true ⟨[], []⟩).2.1
      (by simp [save_fails, sample_needed_env])).2.1⟩

/-! ## Theorems: util2.c, `my_zip_rename` -/

/-- `zip_name_locate` finds nothing exactly when no entry has the name. -/
theorem zip_name_locate_none (za : List String) (name : String) :
    zip_name_locate za name = none ↔ name ∉ za := by
  induction za with
  | nil => simp [zip_name_locate]
  | cons n rest ih =>
    unfold zip_name_locate
    by_cases h : n = name
    · simp [h]
    · simp only [h, if_false, Option.map_eq_none', ih, List.mem_cons, not_or]
      constructor
      · intro h1; exact ⟨fun e => h e.symm, h1⟩
      · intro h1; exact h1.2

/-- The entry `zip_name_locate` finds has the name. -/
theorem zip_name_locate_some (za : List String) (name : String) :
    ∀ i, zip_name_locate za name = some i → za[i]? = some name := by
  induction za with
  | nil => intro i h; simp [zip_name_locate] at h
  | cons n rest ih =>
    intro i h
    unfold zip_name_locate at h
    by_cases e : n = name
    · simp only [e, if_true, Option.some.injEq] at h
      subst h; simp [e]
    · simp only [e, if_false, Option.map_eq_some'] at h
      obtain ⟨j, hj, rfl⟩ := h
      simpa using ih j hj

/-- The name a `RENAME_STRING` gives is 20 characters longer than the name. -/
theorem RENAME_STRING_length (name : String) (k : Nat) :
    (RENAME_STRING name k).length = name.length + 20 := by
  simp [RENAME_STRING, String.length_append]
  rfl

/-- The name a `RENAME_STRING` gives is not the name itself. -/
theorem RENAME_STRING_ne (name : String) (k : Nat) : RENAME_STRING name k ≠ name := by
  intro h
  have := RENAME_STRING_length name k
  rw [h] at this
  omega

/-- Renaming onto a name that the entry `idx2` holds, from another entry, fails
with `ZIP_ER_EXISTS`. -/
theorem zip_rename_exists (refuses : Nat → String → Bool) (za : List String) (idx idx2 : Nat)
    (name : String) (hidx : idx < za.length) (hne : idx ≠ idx2)
    (hold : ∀ j, za[j]? = some name ↔ j = idx2) :
    zip_rename refuses za idx name = (some .ZIP_ER_EXISTS, za) := by
  unfold zip_rename
  rw [if_neg (by omega)]
  cases hl : zip_name_locate za name with
  | none =>
    exfalso
    have := (zip_name_locate_none za name).mp hl
    exact this (List.mem_iff_getElem?.mpr ⟨idx2, (hold idx2).mpr rfl⟩)
  | some i =>
    have : i = idx2 := (hold i).mp (zip_name_locate_some za name i hl)
    subst this
    simp only []
    rw [if_pos (fun e => hne e.symm)]

/-- Renaming the entry `idx2`, which holds `name`, to a name that is taken fails
with `ZIP_ER_EXISTS`. -/
theorem zip_rename_taken (refuses : Nat → String → Bool) (za : List String) (idx2 k : Nat)
    (name : String) (hold : ∀ j, za[j]? = some name ↔ j = idx2)
    (hk : RENAME_STRING name k ∈ za) :
    zip_rename refuses za idx2 (RENAME_STRING name k) = (some .ZIP_ER_EXISTS, za) := by
  have h2 : za[idx2]? = some name := (hold idx2).mpr rfl
  have hlt : idx2 < za.length := by
    by_contra hc
    rw [List.getElem?_eq_none (by omega)] at h2
    cases h2
  unfold zip_rename
  rw [if_neg (by omega)]
  cases hl : zip_name_locate za (RENAME_STRING name k) with
  | none => exact absurd hk ((zip_name_locate_none za _).mp hl)
  | some i =>
    have hi := zip_name_locate_some za _ i hl
    have : i ≠ idx2 := by
      intro e
      rw [e, h2] at hi
      exact RENAME_STRING_ne name k (Option.some.inj hi).symm
    simp only []
    rw [if_pos this]

/-- Renaming an entry to a name that no entry has. -/
theorem zip_rename_free (refuses : Nat → String → Bool) (za : List String) (i : Nat)
    (name : String) (hi : i < za.length) (hfree : name ∉ za) :
    zip_rename refuses za i name
      = if refuses i name = true then (some .ZIP_ER_OTHER, za) else (none, za.set i name) := by
  unfold zip_rename
  rw [if_neg (by omega), (zip_name_locate_none za name).mpr hfree]

/-- After the entry that held `name` got another name, no entry has `name`. -/
theorem name_free_after (za : List String) (idx2 k : Nat) (name : String)
    (hold : ∀ j, za[j]? = some name ↔ j = idx2) :
    name ∉ za.set idx2 (RENAME_STRING name k) := by
  intro hmem
  obtain ⟨j, hj⟩ := List.mem_iff_getElem?.mp hmem
  by_cases e : idx2 = j
  · subst e
    have h2 : za[idx2]? = some name := (hold idx2).mpr rfl
    have hlt : idx2 < za.length := by
      by_contra hc
      rw [List.getElem?_eq_none (by omega)] at h2
      cases h2
    rw [List.getElem?_set_self hlt] at hj
    exact RENAME_STRING_ne name k (Option.some.inj hj)
  · rw [List.getElem?_set_ne e] at hj
    exact e ((hold j).mp hj).symm

/-- The loop of `my_zip_rename` when the names with the numbers from `t` up to
`k` are taken and the name with the number `k` is free. -/
theorem my_zip_rename_loop_free (refuses : Nat → String → Bool) (za : List String)
    (idx idx2 : Nat) (name : String) (hidx : idx < za.length)
    (hold : ∀ j, za[j]? = some name ↔ j = idx2) (k : Nat)
    (hfree : RENAME_STRING name k ∉ za) :
    ∀ (n t : Nat), t ≤ k → k < t + n → (∀ j, t ≤ j → j < k → RENAME_STRING name j ∈ za) →
      my_zip_rename_loop refuses idx idx2 name n t za
        = if refuses idx2 (RENAME_STRING name k) = true then (-1, za)
          else if refuses idx name = true then (-1, za.set idx2 (RENAME_STRING name k))
          else (0, (za.set idx2 (RENAME_STRING name k)).set idx name) := by
  have h2 : za[idx2]? = some name := (hold idx2).mpr rfl
  have hlt : idx2 < za.length := by
    by_contra hc
    rw [List.getElem?_eq_none (by omega)] at h2
    cases h2
  intro n
  induction n with
  | zero => intro t h1 h2; omega
  | succ n ih =>
    intro t h1 h3 htaken
    unfold my_zip_rename_loop
    by_cases e : t = k
    · subst e
      simp only []
      rw [zip_rename_free refuses za idx2 _ hlt hfree]
      by_cases r1 : refuses idx2 (RENAME_STRING name t) = true
      · simp [r1]
      · simp only [r1, Bool.false_eq_true, if_false]
        rw [zip_rename_free refuses _ idx name (by rw [List.length_set]; exact hidx)
          (name_free_after za idx2 t name hold)]
        by_cases r2 : refuses idx name = true
        · simp [r2]
        · simp [r2]
    · simp only []
      rw [zip_rename_taken refuses za idx2 t name hold (htaken t (le_refl _) (by omega))]
      simp only [ne_eq, not_true_eq_false, if_false]
      exact ih (t + 1) (by omega) (by omega) (fun j hj1 hj2 => htaken j (by omega) hj2)

/-- The loop of `my_zip_rename` when all the names it tries are taken. -/
theorem my_zip_rename_loop_taken (refuses : Nat → String → Bool) (za : List String)
    (idx idx2 : Nat) (name : String) (hold : ∀ j, za[j]? = some name ↔ j = idx2) :
    ∀ (n t : Nat), (∀ j, t ≤ j → j < t + n → RENAME_STRING name j ∈ za) →
      my_zip_rename_loop refuses idx idx2 name n t za = (-1, za) := by
  intro n
  induction n with
  | zero => intro t _; rfl
  | succ n ih =>
    intro t htaken
    unfold my_zip_rename_loop
    simp only []
    rw [zip_rename_taken refuses za idx2 t name hold (htaken t (le_refl _) (by omega))]
    simp only [ne_eq, not_true_eq_false, if_false]
    exact ih (t + 1) (fun j hj1 hj2 => htaken j (by omega) (by omega))

/-- The call `my_zip_rename` onto a name that the entry `idx2` holds goes into
the loop with that entry. -/
theorem my_zip_rename_enters (refuses : Nat → String → Bool) (za : List String)
    (idx idx2 : Nat) (name : String) (hidx : idx < za.length) (hne : idx ≠ idx2)
    (hold : ∀ j, za[j]? = some name ↔ j = idx2) :
    my_zip_rename refuses za idx name = my_zip_rename_loop refuses idx idx2 name 10 0 za := by
  unfold my_zip_rename
  rw [zip_rename_exists refuses za idx idx2 name hidx hne hold]
  simp only [ne_eq, not_true_eq_false, if_false]
  cases hl : zip_name_locate za name with
  | none =>
    exfalso
    exact (zip_name_locate_none za name).mp hl
      (List.mem_iff_getElem?.mpr ⟨idx2, (hold idx2).mpr rfl⟩)
  | some i =>
    have : i = idx2 := (hold i).mp (zip_name_locate_some za name i hl)
    subst this
    rfl

/-- C22: an archive in which the entry `idx2`, and no other, holds `name`, and
another entry `idx`. When the names `name_renamed_by_ckmame_j` are taken for
the numbers below `k` and free for `k`, a number below 10, `my_zip_rename`
renames `idx2` to the name with the number `k` and then `idx` to `name` and
returns 0: the archive has as many entries as before and the other entries
have their names. When a rename fails for another reason than a name that is
taken, it returns -1 and `idx` has the name it had. When all ten names are
taken it returns -1 and the archive is as it was. -/
theorem C22_my_zip_rename_relocates (refuses : Nat → String → Bool) (za : List String)
    (idx idx2 : Nat) (name : String) (hidx : idx < za.length) (hne : idx ≠ idx2)
    (hold : ∀ j, za[j]? = some name ↔ j = idx2) :
    (∀ k, k < 10 → (∀ j, j < k → RENAME_STRING name j ∈ za) → RENAME_STRING name k ∉ za →
      (refuses idx2 (RENAME_STRING name k) = false → refuses idx name = false →
        my_zip_rename refuses za idx name
            = (0, (za.set idx2 (RENAME_STRING name k)).set idx name)
          ∧ ((za.set idx2 (RENAME_STRING name k)).set idx name).length = za.length
          ∧ ((za.set idx2 (RENAME_STRING name k)).set idx name)[idx]? = some name
          ∧ ((za.set idx2 (RENAME_STRING name k)).set idx name)[idx2]?
              = some (RENAME_STRING name k)
          ∧ ∀ j, j ≠ idx → j ≠ idx2 →
              ((za.set idx2 (RENAME_STRING name k)).set idx name)[j]? = za[j]?)
      ∧ (refuses idx2 (RENAME_STRING name k) = true →
        my_zip_rename refuses za idx name = (-1, za))
      ∧ (refuses idx2 (RENAME_STRING name k) = false → refuses idx name = true →
        my_zip_rename refuses za idx name = (-1, za.set idx2 (RENAME_STRING name k))
          ∧ (za.set idx2 (RENAME_STRING name k))[idx]? = za[idx]?))
    ∧ ((∀ k, k < 10 → RENAME_STRING name k ∈ za) →
      my_zip_rename refuses za idx name = (-1, za)) := by
  have h2 : za[idx2]? = some name := (hold idx2).mpr rfl
  have hlt : idx2 < za.length := by
    by_contra hc
    rw [List.getElem?_eq_none (by omega)] at h2
    cases h2
  rw [my_zip_rename_enters refuses za idx idx2 name hidx hne hold]
  constructor
  · intro k hk htaken hfree
    rw [my_zip_rename_loop_free refuses za idx idx2 name hidx hold k hfree 10 0 (by omega)
      (by omega) (fun j _ hj => htaken j hj)]
    refine ⟨?_, ?_, ?_⟩
    · intro r1 r2
      refine ⟨by simp [r1, r2], by simp, ?_, ?_, ?_⟩
      · rw [List.getElem?_set_self (by rw [List.length_set]; exact hidx)]
      · rw [List.getElem?_set_ne hne, List.getElem?_set_self hlt]
      · intro j hj1 hj2
        rw [List.getElem?_set_ne (fun e => hj1 e.symm), List.getElem?_set_ne (fun e => hj2 e.symm)]
    · intro r1; simp [r1]
    · intro r1 r2
      refine ⟨by simp [r1, r2], ?_⟩
      rw [List.getElem?_set_ne (fun e => hne e.symm)]
  · intro htaken
    exact my_zip_rename_loop_taken refuses za idx idx2 name hold 10 0
      (fun j _ hj => htaken j (by omega))

/-- C22 at the archive of `a.rom` and `b.rom`, with `a.rom` renamed to `b.rom`:
`b.rom` becomes `b.rom_renamed_by_ckmame_0`. -/
theorem C22_my_zip_rename_relocates_witness :
    my_zip_rename (fun _ _ => false) ["a.rom", "b.rom"] 0 "b.rom"
      = (0, (["a.rom", "b.rom"].set 1 (RENAME_STRING "b.rom" 0)).set 0 "b.rom") :=
  (((C22_my_zip_rename_relocates (fun _ _ => false) ["a.rom", "b.rom"] 0 1 "b.rom" (by decide)
    (by decide)
    (by
      intro j
      match j with
      | 0 => decide
      | 1 => decide
      | j + 2 => simp)).1 0 (by decide) (fun j hj => absurd hj (Nat.not_lt_zero j))
    (by decide)).1 rfl rfl).1

/-! ## Theorems: tree.cc, `tree_recheck_games_needing` -/

/-- The number at offset `p` of a buffer does not depend on what follows the
bytes it is read from. -/
theorem GET_UINT32_append (a c : List Nat) (p : Nat) (h : p + 3 < a.length) :
    GET_UINT32 (a ++ c) p = GET_UINT32 a p := by
  unfold GET_UINT32
  simp only [List.getD_eq_getElem?_getD]
  rw [List.getElem?_append_left (by omega), List.getElem?_append_left (by omega),
    List.getElem?_append_left (by omega), List.getElem?_append_left (by omega)]

/-- The file `sample_chd_v4`: the number 4 read from the file is used as an index
into the table of four entries, whatever the buffer held. -/
theorem read_header_sample_v4 (stack : List Nat) :
    read_header stack sample_chd_v4 = .index_out_of_range 4 := by
  have hl : sample_chd_v4.length = 108 := by decide
  have h12 : (sample_chd_v4.take TAG_AND_LEN).length = 12 := by decide
  have h108 : (sample_chd_v4.take 108).length = 108 := by decide
  unfold read_header
  rw [if_neg (by rw [hl]; decide)]
  lift_lets
  intro b len b2 hdr version
  have hb : b.take TAG_LEN = TAG := by
    show ((sample_chd_v4.take TAG_AND_LEN) ++ _).take TAG_LEN = TAG
    rw [List.take_append_of_le_length (by rw [h12]; decide)]
    decide
  have hlen : len = 108 := by
    show GET_UINT32 ((sample_chd_v4.take TAG_AND_LEN) ++ _) TAG_LEN = 108
    rw [GET_UINT32_append _ _ _ (by rw [h12]; decide)]
    decide
  have hv : version = 4 := by
    show GET_UINT32 ((sample_chd_v4.take len) ++ _) TAG_AND_LEN = 4
    rw [hlen, GET_UINT32_append _ _ _ (by rw [h108]; decide)]
    decide
  have hi : GET_UINT32 b2 20 = 4 := by
    show GET_UINT32 ((sample_chd_v4.take len) ++ _) 20 = 4
    rw [hlen, GET_UINT32_append _ _ _ (by rw [h108]; decide)]
    decide
  rw [if_neg (by rw [hb]; exact fun h => h rfl)]
  rw [if_neg (by rw [hlen]; decide), if_neg (by rw [hlen, hl]; decide)]
  rw [if_neg (by rw [hv]; decide), if_neg (by rw [hv]; decide)]
  unfold read_header_v4
  simp only [hi]
  rfl

/-- The file `sample_chd_v5`: the number of hunks is computed with a hunk length
of 0, whatever the buffer held. -/
theorem read_header_sample_v5 (stack : List Nat) :
    read_header stack sample_chd_v5 = .division_by_zero := by
  have hl : sample_chd_v5.length = 124 := by decide
  have h12 : (sample_chd_v5.take TAG_AND_LEN).length = 12 := by decide
  have h124 : (sample_chd_v5.take 124).length = 124 := by decide
  unfold read_header
  rw [if_neg (by rw [hl]; decide)]
  lift_lets
  intro b len b2 hdr version
  have hb : b.take TAG_LEN = TAG := by
    show ((sample_chd_v5.take TAG_AND_LEN) ++ _).take TAG_LEN = TAG
    rw [List.take_append_of_le_length (by rw [h12]; decide)]
    decide
  have hlen : len = 124 := by
    show GET_UINT32 ((sample_chd_v5.take TAG_AND_LEN) ++ _) TAG_LEN = 124
    rw [GET_UINT32_append _ _ _ (by rw [h12]; decide)]
    decide
  have hv : version = 5 := by
    show GET_UINT32 ((sample_chd_v5.take len) ++ _) TAG_AND_LEN = 5
    rw [hlen, GET_UINT32_append _ _ _ (by rw [h124]; decide)]
    decide
  have hh : GET_UINT32 b2 (TAG_AND_LEN + 4 + 40) = 0 := by
    show GET_UINT32 ((sample_chd_v5.take len) ++ _) (TAG_AND_LEN + 4 + 40) = 0
    rw [hlen, GET_UINT32_append _ _ _ (by rw [h124]; decide)]
    decide
  have hd : hdr = 124 := hlen
  rw [if_neg (by rw [hb]; exact fun h => h rfl)]
  rw [if_neg (by rw [hlen]; decide), if_neg (by rw [hlen, hl]; decide)]
  rw [if_neg (by rw [hv]; decide), if_pos (by rw [hv])]
  unfold read_header_v5
  rw [if_neg (by rw [hd]; decide)]
  simp only [hh, if_true]

/-- A header `read_header_v5` returns has version 5 and a hunk length that is not
0. -/
theorem read_header_v5_returns (header : List Nat) (hdr_length : Nat) (h : chd_header)
    (hr : read_header_v5 header hdr_length = .returns h) :
    h.version = 5 ∧ 0 < h.hunk_len ∧ HEADER_LEN_V5 ≤ hdr_length := by
  unfold read_header_v5 at hr
  lift_lets at hr
  extract_lets p compressors total_len map_offset meta_offset hunk_len total_hunks raw_sha1 sha1
    parent parent_sha1 at hr
  by_cases h1 : hdr_length < HEADER_LEN_V5
  · rw [if_pos h1] at hr; cases hr
  · rw [if_neg h1] at hr
    by_cases h2 : hunk_len = 0
    · rw [if_pos h2] at hr; cases hr
    · rw [if_neg h2] at hr
      injection hr with hr
      subst hr
      exact ⟨rfl, Nat.pos_of_ne_zero h2, not_lt.mp h1⟩

/-- A header `read_header_v4` returns has the version given, and the index into
`v4_compressors` was below 4. -/
theorem read_header_v4_returns (b : List Nat) (hdr_length version : Nat) (h : chd_header)
    (hr : read_header_v4 b hdr_length version = .returns h) :
    h.version = version ∧ GET_UINT32 b 20 < 4 := by
  unfold read_header_v4 at hr
  lift_lets at hr
  extract_lets flags i at hr
  cases hc : v4_compressors[i]? with
  | none => rw [hc] at hr; cases hr
  | some c =>
    rw [hc] at hr
    have hi : i < 4 := by
      by_contra hcon
      have : v4_compressors[i]? = none := List.getElem?_eq_none (by
        show v4_compressors.length ≤ i
        have : v4_compressors.length = 4 := rfl
        omega)
      rw [this] at hc
      cases hc
    refine ⟨?_, hi⟩
    simp only [] at hr
    by_cases h3 : version < 3
    · rw [if_pos h3] at hr
      injection hr with hr
      subst hr
      rfl
    · rw [if_neg h3] at hr
      injection hr with hr
      subst hr
      rfl

/-- The number at offset `p` of the first `n` bytes of a buffer is the number at
offset `p` of the buffer, when it lies within them. -/
theorem GET_UINT32_take (l : List Nat) (n p : Nat) (h : p + 3 < n) :
    GET_UINT32 (l.take n) p = GET_UINT32 l p := by
  unfold GET_UINT32
  simp only [List.getD_eq_getElem?_getD]
  rw [List.getElem?_take_of_lt (by omega), List.getElem?_take_of_lt (by omega),
    List.getElem?_take_of_lt (by omega), List.getElem?_take_of_lt (by omega)]

/-- A header is returned only for a file that starts with the tag, whose header
length is above 12 and at most 124 and within the file, and whose version is
at most 5; the index into `v4_compressors` was below 4 and the hunk length of
version 5 is not 0. -/
theorem read_header_returns (stack file : List Nat) (h : chd_header)
    (hr : read_header stack file = .returns h) :
    file.take TAG_LEN = TAG ∧ TAG_AND_LEN < GET_UINT32 file TAG_LEN
      ∧ GET_UINT32 file TAG_LEN ≤ MAX_HEADERLEN ∧ GET_UINT32 file TAG_LEN ≤ file.length
      ∧ h.version ≤ 5 ∧ (h.version = 5 → 0 < h.hunk_len) := by
  unfold read_header at hr
  by_cases h0 : file.length < TAG_AND_LEN
  · rw [if_pos h0] at hr; cases hr
  rw [if_neg h0] at hr
  lift_lets at hr
  extract_lets b len b2 hdr version at hr
  have h12 : (file.take TAG_AND_LEN).length = TAG_AND_LEN := by
    rw [List.length_take]; omega
  have hb : b.take TAG_LEN = file.take TAG_LEN := by
    show ((file.take TAG_AND_LEN) ++ _).take TAG_LEN = _
    rw [List.take_append_of_le_length (by rw [h12]; decide), List.take_take]
    rfl
  have hlen : len = GET_UINT32 file TAG_LEN := by
    show GET_UINT32 ((file.take TAG_AND_LEN) ++ _) TAG_LEN = _
    rw [GET_UINT32_append _ _ _ (by rw [h12]; decide), GET_UINT32_take _ _ _ (by decide)]
  by_cases h1 : b.take TAG_LEN ≠ TAG
  · rw [if_pos h1] at hr; cases hr
  rw [if_neg h1] at hr
  by_cases h2 : len < TAG_AND_LEN ∨ len > MAX_HEADERLEN
  · rw [if_pos h2] at hr; cases hr
  rw [if_neg h2] at hr
  by_cases h3 : len - TAG_AND_LEN = 0 ∨ file.length < len
  · rw [if_pos h3] at hr; cases hr
  rw [if_neg h3] at hr
  by_cases h4 : version > 5
  · rw [if_pos h4] at hr; cases hr
  rw [if_neg h4] at hr
  have t1 : file.take TAG_LEN = TAG := by
    rw [← hb]; exact not_not.mp h1
  have t2 : TAG_AND_LEN < GET_UINT32 file TAG_LEN := by
    rw [← hlen]; unfold TAG_AND_LEN at h2 h3 ⊢; omega
  have t3 : GET_UINT32 file TAG_LEN ≤ MAX_HEADERLEN := by
    rw [← hlen]; omega
  have t4 : GET_UINT32 file TAG_LEN ≤ file.length := by
    rw [← hlen]; omega
  refine ⟨t1, t2, t3, t4, ?_⟩
  by_cases h5 : version ≥ 5
  · rw [if_pos h5] at hr
    obtain ⟨e1, e2, _⟩ := read_header_v5_returns _ _ _ hr
    exact ⟨by omega, fun _ => e2⟩
  · rw [if_neg h5] at hr
    obtain ⟨e1, _⟩ := read_header_v4_returns _ _ _ _ hr
    exact ⟨by omega, fun e => by omega⟩

/-- C30: two files on which `read_header` neither throws one of its exceptions
nor returns normally, whatever the buffer held before. A file of 108 bytes with
the tag, the length 108, the version 4 and the number 4 in the field of the
compression: `v4_compressors[4]` is read, past the four entries of the table. A
file of 124 bytes with the tag, the length 124, the version 5 and zeroes:
`(total_len + hunk_len - 1) / hunk_len` is computed with `hunk_len` 0. -/
theorem C30_read_header_unchecked (stack : List Nat) :
    read_header stack sample_chd_v4 = .index_out_of_range 4
      ∧ v4_compressors.length = 4
      ∧ read_header stack sample_chd_v5 = .division_by_zero :=
  ⟨read_header_sample_v4 stack, rfl, read_header_sample_v5 stack⟩

end Ckmame
